import Mathlib

/-!
Google Authenticator desktop: migration codec, OTP engine and vault.

A shallow embedding of `internal/migration/parser.go`, `internal/migration/migration.go`,
`internal/otp/otp.go`, `internal/storage/crypto.go` and `internal/storage/database.go`,
followed by theorems about the embedded functions.

Conventions of the embedding.

* A Go `byte` is a `Fin 256`; a Go `[]byte` and a Go `string` are both `List Byte`
  (a Go string is a byte sequence; `[]byte(s)` and `string(b)` copy the bytes unchanged,
  and a nil slice and an empty slice are both the empty list).
* Go's `uint64`, `int64` and `int32` are `Nat` / `Int` reduced explicitly modulo `2^64`
  resp. `2^32`; Go's `int` is taken to be 64 bits wide.
* A Go call ends in one of three ways: it returns a value, it returns a non-nil `error`,
  or it panics at run time.  `Result` has one constructor for each, and a fourth one,
  `outOfFuel`, which only the fuel-driven loops of the embedding can produce and which is
  shown unreachable for the fuel the entry points pass.
* Functions of the Go standard library (`encoding/base64`, `net/url`, `crypto/hmac`, ...)
  are not part of the repository; they are the fields of the parameter `GoStd`.
* A method of `Database` takes the state (the three tables of the file, the master key, the
  position in the random source) and returns its result together with the state it leaves.
-/

namespace GoAuth

set_option maxRecDepth 100000

/-! ## Machine integers and byte strings -/

/-- A Go `byte`. -/
abbrev Byte := Fin 256

/-- The Go conversion `byte(v)`: the low eight bits of `v`. -/
def byte (n : Nat) : Byte := ⟨n % 256, Nat.mod_lt _ (by decide)⟩

/-- The bytes of an ASCII string literal, as a Go `string`. -/
def goString (s : String) : List Byte := s.toList.map (fun c => byte c.toNat)

/-- The Go conversion to `uint64` of a non-negative integer: reduction modulo `2^64`. -/
def toUint64 (n : Nat) : Nat := n % 2 ^ 64

/-- The Go conversion `uint64(i)` of a signed integer (sign extension, two's complement). -/
def uint64OfInt (i : Int) : Nat := (i % 2 ^ 64).toNat

/-- The Go conversion `int64(v)` of a `uint64`: the two's complement reading of the
low 64 bits. -/
def toInt64 (v : Nat) : Int :=
  if v % 2 ^ 64 < 2 ^ 63 then ((v % 2 ^ 64 : Nat) : Int) else ((v % 2 ^ 64 : Nat) : Int) - 2 ^ 64

/-- The Go conversion `int32(v)` of a `uint64`: the two's complement reading of the
low 32 bits. -/
def toInt32 (v : Nat) : Int :=
  if v % 2 ^ 32 < 2 ^ 31 then ((v % 2 ^ 32 : Nat) : Int) else ((v % 2 ^ 32 : Nat) : Int) - 2 ^ 32

/-- Addition of two Go `int` values (64 bits, wrapping). -/
def addInt64 (a b : Int) : Int := toInt64 ((a + b) % 2 ^ 64).toNat

/-- Multiplication of two Go `int` values (64 bits, wrapping). -/
def mulInt64 (a b : Int) : Int := toInt64 ((a * b) % 2 ^ 64).toNat

/-- The value range of a Go `int32`. -/
def IsInt32 (i : Int) : Prop := -(2 ^ 31) ≤ i ∧ i < 2 ^ 31

/-- The value range of a Go `int64`. -/
def IsInt64 (i : Int) : Prop := -(2 ^ 63) ≤ i ∧ i < 2 ^ 63

instance (i : Int) : Decidable (IsInt32 i) := by unfold IsInt32; infer_instance

instance (i : Int) : Decidable (IsInt64 i) := by unfold IsInt64; infer_instance

/-! ## Outcomes of a Go call -/

/-- The errors the embedded functions return. -/
inductive GoError
  /-- The error `io.ErrUnexpectedEOF`. -/
  | unexpectedEOF
  /-- The error `fmt.Errorf("varint overflow")`. -/
  | varintOverflow
  /-- The error `fmt.Errorf("invalid wire type for otp_parameters")`. -/
  | invalidWireType
  /-- The error `fmt.Errorf("unknown field: %d", field)`. -/
  | unknownField (field : Nat)
  /-- The error `fmt.Errorf("invalid URI scheme")`. -/
  | invalidScheme
  /-- The error returned by `url.Parse`. -/
  | urlParse
  /-- The error `fmt.Errorf("missing 'data' parameter")`. -/
  | missingData
  /-- The error `fmt.Errorf("base64 decode error: %w", err)`. -/
  | base64Decode
  /-- The error `fmt.Errorf("invalid secret: %w", err)`. -/
  | invalidSecret
  /-- The error `fmt.Errorf("invalid URI scheme, expected otpauth://")`. -/
  | invalidOtpauthScheme
  /-- The error `fmt.Errorf("failed to parse URI: %w", err)`. -/
  | parseURI
  /-- The error `fmt.Errorf("unsupported OTP type: %s", u.Host)`. -/
  | unsupportedOtpType
  /-- The error `fmt.Errorf("missing label in URI")`. -/
  | missingLabel
  /-- The error `fmt.Errorf("failed to decode label: %w", err)`. -/
  | decodeLabel
  /-- The error `fmt.Errorf("missing secret parameter")`. -/
  | missingSecret
  /-- The error `fmt.Errorf("failed to decode secret: %w", err)`. -/
  | decodeSecret
  /-- The error `fmt.Errorf("unsupported algorithm: %s", algo)`. -/
  | unsupportedAlgorithm
  /-- The error `fmt.Errorf("unsupported digit count: %s", digits)`. -/
  | unsupportedDigits
  /-- The error `fmt.Errorf("HOTP requires counter parameter")`. -/
  | missingCounter
  /-- The error `fmt.Errorf("invalid counter value: %w", err)`. -/
  | invalidCounter
  /-- The error `fmt.Errorf("failed to create cipher: %w", err)`. -/
  | createCipher
  /-- The error `ErrInvalidData`. -/
  | invalidData
  /-- The error `ErrDecryptionFailed`. -/
  | decryptionFailed
  /-- The error `fmt.Errorf("database not initialized")`. -/
  | notInitialized
  /-- The error `fmt.Errorf("failed to decode salt: %w", err)`. -/
  | decodeSalt
  /-- The error `fmt.Errorf("no password set")`. -/
  | noPasswordSet
  /-- The error `fmt.Errorf("failed to decode verifier: %w", err)`. -/
  | decodeVerifier
  /-- The error `fmt.Errorf("invalid password")`. -/
  | invalidPassword
  /-- The error `fmt.Errorf("database is locked, password required")`. -/
  | locked
  /-- The error `sql.ErrNoRows`. -/
  | sqlNoRows
  /-- The error `fmt.Errorf("failed to decode settings: %w", err)`. -/
  | decodeSettings
  /-- The error returned by `json.Unmarshal`. -/
  | jsonUnmarshal
  /-- The error `fmt.Errorf("device verifier not found")`. -/
  | deviceVerifierNotFound
  /-- The error `fmt.Errorf("device key verification failed")`. -/
  | deviceKeyVerification
  /-- The error `fmt.Errorf("failed to decode account data: %w", err)`. -/
  | decodeAccountData
  deriving DecidableEq, Repr

/-- The outcome of a Go call. -/
inductive Result (α : Type)
  /-- The call returned `value` and a nil error. -/
  | ok (value : α)
  /-- The call returned the non-nil error `e`. -/
  | error (e : GoError)
  /-- The call panicked (index or slice bounds out of range, integer division by zero). -/
  | panic
  /-- The fuel of a loop of the embedding ran out (never an outcome of the Go code). -/
  | outOfFuel
  deriving DecidableEq, Repr

/-! ## `internal/migration/migration.go`: the transport structure -/

/-- The constant `AlgorithmSHA1`. -/
def AlgorithmSHA1 : Int := 1

/-- The constant `AlgorithmSHA256`. -/
def AlgorithmSHA256 : Int := 2

/-- The constant `AlgorithmSHA512`. -/
def AlgorithmSHA512 : Int := 3

/-- The constant `AlgorithmMD5`. -/
def AlgorithmMD5 : Int := 4

/-- The constant `DigitCountSix`. -/
def DigitCountSix : Int := 1

/-- The constant `DigitCountEight`. -/
def DigitCountEight : Int := 2

/-- The constant `OtpTypeHOTP`. -/
def OtpTypeHOTP : Int := 1

/-- The constant `OtpTypeTOTP`. -/
def OtpTypeTOTP : Int := 2

/-- The struct `OtpParameters`; `Algorithm`, `Digits` and `Type` are `int32` enums,
`Counter` is an `int64`. -/
structure OtpParameters where
  Secret : List Byte
  Name : List Byte
  Issuer : List Byte
  Algorithm : Int
  Digits : Int
  /-- The field `Type` (a Lean keyword, hence the underscore). -/
  Type_ : Int
  Counter : Int
  deriving DecidableEq, Repr

/-- The method `String` of `Algorithm`. -/
def AlgorithmString (a : Int) : List Byte :=
  if a = AlgorithmSHA1 then goString "SHA1"
  else if a = AlgorithmSHA256 then goString "SHA256"
  else if a = AlgorithmSHA512 then goString "SHA512"
  else if a = AlgorithmMD5 then goString "MD5"
  else goString "SHA1"

/-- The method `ToInt` of `DigitCount`. -/
def DigitCountToInt (d : Int) : Int :=
  if d = DigitCountSix then 6 else if d = DigitCountEight then 8 else 6

/-- The method `String` of `OtpType`. -/
def OtpTypeString (t : Int) : List Byte :=
  if t = OtpTypeHOTP then goString "HOTP"
  else if t = OtpTypeTOTP then goString "TOTP"
  else goString "TOTP"

/-- Every integer field of the record lies in the range of its Go type. -/
def OtpParameters.InRange (p : OtpParameters) : Prop :=
  IsInt32 p.Algorithm ∧ IsInt32 p.Digits ∧ IsInt32 p.Type_ ∧ IsInt64 p.Counter

instance (p : OtpParameters) : Decidable p.InRange := by
  unfold OtpParameters.InRange; infer_instance

/-! ## `internal/migration/parser.go`: the wire-format reader -/

/-- The constant `wireVarint`. -/
def wireVarint : Nat := 0

/-- The constant `wireLen`. -/
def wireLen : Nat := 2

/-- The struct `decoder`: the input and the read position. -/
structure decoder where
  data : List Byte
  pos : Nat
  deriving DecidableEq, Repr

/-- The loop of `decoder.varint`, run on the bytes from `d.pos` on.  The arguments are the
unread bytes, the position `d.pos`, the accumulator `x`, the shift `s` and the loop
counter `i`; the result is what `varint` returns together with the final `d.pos`. -/
def varintLoop : List Byte → Nat → Nat → Nat → Nat → Result Nat × Nat
  | [], pos, _, _, _ => (.error .unexpectedEOF, pos)
  | b :: rest, pos, x, s, i =>
    if b.val < 0x80 then
      if i > 9 ∨ (i = 9 ∧ b.val > 1) then (.error .varintOverflow, pos + 1)
      else (.ok (x ||| (b.val <<< s) % 2 ^ 64), pos + 1)
    else varintLoop rest (pos + 1) (x ||| ((b.val &&& 0x7f) <<< s) % 2 ^ 64) (s + 7) (i + 1)

/-- The method `decoder.varint`: the value read (a `uint64`) or the error, and the
decoder after the call. -/
def decoder.varint (d : decoder) : Result Nat × decoder :=
  let r := varintLoop (d.data.drop d.pos) d.pos 0 0 0
  (r.1, { d with pos := r.2 })

/-- The method `decoder.bytes`.  `hi` is the Go expression `d.pos+int(n)`; the slice
expression `d.data[d.pos : hi]` panics when `hi < d.pos` (when `hi` exceeds the length the
function has returned before). -/
def decoder.bytes (d : decoder) : Result (List Byte) × decoder :=
  match d.varint with
  | (.ok n, d1) =>
    let hi := addInt64 (d1.pos : Int) (toInt64 n)
    if hi > (d1.data.length : Int) then (.error .unexpectedEOF, d1)
    else if hi < (d1.pos : Int) then (.panic, d1)
    else (.ok ((d1.data.drop d1.pos).take (hi.toNat - d1.pos)), { d1 with pos := hi.toNat })
  | (.error e, d1) => (.error e, d1)
  | (.panic, d1) => (.panic, d1)
  | (.outOfFuel, d1) => (.outOfFuel, d1)

/-- The method `decoder.string`: `string(b)` keeps the bytes. -/
def decoder.string (d : decoder) : Result (List Byte) × decoder := d.bytes

/-- The outcome of one pass through the body of the loop of `parseOtpParameters`. -/
inductive OtpStep
  /-- The body ran to its end; the loop condition is tested again. -/
  | next (d : decoder) (param : OtpParameters)
  /-- The statement `break`: the tag could not be read. -/
  | stop
  /-- The statement `return nil, err`. -/
  | fail (e : GoError)
  /-- A panic inside the body. -/
  | panic
  /-- Fuel ran out inside the body (never happens). -/
  | outOfFuel
  deriving DecidableEq, Repr

/-- A field of `OtpParameters` read with `d.bytes()` / `d.string()` and stored by `set`. -/
def otpBytesField (d1 : decoder) (set : List Byte → OtpParameters) : OtpStep :=
  match d1.bytes with
  | (.ok b, d2) => .next d2 (set b)
  | (.error e, _) => .fail e
  | (.panic, _) => .panic
  | (.outOfFuel, _) => .outOfFuel

/-- A field of `OtpParameters` read with `d.varint()` and stored by `set`. -/
def otpVarintField (d1 : decoder) (set : Nat → OtpParameters) : OtpStep :=
  match d1.varint with
  | (.ok val, d2) => .next d2 (set val)
  | (.error e, _) => .fail e
  | (.panic, _) => .panic
  | (.outOfFuel, _) => .outOfFuel

/-- The body of the loop of `parseOtpParameters`: read a tag, then the field. -/
def parseOtpParametersStep (d : decoder) (param : OtpParameters) : OtpStep :=
  match d.varint with
  | (.ok tag, d1) =>
    let wire := tag &&& 7
    let field := tag >>> 3
    if field = 1 then otpBytesField d1 (fun b => { param with Secret := b })
    else if field = 2 then otpBytesField d1 (fun b => { param with Name := b })
    else if field = 3 then otpBytesField d1 (fun b => { param with Issuer := b })
    else if field = 4 then otpVarintField d1 (fun v => { param with Algorithm := toInt32 v })
    else if field = 5 then otpVarintField d1 (fun v => { param with Digits := toInt32 v })
    else if field = 6 then otpVarintField d1 (fun v => { param with Type_ := toInt32 v })
    else if field = 7 then otpVarintField d1 (fun v => { param with Counter := toInt64 v })
    else if wire = wireVarint then otpVarintField d1 (fun _ => param)
    else if wire = wireLen then otpBytesField d1 (fun _ => param)
    else .next d1 param
  | (_, _) => .stop

/-- The loop `for d.pos < len(d.data)` of `parseOtpParameters`, with fuel. -/
def parseOtpParametersLoop : Nat → decoder → OtpParameters → Result OtpParameters
  | 0, _, _ => .outOfFuel
  | fuel + 1, d, param =>
    if d.pos < d.data.length then
      match parseOtpParametersStep d param with
      | .next d2 param2 => parseOtpParametersLoop fuel d2 param2
      | .stop => .ok param
      | .fail e => .error e
      | .panic => .panic
      | .outOfFuel => .outOfFuel
    else .ok param

/-- The record `parseOtpParameters` starts from: the three defaults, everything else zero. -/
def defaultOtpParameters : OtpParameters :=
  { Secret := [], Name := [], Issuer := [],
    Algorithm := AlgorithmSHA1, Digits := DigitCountSix, Type_ := OtpTypeTOTP, Counter := 0 }

/-- The function `parseOtpParameters`.  Every pass through the loop reads at least one
byte, so `len(data)` passes and the final test of the loop condition are enough. -/
def parseOtpParameters (data : List Byte) : Result OtpParameters :=
  parseOtpParametersLoop (data.length + 1) { data := data, pos := 0 } defaultOtpParameters

/-- The outcome of one pass through the body of the loop of `parsePayload`. -/
inductive PayloadStep
  /-- The body ran to its end; the loop condition is tested again. -/
  | next (d : decoder) (accounts : List OtpParameters)
  /-- The statement `break`: the tag could not be read. -/
  | stop
  /-- The statement `return nil, err`. -/
  | fail (e : GoError)
  /-- A panic inside the body. -/
  | panic
  /-- Fuel ran out inside the body (never happens). -/
  | outOfFuel
  deriving DecidableEq, Repr

/-- The body of the loop of `parsePayload`. -/
def parsePayloadStep (d : decoder) (accounts : List OtpParameters) : PayloadStep :=
  match d.varint with
  | (.ok tag, d1) =>
    let wire := tag &&& 7
    let field := tag >>> 3
    if field = 1 then
      if wire ≠ wireLen then .fail .invalidWireType
      else
        match d1.bytes with
        | (.ok paramBytes, d2) =>
          match parseOtpParameters paramBytes with
          | .ok param => .next d2 (accounts ++ [param])
          | .error e => .fail e
          | .panic => .panic
          | .outOfFuel => .outOfFuel
        | (.error e, _) => .fail e
        | (.panic, _) => .panic
        | (.outOfFuel, _) => .outOfFuel
    else if field = 2 ∨ field = 3 ∨ field = 4 ∨ field = 5 then
      if wire = wireVarint then .next (d1.varint).2 accounts
      else .next d1 accounts
    else .fail (.unknownField field)
  | (_, _) => .stop

/-- The loop `for d.pos < len(d.data)` of `parsePayload`, with fuel. -/
def parsePayloadLoop : Nat → decoder → List OtpParameters → Result (List OtpParameters)
  | 0, _, _ => .outOfFuel
  | fuel + 1, d, accounts =>
    if d.pos < d.data.length then
      match parsePayloadStep d accounts with
      | .next d2 accounts2 => parsePayloadLoop fuel d2 accounts2
      | .stop => .ok accounts
      | .fail e => .error e
      | .panic => .panic
      | .outOfFuel => .outOfFuel
    else .ok accounts

/-- The function `parsePayload`. -/
def parsePayload (data : List Byte) : Result (List OtpParameters) :=
  parsePayloadLoop (data.length + 1) { data := data, pos := 0 } []

/-! ## `internal/migration/parser.go`: the wire-format writer -/

/-- The loop of `appendVarint`.  The first argument bounds the number of passes; a pass
replaces `v ≥ 0x80` by `v >> 7 < v`, so `v` passes are always enough, and with no pass left
`v` is `0` and the loop has ended. -/
def appendVarintLoop : Nat → List Byte → Nat → List Byte
  | 0, buf, v => buf ++ [byte v]
  | fuel + 1, buf, v =>
    if v ≥ 0x80 then appendVarintLoop fuel (buf ++ [byte (v % 256 ||| 0x80)]) (v >>> 7)
    else buf ++ [byte v]

/-- The function `appendVarint`. -/
def appendVarint (buf : List Byte) (v : Nat) : List Byte := appendVarintLoop v buf v

/-- The function `appendTag`; `field<<3|wire` is computed in `uint64`. -/
def appendTag (buf : List Byte) (field wire : Nat) : List Byte :=
  appendVarint buf (toUint64 (field <<< 3) ||| wire)

/-- The function `appendBytes`. -/
def appendBytes (buf : List Byte) (b : List Byte) : List Byte :=
  appendVarint buf (toUint64 b.length) ++ b

/-- The function `appendString`. -/
def appendString (buf : List Byte) (s : List Byte) : List Byte := appendBytes buf s

/-- The function `encodeOtpParameters`. -/
def encodeOtpParameters (param : OtpParameters) : List Byte :=
  let buf : List Byte := []
  let buf := if param.Secret.length > 0 then appendBytes (appendTag buf 1 wireLen) param.Secret
    else buf
  let buf := if param.Name ≠ [] then appendString (appendTag buf 2 wireLen) param.Name else buf
  let buf := if param.Issuer ≠ [] then appendString (appendTag buf 3 wireLen) param.Issuer
    else buf
  let buf := appendVarint (appendTag buf 4 wireVarint) (uint64OfInt param.Algorithm)
  let buf := appendVarint (appendTag buf 5 wireVarint) (uint64OfInt param.Digits)
  let buf := appendVarint (appendTag buf 6 wireVarint) (uint64OfInt param.Type_)
  let buf := if param.Type_ = OtpTypeHOTP
    then appendVarint (appendTag buf 7 wireVarint) (uint64OfInt param.Counter) else buf
  buf

/-- The loop `for _, acc := range accounts` of `encodePayload`. -/
def encodeAccounts (buf : List Byte) : List OtpParameters → List Byte
  | [] => buf
  | acc :: rest =>
    encodeAccounts (appendBytes (appendTag buf 1 wireLen) (encodeOtpParameters acc)) rest

/-- The function `encodePayload`; `unixNano` is the value `time.Now().UnixNano()` returns
(an `int64`), and `%` is Go's remainder, which truncates toward zero. -/
def encodePayload (accounts : List OtpParameters) (unixNano : Int) : List Byte :=
  let buf := encodeAccounts [] accounts
  let buf := appendVarint (appendTag buf 2 wireVarint) 1
  let buf := appendVarint (appendTag buf 3 wireVarint) (toUint64 accounts.length)
  let buf := appendVarint (appendTag buf 4 wireVarint) 0
  let buf := appendVarint (appendTag buf 5 wireVarint) (uint64OfInt (unixNano.tmod 1000000))
  buf

/-! ## Wire messages

The vocabulary in which the properties of the reader are stated: a message is the
concatenation of the encodings of its fields. -/

/-- A field of a wire message: a field number with a varint value (wire type 0) or with a
length-delimited value (wire type 2). -/
inductive WireField
  | varint (field : Nat) (value : Nat)
  | bytes (field : Nat) (value : List Byte)
  deriving DecidableEq, Repr

/-- The field number. -/
def WireField.field : WireField → Nat
  | .varint f _ => f
  | .bytes f _ => f

/-- The bytes of a field: the tag, then the value, written by the functions of the writer. -/
def WireField.encode : WireField → List Byte
  | .varint f v => appendVarint (appendTag [] f wireVarint) v
  | .bytes f b => appendBytes (appendTag [] f wireLen) b

/-- The bytes of a sequence of fields. -/
def encodeFields : List WireField → List Byte
  | [] => []
  | f :: rest => f.encode ++ encodeFields rest

/-- The field number fits a tag (`field << 3` is a `uint64`) and a varint value is a
`uint64`. -/
def WireField.WellFormed : WireField → Prop
  | .varint f v => f < 2 ^ 61 ∧ v < 2 ^ 64
  | .bytes f _ => f < 2 ^ 61

/-- The field has the wire type the `OtpParameters` schema gives its number: fields 1 to 3
are length-delimited, fields 4 to 7 are varints, any other number may be either. -/
def WireField.OtpSchema : WireField → Prop
  | .varint f _ => f ≠ 1 ∧ f ≠ 2 ∧ f ≠ 3
  | .bytes f _ => f ≠ 4 ∧ f ≠ 5 ∧ f ≠ 6 ∧ f ≠ 7

instance (f : WireField) : Decidable f.WellFormed := by
  cases f <;> unfold WireField.WellFormed <;> infer_instance

instance (f : WireField) : Decidable f.OtpSchema := by
  cases f <;> unfold WireField.OtpSchema <;> infer_instance

/-- What a field that follows the schema changes in the record being read. -/
def WireField.store (param : OtpParameters) : WireField → OtpParameters
  | .bytes f b =>
    if f = 1 then { param with Secret := b }
    else if f = 2 then { param with Name := b }
    else if f = 3 then { param with Issuer := b }
    else param
  | .varint f v =>
    if f = 4 then { param with Algorithm := toInt32 v }
    else if f = 5 then { param with Digits := toInt32 v }
    else if f = 6 then { param with Type_ := toInt32 v }
    else if f = 7 then { param with Counter := toInt64 v }
    else param

/-- The fields `encodeOtpParameters` writes for a record, in order. -/
def otpFields (p : OtpParameters) : List WireField :=
  (if p.Secret.length > 0 then [WireField.bytes 1 p.Secret] else []) ++
  (if p.Name ≠ [] then [WireField.bytes 2 p.Name] else []) ++
  (if p.Issuer ≠ [] then [WireField.bytes 3 p.Issuer] else []) ++
  [WireField.varint 4 (uint64OfInt p.Algorithm), WireField.varint 5 (uint64OfInt p.Digits),
    WireField.varint 6 (uint64OfInt p.Type_)] ++
  (if p.Type_ = OtpTypeHOTP then [WireField.varint 7 (uint64OfInt p.Counter)] else [])

/-- The varint fields 2 to 5 of the top-level message, given as (number, value) pairs. -/
def batchFields (fs : List (Nat × Nat)) : List WireField :=
  fs.map fun f => WireField.varint f.1 f.2

/-- The field-1 records of the top-level message, given by their bytes. -/
def recordFields (recs : List (List Byte)) : List WireField :=
  recs.map fun r => WireField.bytes 1 r

/-- The pairs are fields 2, 3, 4 or 5 with `uint64` values. -/
def IsBatch (fs : List (Nat × Nat)) : Prop :=
  ∀ f ∈ fs, (f.1 = 2 ∨ f.1 = 3 ∨ f.1 = 4 ∨ f.1 = 5) ∧ f.2 < 2 ^ 64

instance (fs : List (Nat × Nat)) : Decidable (IsBatch fs) := by
  unfold IsBatch; infer_instance

/-- The bytes `bad`, followed in the input by `rest`, are a varint that cannot be read:
either only continuation groups up to the end of the input (error `e` is
`io.ErrUnexpectedEOF`), or continuation groups and a final group that is the eleventh or
later, or the tenth with a value above 1 (error `e` is the varint-overflow error). -/
def MalformedVarint (bad rest : List Byte) (e : GoError) : Prop :=
  ∃ cont : List Byte, (∀ c ∈ cont, 0x80 ≤ c.val) ∧
    ((bad = cont ∧ rest = [] ∧ e = .unexpectedEOF) ∨
     (∃ b : Byte, bad = cont ++ [b] ∧ b.val < 0x80 ∧
        (10 ≤ cont.length ∨ (cont.length = 9 ∧ 1 < b.val)) ∧ e = .varintOverflow))

/-! ## `internal/storage/database.go`: the records -/

/-- The struct `Account`; `Digits` and `Period` are `int`, `Counter` is an `int64`. -/
structure Account where
  ID : List Byte
  Name : List Byte
  Issuer : List Byte
  Secret : List Byte
  Algorithm : List Byte
  Digits : Int
  /-- The field `Type` (a Lean keyword, hence the underscore). -/
  Type_ : List Byte
  Counter : Int
  Period : Int
  Group : List Byte
  deriving DecidableEq, Repr

/-- The struct `Settings`. -/
structure Settings where
  PasswordEnabled : Bool
  Theme : List Byte
  AutoLockMinutes : Int
  deriving DecidableEq, Repr

/-- The function `DefaultSettings`. -/
def DefaultSettings : Settings :=
  { PasswordEnabled := false, Theme := goString "light", AutoLockMinutes := 5 }

/-! ## The Go standard library -/

/-- The hash constructors `sha1.New`, `sha256.New`, `sha512.New` and `md5.New`. -/
inductive HashAlg
  | sha1
  | sha256
  | sha512
  | md5
  deriving DecidableEq, Repr

/-- The fields of a `url.URL` the code reads. -/
structure URL where
  Host : List Byte
  Path : List Byte
  RawQuery : List Byte
  deriving DecidableEq, Repr

/-- The functions of the Go standard library the code calls.  They are not part of the
repository, so the embedding takes them as a parameter. -/
structure GoStd where
  /-- The function `strings.ToUpper`. -/
  toUpper : List Byte → List Byte
  /-- The method `base32.StdEncoding.DecodeString`; `none` is a non-nil error. -/
  base32Decode : List Byte → Option (List Byte)
  /-- The digest `mac.Sum(nil)` of `hmac.New(h, key)` after `mac.Write(message)`. -/
  hmacSum : HashAlg → List Byte → List Byte → List Byte
  /-- The rest of `generateCode` from the conversion `uint32(math.Pow10(digits))` on, for
  `digits > 9`: the power of ten is then not a `uint32`, and Go leaves the result of the
  conversion to the implementation. -/
  codeBeyondNine : Int → Nat → Result (List Byte)
  /-- The method `base64.StdEncoding.EncodeToString`. -/
  base64Encode : List Byte → List Byte
  /-- The method `base64.StdEncoding.DecodeString`; `none` is a non-nil error. -/
  base64Decode : List Byte → Option (List Byte)
  /-- The function `url.QueryEscape`. -/
  queryEscape : List Byte → List Byte
  /-- The function `url.Parse`; `none` is a non-nil error. -/
  urlParse : List Byte → Option URL
  /-- The value `u.Query().Get(key)` of a URL with raw query `rawQuery`. -/
  queryGet : (rawQuery : List Byte) → (key : List Byte) → List Byte
  /-- The method `base32.StdEncoding.EncodeToString`. -/
  base32Encode : List Byte → List Byte
  /-- The function `url.QueryUnescape`; `none` is a non-nil error. -/
  queryUnescape : List Byte → Option (List Byte)
  /-- The method `DecodeString` of `base32.StdEncoding.WithPadding(base32.NoPadding)`;
  `none` is a non-nil error. -/
  base32DecodeNoPadding : List Byte → Option (List Byte)
  /-- The call `strconv.ParseInt(s, 10, 64)`; `none` is a non-nil error. -/
  parseInt : List Byte → Option Int
  /-- The bytes `crypto/rand.Reader` delivers, numbered in the order they are read. -/
  randByte : Nat → Byte
  /-- The function `argon2.IDKey`; the arguments are the password, the salt, the time, the
  memory, the threads and the key length. -/
  argon2IDKey : List Byte → List Byte → Nat → Nat → Nat → Nat → List Byte
  /-- The function `sha256.Sum256`. -/
  sha256Sum : List Byte → List Byte
  /-- The value of `os.Hostname()`. -/
  hostname : List Byte
  /-- The value of `os.UserHomeDir()`. -/
  userHomeDir : List Byte
  /-- The constant `runtime.GOOS`. -/
  goos : List Byte
  /-- The constant `runtime.GOARCH`. -/
  goarch : List Byte
  /-- The call `gcm.Seal(nil, nonce, plaintext, nil)` of the AES-GCM under `key`: the
  ciphertext followed by the tag. -/
  gcmSeal : (key : List Byte) → (nonce : List Byte) → (plaintext : List Byte) → List Byte
  /-- The call `gcm.Open(nil, nonce, ciphertext, nil)` of the AES-GCM under `key`; `none` is
  a non-nil error. -/
  gcmOpen : (key : List Byte) → (nonce : List Byte) → (ciphertext : List Byte) →
    Option (List Byte)
  /-- The call `json.Marshal(acc)` for an `Account`. -/
  jsonMarshalAccount : Account → List Byte
  /-- The call `json.Unmarshal(data, &acc)` for a zero `Account`; `none` is a non-nil
  error. -/
  jsonUnmarshalAccount : List Byte → Option Account
  /-- The call `json.Marshal(s)` for a `Settings`. -/
  jsonMarshalSettings : Settings → List Byte
  /-- The call `json.Unmarshal(data, &s)` for a zero `Settings`; `none` is a non-nil
  error. -/
  jsonUnmarshalSettings : List Byte → Option Settings

/-- What the migration codec needs of the standard library: decoding undoes encoding in
`encoding/base64`, the encoding of a non-empty input is not empty, and `url.Parse` followed by
`Query().Get("data")` gives back what `url.QueryEscape` was applied to in the `data`
parameter of a migration URI. -/
structure GoStd.MigrationLaws (std : GoStd) : Prop where
  base64_round_trip : ∀ b : List Byte, std.base64Decode (std.base64Encode b) = some b
  base64_nonempty : ∀ b : List Byte, b ≠ [] → std.base64Encode b ≠ []
  query_round_trip : ∀ b : List Byte, ∃ u : URL,
    std.urlParse (goString "otpauth-migration://offline?data=" ++
      std.queryEscape (std.base64Encode b)) = some u ∧
    std.queryGet u.RawQuery (goString "data") = std.base64Encode b

/-- The key has one of the three lengths `aes.NewCipher` accepts. -/
def ValidAesKey (key : List Byte) : Prop :=
  key.length = 16 ∨ key.length = 24 ∨ key.length = 32

instance (key : List Byte) : Decidable (ValidAesKey key) := by
  unfold ValidAesKey; infer_instance

/-- What the vault needs of the standard library: decoding undoes encoding in
`encoding/base64`; under an AES key and a 12-byte nonce `Open` undoes `Seal`, and `Seal` adds
the 16 bytes of the tag, which `Open` takes off again; `argon2.IDKey` returns a key of the length asked for and
`sha256.Sum256` returns 32 bytes; an account that `json.Unmarshal` has produced is produced
again from its `json.Marshal`. -/
structure GoStd.VaultLaws (std : GoStd) : Prop where
  base64_round_trip : ∀ b : List Byte, std.base64Decode (std.base64Encode b) = some b
  gcm_round_trip : ∀ key nonce plaintext : List Byte, ValidAesKey key → nonce.length = 12 →
    std.gcmOpen key nonce (std.gcmSeal key nonce plaintext) = some plaintext
  gcm_length : ∀ key nonce plaintext : List Byte,
    (std.gcmSeal key nonce plaintext).length = plaintext.length + 16
  gcm_open_length : ∀ key nonce ciphertext plaintext : List Byte,
    std.gcmOpen key nonce ciphertext = some plaintext →
    plaintext.length + 16 = ciphertext.length
  argon2_length : ∀ (password salt : List Byte) (time memory threads keyLen : Nat),
    (std.argon2IDKey password salt time memory threads keyLen).length = keyLen
  sha256_length : ∀ b : List Byte, (std.sha256Sum b).length = 32
  json_round_trip : ∀ (data : List Byte) (a : Account), std.jsonUnmarshalAccount data = some a →
    std.jsonUnmarshalAccount (std.jsonMarshalAccount a) = some a

/-! ## Strings -/

/-- The function `strings.Cut` for a one-byte separator: the text before and after its
first occurrence. -/
def cut (sep : Byte) : List Byte → Option (List Byte × List Byte)
  | [] => none
  | b :: rest =>
    if b = sep then some ([], rest) else (cut sep rest).map fun p => (b :: p.1, p.2)

/-- The call `strings.TrimPrefix(s, "/")`. -/
def trimSlash : List Byte → List Byte
  | [] => []
  | b :: rest => if b = byte 0x2f then rest else b :: rest

/-! ## `internal/migration/parser.go`: the URI functions -/

/-- The function `ParseMigrationURISimple`. -/
def ParseMigrationURISimple (std : GoStd) (uri : List Byte) : Result (List OtpParameters) :=
  if ¬ (goString "otpauth-migration://").isPrefixOf uri then .error .invalidScheme
  else
    match std.urlParse uri with
    | none => .error .urlParse
    | some u =>
      let dataParam := std.queryGet u.RawQuery (goString "data")
      if dataParam = [] then .error .missingData
      else
        match std.base64Decode dataParam with
        | none => .error .base64Decode
        | some protoData => parsePayload protoData

/-- The function `GenerateMigrationURISimple`; `unixNano` is the clock reading that
`encodePayload` takes. -/
def GenerateMigrationURISimple (std : GoStd) (accounts : List OtpParameters) (unixNano : Int) :
    Result (List Byte) :=
  let payloadData := encodePayload accounts unixNano
  let encoded := std.base64Encode payloadData
  let encodedURL := std.queryEscape encoded
  .ok (goString "otpauth-migration://offline?data=" ++ encodedURL)

/-! ## `internal/migration/migration.go`: the standard URI -/

/-- The `switch` of `ParseOTPAuthURI` on the upper-cased algorithm name; `none` is the
`default` case. -/
def algorithmOf (upper : List Byte) : Option Int :=
  if upper = goString "SHA1" then some AlgorithmSHA1
  else if upper = goString "SHA256" then some AlgorithmSHA256
  else if upper = goString "SHA512" then some AlgorithmSHA512
  else if upper = goString "MD5" then some AlgorithmMD5
  else none

/-- The branches of `ParseOTPAuthURI` on the `digits` parameter; `none` is the final
`else`. -/
def digitsOf (digits : List Byte) : Option Int :=
  if digits = goString "8" then some DigitCountEight
  else if digits = goString "6" then some DigitCountSix
  else none

/-- The lines of `ParseOTPAuthURI` that split the label into the issuer and the name: the
calls `strings.Contains(label, ":")` and `strings.SplitN(label, ":", 2)` together are one
`cut` at the first `':'`, and without a `':'` the issuer stays empty. -/
def splitLabel (label : List Byte) : List Byte × List Byte :=
  match cut (byte 0x3a) label with
  | some p => p
  | none => ([], label)

/-- The function `ParseOTPAuthURI`; the record starts with the zero counter of a fresh
struct. -/
def ParseOTPAuthURI (std : GoStd) (uri : List Byte) : Result OtpParameters :=
  if ¬ (goString "otpauth://").isPrefixOf uri then .error .invalidOtpauthScheme
  else
    match std.urlParse uri with
    | none => .error .parseURI
    | some u =>
      if u.Host ≠ goString "hotp" ∧ u.Host ≠ goString "totp" then .error .unsupportedOtpType
      else
        let otpType := if u.Host = goString "hotp" then OtpTypeHOTP else OtpTypeTOTP
        let label := trimSlash u.Path
        if label = [] then .error .missingLabel
        else
          match std.queryUnescape label with
          | none => .error .decodeLabel
          | some label =>
            let parts := splitLabel label
            let secretStr := std.queryGet u.RawQuery (goString "secret")
            if secretStr = [] then .error .missingSecret
            else
              match std.base32DecodeNoPadding (std.toUpper secretStr) with
              | none => .error .decodeSecret
              | some secret =>
                let issuerParam := std.queryGet u.RawQuery (goString "issuer")
                let issuer := if issuerParam ≠ [] then issuerParam else parts.1
                let algo := std.queryGet u.RawQuery (goString "algorithm")
                match (if algo ≠ [] then algorithmOf (std.toUpper algo)
                    else some AlgorithmSHA1) with
                | none => .error .unsupportedAlgorithm
                | some algorithm =>
                  let digits := std.queryGet u.RawQuery (goString "digits")
                  match (if digits ≠ [] then digitsOf digits else some DigitCountSix) with
                  | none => .error .unsupportedDigits
                  | some digitCount =>
                    let param : OtpParameters :=
                      { Secret := secret, Name := parts.2, Issuer := issuer,
                        Algorithm := algorithm, Digits := digitCount, Type_ := otpType,
                        Counter := 0 }
                    if otpType = OtpTypeHOTP then
                      let counterStr := std.queryGet u.RawQuery (goString "counter")
                      if counterStr = [] then .error .missingCounter
                      else
                        match std.parseInt counterStr with
                        | none => .error .invalidCounter
                        | some counter => .ok { param with Counter := counter }
                    else .ok param

/-- The checks `ParseOTPAuthURI` makes before it reads the optional parameters hold for
`uri`: the scheme, the URL `u`, the host, the decoded `label` and the decoded `secret`. -/
structure OtpAuthHead (std : GoStd) (uri : List Byte) (u : URL) (label secret : List Byte) :
    Prop where
  scheme : (goString "otpauth://").isPrefixOf uri = true
  parsed : std.urlParse uri = some u
  host : u.Host = goString "hotp" ∨ u.Host = goString "totp"
  label_nonempty : trimSlash u.Path ≠ []
  label_decoded : std.queryUnescape (trimSlash u.Path) = some label
  secret_nonempty : std.queryGet u.RawQuery (goString "secret") ≠ []
  secret_decoded :
    std.base32DecodeNoPadding (std.toUpper (std.queryGet u.RawQuery (goString "secret"))) =
      some secret

/-! ## `app.go` -/

/-- The account `ImportFromStandardURI` builds from the record `ParseOTPAuthURI` returned,
after `otpAccountToStorage`; `id` is the value of `uuid.New().String()`. -/
def importedAccount (std : GoStd) (id : List Byte) (param : OtpParameters) : Account :=
  { ID := id, Name := param.Name, Issuer := param.Issuer,
    Secret := std.base32Encode param.Secret, Algorithm := AlgorithmString param.Algorithm,
    Digits := DigitCountToInt param.Digits, Type_ := OtpTypeString param.Type_,
    Counter := param.Counter, Period := 30, Group := [] }

/-! ## `internal/otp/otp.go` -/

/-- The call `binary.BigEndian.PutUint64(counterBytes, v)` on eight fresh bytes. -/
def putUint64 (v : Nat) : List Byte :=
  [byte (v >>> 56), byte (v >>> 48), byte (v >>> 40), byte (v >>> 32),
   byte (v >>> 24), byte (v >>> 16), byte (v >>> 8), byte v]

/-- The call `binary.BigEndian.Uint32(b)` on the four bytes `b0 b1 b2 b3`. -/
def uint32BE (b0 b1 b2 b3 : Byte) : Nat :=
  b3.val ||| b2.val <<< 8 ||| b1.val <<< 16 ||| b0.val <<< 24

/-- The decimal digits of `n`, as `%d` prints them. -/
def decimal (n : Nat) : List Byte := (Nat.toDigits 10 n).map fun c => byte c.toNat

/-- The call `fmt.Sprintf("%0<width>d", n)`: the decimal digits of `n`, padded on the left
with `'0'` to `width` characters. -/
def sprintfZeroPad (width : Nat) (n : Nat) : List Byte :=
  List.replicate (width - (decimal n).length) (byte 0x30) ++ decimal n

/-- The hash `generateCode` selects for an upper-cased algorithm name. -/
def hashFor (upper : List Byte) : HashAlg :=
  if upper = goString "SHA1" ∨ upper = goString "" then .sha1
  else if upper = goString "SHA256" then .sha256
  else if upper = goString "SHA512" then .sha512
  else if upper = goString "MD5" then .md5
  else .sha1

/-- The lines of `generateCode` after the digest `hash` has been computed: dynamic
truncation, reduction modulo `uint32(math.Pow10(digits))` and formatting.  The index
`hash[len(hash)-1]` panics on an empty digest, the slice `hash[offset:offset+4]` panics when
it ends beyond the digest, and the modulus is `0` for negative `digits`, where `%` panics. -/
def truncateCode (std : GoStd) (hash : List Byte) (digits : Int) : Result (List Byte) :=
  match hash.getLast? with
  | none => .panic
  | some last =>
    let offset := last.val &&& 0x0f
    if hash.length < offset + 4 then .panic
    else
      let truncated :=
        uint32BE (hash.getD offset 0) (hash.getD (offset + 1) 0) (hash.getD (offset + 2) 0)
          (hash.getD (offset + 3) 0) &&& 0x7fffffff
      if digits < 0 then .panic
      else if digits ≤ 9 then
        let otp := truncated % 10 ^ digits.toNat
        .ok (sprintfZeroPad digits.toNat otp)
      else std.codeBeyondNine digits truncated

/-- The function `generateCode`. -/
def generateCode (std : GoStd) (secret : List Byte) (counter : Int) (algorithm : List Byte)
    (digits : Int) : Result (List Byte) :=
  let secret := std.toUpper (secret.filter fun b => b ≠ byte 0x20)
  match std.base32Decode secret with
  | none => .error .invalidSecret
  | some secretBytes =>
    let h := hashFor (std.toUpper algorithm)
    let hash := std.hmacSum h secretBytes (putUint64 (uint64OfInt counter))
    truncateCode std hash digits

/-- The function `GenerateHOTP`. -/
def GenerateHOTP (std : GoStd) (secret algorithm : List Byte) (digits : Int) (counter : Int) :
    Result (List Byte) :=
  generateCode std secret counter algorithm digits

/-- The function `GenerateTOTP`; `now1` and `now2` are the values of the two calls
`time.Now().Unix()`, in the order of the source.  Go's `/` and `%` truncate toward zero. -/
def GenerateTOTP (std : GoStd) (secret algorithm : List Byte) (digits : Int) (period : Int)
    (now1 now2 : Int) : Result (List Byte × Int) :=
  let period := if period = 0 then 30 else period
  let counter := now1.tdiv period
  match generateCode std secret counter algorithm digits with
  | .ok code => .ok (code, period - now2.tmod period)
  | .error e => .error e
  | .panic => .panic
  | .outOfFuel => .outOfFuel

/-- The function `GetProgress`; `now` is the value of `time.Now().Unix()`.  The product
`elapsed * 100` is a product of two `int`, which wraps; the quotient cannot overflow, since
`elapsed` is `0` when `period` is `-1`. -/
def GetProgress (period : Int) (now : Int) : Int :=
  let period := if period = 0 then 30 else period
  let elapsed := now.tmod period
  (mulInt64 elapsed 100).tdiv period

/-- The value of a string of ASCII decimal digits. -/
def decimalValue (s : List Byte) : Nat := s.foldl (fun acc b => 10 * acc + (b.val - 0x30)) 0

/-- The byte is one of the ASCII characters `'0'` to `'9'`. -/
def IsAsciiDigit (b : Byte) : Prop := 0x30 ≤ b.val ∧ b.val ≤ 0x39

instance (b : Byte) : Decidable (IsAsciiDigit b) := by unfold IsAsciiDigit; infer_instance


/-! ## `internal/storage/crypto.go`

The functions that read `crypto/rand` take the number `pos` of random bytes read so far;
the read itself does not fail. -/

/-- The constant `argonTime`. -/
def argonTime : Nat := 1

/-- The constant `argonMemory`. -/
def argonMemory : Nat := 64 * 1024

/-- The constant `argonThreads`. -/
def argonThreads : Nat := 4

/-- The constant `argonKeyLen`. -/
def argonKeyLen : Nat := 32

/-- The constant `saltLen`. -/
def saltLen : Nat := 16

/-- The constant `nonceLen`. -/
def nonceLen : Nat := 12

/-- The call `io.ReadFull(rand.Reader, buf)` for a buffer of `n` bytes, after `pos` bytes
have been read. -/
def readRandom (std : GoStd) (pos n : Nat) : List Byte :=
  (List.range n).map fun i => std.randByte (pos + i)

/-- The function `DeriveKey`. -/
def DeriveKey (std : GoStd) (password salt : List Byte) : List Byte :=
  std.argon2IDKey password salt argonTime argonMemory argonThreads argonKeyLen

/-- The function `GenerateSalt`. -/
def GenerateSalt (std : GoStd) (pos : Nat) : List Byte := readRandom std pos saltLen

/-- The function `Encrypt`: `aes.NewCipher` returns an error unless the key has 16, 24 or 32
bytes, `cipher.NewGCM` accepts every AES block, and `gcm.Seal(nonce, nonce, plaintext, nil)`
appends the sealed text to the nonce. -/
def Encrypt (std : GoStd) (plaintext key : List Byte) (pos : Nat) : Result (List Byte) :=
  if ¬ ValidAesKey key then .error .createCipher
  else
    let nonce := readRandom std pos nonceLen
    .ok (nonce ++ std.gcmSeal key nonce plaintext)

/-- The function `Decrypt`. -/
def Decrypt (std : GoStd) (ciphertext key : List Byte) : Result (List Byte) :=
  if ciphertext.length < nonceLen + 16 then .error .invalidData
  else if ¬ ValidAesKey key then .error .createCipher
  else
    match std.gcmOpen key (ciphertext.take nonceLen) (ciphertext.drop nonceLen) with
    | some plaintext => .ok plaintext
    | none => .error .decryptionFailed

/-- The function `GetDeviceKey`. -/
def GetDeviceKey (std : GoStd) : List Byte :=
  std.sha256Sum (std.hostname ++ std.userHomeDir ++ (std.goos ++ std.goarch))

/-- The function `VerifyKey`. -/
def VerifyKey (std : GoStd) (encryptedVerifier key : List Byte) : Bool :=
  match Decrypt std encryptedVerifier key with
  | .ok _ => true
  | _ => false

/-! ## `internal/storage/database.go`

The SQLite file is three tables with a `TEXT PRIMARY KEY` and one value column each.  A
table is the list of its rows in rowid order, and the statements the code issues are
functions on that list; a statement does not fail, except that a `QueryRow` without a row
scans `sql.ErrNoRows`. -/

/-- A table: its (key, value) rows in rowid order. -/
abbrev Table := List (List Byte × List Byte)

/-- The scan of `SELECT value FROM t WHERE key = k`; `none` is `sql.ErrNoRows`. -/
def selectValue (t : Table) (key : List Byte) : Option (List Byte) :=
  (t.find? fun row => row.1 = key).map fun row => row.2

/-- The scan of `SELECT COUNT(*) FROM t WHERE key = k`. -/
def countKey (t : Table) (key : List Byte) : Nat :=
  (t.filter fun row => row.1 = key).length

/-- The statement `INSERT OR REPLACE INTO t VALUES (k, v)`: a row with the key is deleted,
and the new row gets the next rowid. -/
def insertOrReplace (t : Table) (key value : List Byte) : Table :=
  (t.filter fun row => row.1 ≠ key) ++ [(key, value)]

/-- The statement `DELETE FROM t WHERE key = k`. -/
def deleteKey (t : Table) (key : List Byte) : Table :=
  t.filter fun row => row.1 ≠ key

/-- The constant `verifierConstant`. -/
def verifierConstant : List Byte := goString "AUTHENTICATOR_KEY_VERIFIER_V1"

/-- The state the methods of `Database` act on: the tables `metadata`, `accounts` and
`settings` of the file, the field `masterKey`, and the number of bytes read from
`crypto/rand` so far. -/
structure Database where
  metadata : Table
  accounts : Table
  settings : Table
  masterKey : List Byte
  randPos : Nat
  deriving DecidableEq, Repr

/-- The function `encodeBytes`. -/
def encodeBytes (std : GoStd) (data : List Byte) : List Byte := std.base64Encode data

/-- The function `decodeBytes`; `none` is a non-nil error. -/
def decodeBytes (std : GoStd) (encoded : List Byte) : Option (List Byte) :=
  std.base64Decode encoded

/-- The method `IsInitialized`. -/
def IsInitialized (db : Database) : Bool := countKey db.metadata (goString "salt") > 0

/-- The method `HasPassword`. -/
def HasPassword (db : Database) : Bool :=
  countKey db.metadata (goString "password_verifier") > 0

/-- The method `IsUnlocked`. -/
def IsUnlocked (db : Database) : Bool := db.masterKey.length = 32

/-- The method `saveAccountInternal`. -/
def saveAccountInternal (std : GoStd) (db : Database) (acc : Account) :
    Result Unit × Database :=
  let data := std.jsonMarshalAccount acc
  match Encrypt std data db.masterKey db.randPos with
  | .ok encrypted =>
    (.ok (), { db with
      accounts := insertOrReplace db.accounts acc.ID (encodeBytes std encrypted)
      randPos := db.randPos + nonceLen })
  | .error e => (.error e, db)
  | .panic => (.panic, db)
  | .outOfFuel => (.outOfFuel, db)

/-- One pass of the loop of `getAllAccountsInternal` over the scanned value `data` of a row:
the account to append, or `none` where the loop continues. -/
def accountOfRow (std : GoStd) (masterKey : List Byte) (data : List Byte) : Option Account :=
  match decodeBytes std data with
  | none => none
  | some encryptedData =>
    match Decrypt std encryptedData masterKey with
    | .ok decrypted => std.jsonUnmarshalAccount decrypted
    | _ => none

/-- The method `getAllAccountsInternal`. -/
def getAllAccountsInternal (std : GoStd) (db : Database) : Result (List Account) :=
  .ok (db.accounts.filterMap fun row => accountOfRow std db.masterKey row.2)

/-- The method `saveSettingsInternal`. -/
def saveSettingsInternal (std : GoStd) (db : Database) (s : Settings) :
    Result Unit × Database :=
  let data := std.jsonMarshalSettings s
  match Encrypt std data db.masterKey db.randPos with
  | .ok encrypted =>
    (.ok (), { db with
      settings := insertOrReplace db.settings (goString "main") (encodeBytes std encrypted)
      randPos := db.randPos + nonceLen })
  | .error e => (.error e, db)
  | .panic => (.panic, db)
  | .outOfFuel => (.outOfFuel, db)

/-- The method `getSettingsInternal`; with an error the Go function returns
`DefaultSettings()` beside it. -/
def getSettingsInternal (std : GoStd) (db : Database) : Result Settings :=
  match selectValue db.settings (goString "main") with
  | none => .error .sqlNoRows
  | some encryptedEncoded =>
    match decodeBytes std encryptedEncoded with
    | none => .error .decodeSettings
    | some encryptedData =>
      match Decrypt std encryptedData db.masterKey with
      | .ok decrypted =>
        match std.jsonUnmarshalSettings decrypted with
        | some s => .ok s
        | none => .error .jsonUnmarshal
      | .error e => .error e
      | .panic => .panic
      | .outOfFuel => .outOfFuel

/-- The loop `for _, acc := range accounts` of `SetPassword` and `RemovePassword`, which
returns at the first account that cannot be saved. -/
def saveAccountsLoop (std : GoStd) : Database → List Account → Result Unit × Database
  | db, [] => (.ok (), db)
  | db, acc :: rest =>
    match saveAccountInternal std db acc with
    | (.ok _, db) => saveAccountsLoop std db rest
    | (.error e, db) => (.error e, db)
    | (.panic, db) => (.panic, db)
    | (.outOfFuel, db) => (.outOfFuel, db)

/-- The method `SetPassword`. -/
def SetPassword (std : GoStd) (db : Database) (password : List Byte) :
    Result Unit × Database :=
  match getAllAccountsInternal std db with
  | .ok accounts =>
    let settings := match getSettingsInternal std db with
      | .ok s => s
      | _ => DefaultSettings
    let salt := GenerateSalt std db.randPos
    let db := { db with randPos := db.randPos + saltLen }
    let newMasterKey := DeriveKey std password salt
    let db := { db with
      metadata := insertOrReplace db.metadata (goString "salt") (encodeBytes std salt) }
    match Encrypt std verifierConstant newMasterKey db.randPos with
    | .ok verifier =>
      let db := { db with
        metadata := insertOrReplace db.metadata (goString "password_verifier")
          (encodeBytes std verifier)
        randPos := db.randPos + nonceLen }
      let db := { db with metadata := deleteKey db.metadata (goString "device_verifier") }
      let db := { db with masterKey := newMasterKey }
      let settings := { settings with PasswordEnabled := true }
      match saveSettingsInternal std db settings with
      | (.ok _, db) =>
        let db := { db with accounts := [] }
        saveAccountsLoop std db accounts
      | (.error e, db) => (.error e, db)
      | (.panic, db) => (.panic, db)
      | (.outOfFuel, db) => (.outOfFuel, db)
    | .error e => (.error e, db)
    | .panic => (.panic, db)
    | .outOfFuel => (.outOfFuel, db)
  | .error e => (.error e, db)
  | .panic => (.panic, db)
  | .outOfFuel => (.outOfFuel, db)

/-- The method `RemovePassword`. -/
def RemovePassword (std : GoStd) (db : Database) : Result Unit × Database :=
  match getAllAccountsInternal std db with
  | .ok accounts =>
    let settings := match getSettingsInternal std db with
      | .ok s => s
      | _ => DefaultSettings
    let newMasterKey := GetDeviceKey std
    let salt := GenerateSalt std db.randPos
    let db := { db with randPos := db.randPos + saltLen }
    let db := { db with
      metadata := insertOrReplace db.metadata (goString "salt") (encodeBytes std salt) }
    match Encrypt std verifierConstant newMasterKey db.randPos with
    | .ok verifier =>
      let db := { db with
        metadata := insertOrReplace db.metadata (goString "device_verifier")
          (encodeBytes std verifier)
        randPos := db.randPos + nonceLen }
      let db := { db with metadata := deleteKey db.metadata (goString "password_verifier") }
      let db := { db with masterKey := newMasterKey }
      let settings := { settings with PasswordEnabled := false }
      match saveSettingsInternal std db settings with
      | (.ok _, db) =>
        let db := { db with accounts := [] }
        saveAccountsLoop std db accounts
      | (.error e, db) => (.error e, db)
      | (.panic, db) => (.panic, db)
      | (.outOfFuel, db) => (.outOfFuel, db)
    | .error e => (.error e, db)
    | .panic => (.panic, db)
    | .outOfFuel => (.outOfFuel, db)
  | .error e => (.error e, db)
  | .panic => (.panic, db)
  | .outOfFuel => (.outOfFuel, db)

/-- The statements `SetPassword` and `RemovePassword` share once the accounts, the settings,
the salt and the new master key are at hand; the verifier is written under the key
`written` and the one under `dropped` is deleted.  The lemmas on the two methods are stated
on it. -/
def rotateKey (std : GoStd) (db : Database) (accounts : List Account) (settings : Settings)
    (salt newMasterKey written dropped : List Byte) (passwordEnabled : Bool) :
    Result Unit × Database :=
  let db := { db with
    metadata := insertOrReplace db.metadata (goString "salt") (encodeBytes std salt) }
  match Encrypt std verifierConstant newMasterKey db.randPos with
  | .ok verifier =>
    let db := { db with
      metadata := insertOrReplace db.metadata written (encodeBytes std verifier)
      randPos := db.randPos + nonceLen }
    let db := { db with metadata := deleteKey db.metadata dropped }
    let db := { db with masterKey := newMasterKey }
    let settings := { settings with PasswordEnabled := passwordEnabled }
    match saveSettingsInternal std db settings with
    | (.ok _, db) =>
      let db := { db with accounts := [] }
      saveAccountsLoop std db accounts
    | (.error e, db) => (.error e, db)
    | (.panic, db) => (.panic, db)
    | (.outOfFuel, db) => (.outOfFuel, db)
  | .error e => (.error e, db)
  | .panic => (.panic, db)
  | .outOfFuel => (.outOfFuel, db)

/-- The method `Unlock`. -/
def Unlock (std : GoStd) (db : Database) (password : List Byte) : Result Unit × Database :=
  match selectValue db.metadata (goString "salt") with
  | none => (.error .notInitialized, db)
  | some saltEncoded =>
    match decodeBytes std saltEncoded with
    | none => (.error .decodeSalt, db)
    | some salt =>
      let key := DeriveKey std password salt
      match selectValue db.metadata (goString "password_verifier") with
      | none => (.error .noPasswordSet, db)
      | some verifierEncoded =>
        match decodeBytes std verifierEncoded with
        | none => (.error .decodeVerifier, db)
        | some verifier =>
          if ¬ VerifyKey std verifier key then (.error .invalidPassword, db)
          else (.ok (), { db with masterKey := key })

/-- The method `reinitializeWithDeviceKey`. -/
def reinitializeWithDeviceKey (std : GoStd) (db : Database) : Result Unit × Database :=
  let salt := GenerateSalt std db.randPos
  let db := { db with randPos := db.randPos + saltLen }
  let db := { db with masterKey := GetDeviceKey std }
  let db := { db with
    metadata := insertOrReplace db.metadata (goString "salt") (encodeBytes std salt) }
  match Encrypt std verifierConstant db.masterKey db.randPos with
  | .ok verifier =>
    (.ok (), { db with
      metadata := insertOrReplace db.metadata (goString "device_verifier")
        (encodeBytes std verifier)
      randPos := db.randPos + nonceLen })
  | .error e => (.error e, db)
  | .panic => (.panic, db)
  | .outOfFuel => (.outOfFuel, db)

/-- The method `unlockWithDeviceKeyInternal`. -/
def unlockWithDeviceKeyInternal (std : GoStd) (db : Database) : Result Unit × Database :=
  let key := GetDeviceKey std
  match selectValue db.metadata (goString "device_verifier") with
  | none => reinitializeWithDeviceKey std db
  | some verifierEncoded =>
    match decodeBytes std verifierEncoded with
    | none => reinitializeWithDeviceKey std db
    | some verifier =>
      if ¬ VerifyKey std verifier key then reinitializeWithDeviceKey std db
      else (.ok (), { db with masterKey := key })

/-- The method `ensureUnlocked`. -/
def ensureUnlocked (std : GoStd) (db : Database) : Result Unit × Database :=
  if IsUnlocked db then (.ok (), db)
  else if ¬ HasPassword db then unlockWithDeviceKeyInternal std db
  else (.error .locked, db)

/-- The method `Initialize`. -/
def Initialize (std : GoStd) (db : Database) : Result Unit × Database :=
  let salt := GenerateSalt std db.randPos
  let db := { db with randPos := db.randPos + saltLen }
  let db := { db with masterKey := GetDeviceKey std }
  let db := { db with
    metadata := insertOrReplace db.metadata (goString "salt") (encodeBytes std salt) }
  match Encrypt std verifierConstant db.masterKey db.randPos with
  | .ok verifier =>
    let db := { db with
      metadata := insertOrReplace db.metadata (goString "device_verifier")
        (encodeBytes std verifier)
      randPos := db.randPos + nonceLen }
    saveSettingsInternal std db DefaultSettings
  | .error e => (.error e, db)
  | .panic => (.panic, db)
  | .outOfFuel => (.outOfFuel, db)

/-- The method `UnlockWithDeviceKey`. -/
def UnlockWithDeviceKey (std : GoStd) (db : Database) : Result Unit × Database :=
  let key := GetDeviceKey std
  match selectValue db.metadata (goString "device_verifier") with
  | none => (.error .deviceVerifierNotFound, db)
  | some verifierEncoded =>
    match decodeBytes std verifierEncoded with
    | none => (.error .decodeVerifier, db)
    | some verifier =>
      if ¬ VerifyKey std verifier key then (.error .deviceKeyVerification, db)
      else (.ok (), { db with masterKey := key })

/-- The method `SaveAccount`. -/
def SaveAccount (std : GoStd) (db : Database) (acc : Account) : Result Unit × Database :=
  match ensureUnlocked std db with
  | (.ok _, db) => saveAccountInternal std db acc
  | (.error e, db) => (.error e, db)
  | (.panic, db) => (.panic, db)
  | (.outOfFuel, db) => (.outOfFuel, db)

/-- The lines of `GetAccount` after `ensureUnlocked`; the value `none` is the nil account
returned with a nil error when there is no row. -/
def getAccountRow (std : GoStd) (db : Database) (id : List Byte) : Result (Option Account) :=
  match selectValue db.accounts id with
  | none => .ok none
  | some encryptedEncoded =>
    match decodeBytes std encryptedEncoded with
    | none => .error .decodeAccountData
    | some encryptedData =>
      match Decrypt std encryptedData db.masterKey with
      | .ok decrypted =>
        match std.jsonUnmarshalAccount decrypted with
        | some acc => .ok (some acc)
        | none => .error .jsonUnmarshal
      | .error e => .error e
      | .panic => .panic
      | .outOfFuel => .outOfFuel

/-- The method `GetAccount`. -/
def GetAccount (std : GoStd) (db : Database) (id : List Byte) :
    Result (Option Account) × Database :=
  match ensureUnlocked std db with
  | (.ok _, db) => (getAccountRow std db id, db)
  | (.error e, db) => (.error e, db)
  | (.panic, db) => (.panic, db)
  | (.outOfFuel, db) => (.outOfFuel, db)

/-- The method `DeleteAccount`. -/
def DeleteAccount (db : Database) (id : List Byte) : Result Unit × Database :=
  (.ok (), { db with accounts := deleteKey db.accounts id })

/-- The method `DeleteAllAccounts`. -/
def DeleteAllAccounts (db : Database) : Result Unit × Database :=
  (.ok (), { db with accounts := [] })

/-- The method `SaveSettings`. -/
def SaveSettings (std : GoStd) (db : Database) (s : Settings) : Result Unit × Database :=
  match ensureUnlocked std db with
  | (.ok _, db) => saveSettingsInternal std db s
  | (.error e, db) => (.error e, db)
  | (.panic, db) => (.panic, db)
  | (.outOfFuel, db) => (.outOfFuel, db)

/-- The method `GetSettings`; with an error the Go function returns `DefaultSettings()`
beside it. -/
def GetSettings (std : GoStd) (db : Database) : Result Settings × Database :=
  match ensureUnlocked std db with
  | (.ok _, db) => (getSettingsInternal std db, db)
  | (.error e, db) => (.error e, db)
  | (.panic, db) => (.panic, db)
  | (.outOfFuel, db) => (.outOfFuel, db)

/-- The method `GetAllAccounts`. -/
def GetAllAccounts (std : GoStd) (db : Database) : Result (List Account) × Database :=
  match ensureUnlocked std db with
  | (.ok _, db) => (getAllAccountsInternal std db, db)
  | (.error e, db) => (.error e, db)
  | (.panic, db) => (.panic, db)
  | (.outOfFuel, db) => (.outOfFuel, db)

/-! ## A reference standard library

An executable instance of `GoStd`, used to evaluate the embedded functions on concrete
inputs: ASCII upper-casing, RFC 4648 base32 and base64 with padding, HMAC-SHA-1 (RFC 2104,
FIPS 180), SHA-256, query escaping, URLs of the shape
`scheme://host/path?query#fragment`, and stand-ins for Argon2id, AES-GCM and
`encoding/json`. -/

/-- Upper-casing of the ASCII letters of a string. -/
def refToUpper (s : List Byte) : List Byte :=
  s.map fun b => if 0x61 ≤ b.val ∧ b.val ≤ 0x7a then byte (b.val - 0x20) else b

/-- The value of a character of the base32 alphabet `A-Z2-7`. -/
def base32Value (c : Byte) : Option Nat :=
  if 0x41 ≤ c.val ∧ c.val ≤ 0x5a then some (c.val - 0x41)
  else if 0x32 ≤ c.val ∧ c.val ≤ 0x37 then some (c.val - 0x32 + 26)
  else none

/-- The bytes of a group of at most eight 5-bit values: the whole bytes among the bits. -/
def base32Group (vals : List Nat) : List Byte :=
  let n := vals.foldl (fun acc v => acc * 32 + v) 0
  let bits := 5 * vals.length
  (List.range (bits / 8)).map fun i => byte (n >>> (bits % 8) >>> (8 * (bits / 8 - 1 - i)))

/-- Standard base32 decoding with padding: groups of eight characters, the last one filled
with `=` after 2, 4, 5 or 7 characters. -/
def refBase32Decode : List Byte → Option (List Byte)
  | [] => some []
  | c0 :: c1 :: c2 :: c3 :: c4 :: c5 :: c6 :: c7 :: rest =>
    let group := [c0, c1, c2, c3, c4, c5, c6, c7]
    let chars := group.takeWhile fun c => c ≠ byte 0x3d
    let pad := group.dropWhile fun c => c ≠ byte 0x3d
    if pad.all (fun c => c = byte 0x3d) ∧ (pad = [] ∨ rest = []) ∧
        (chars.length = 2 ∨ chars.length = 4 ∨ chars.length = 5 ∨ chars.length = 7 ∨
          chars.length = 8) ∧ (chars.all fun c => (base32Value c).isSome) then
      (refBase32Decode rest).map fun tail =>
        base32Group (chars.map fun c => (base32Value c).getD 0) ++ tail
    else none
  | _ => none

/-- Rotation to the left of a 32-bit word. -/
def rotl32 (x n : Nat) : Nat := ((x <<< n) ||| (x >>> (32 - n))) % 2 ^ 32

/-- The four bytes of a 32-bit word, most significant first. -/
def wordBytes (w : Nat) : List Byte := [byte (w >>> 24), byte (w >>> 16), byte (w >>> 8), byte w]

/-- The big-endian 32-bit words of a byte string. -/
def toWords : List Byte → List Nat
  | b0 :: b1 :: b2 :: b3 :: rest =>
    (b0.val <<< 24 ||| b1.val <<< 16 ||| b2.val <<< 8 ||| b3.val) :: toWords rest
  | _ => []

/-- The padding of SHA-1: the bit 1, zeros, and the length in bits as 64 bits. -/
def sha1Pad (msg : List Byte) : List Byte :=
  msg ++ [byte 0x80] ++ List.replicate ((119 - msg.length % 64) % 64) (byte 0) ++
    putUint64 (8 * msg.length)

/-- The message schedule of SHA-1, extended by `n` words; the latest word comes first. -/
def sha1Schedule : Nat → List Nat → List Nat
  | 0, ws => ws
  | n + 1, ws =>
    sha1Schedule n
      (rotl32 (ws.getD 2 0 ^^^ ws.getD 7 0 ^^^ ws.getD 13 0 ^^^ ws.getD 15 0) 1 :: ws)

/-- The five working variables of SHA-1. -/
structure Sha1State where
  a : Nat
  b : Nat
  c : Nat
  d : Nat
  e : Nat

/-- Round `t` of SHA-1 on the word `w`. -/
def sha1Round (t : Nat) (s : Sha1State) (w : Nat) : Sha1State :=
  let f := if t < 20 then (s.b &&& s.c) ||| ((s.b ^^^ 0xffffffff) &&& s.d)
    else if t < 40 then s.b ^^^ s.c ^^^ s.d
    else if t < 60 then (s.b &&& s.c) ||| (s.b &&& s.d) ||| (s.c &&& s.d)
    else s.b ^^^ s.c ^^^ s.d
  let k := if t < 20 then 0x5a827999 else if t < 40 then 0x6ed9eba1
    else if t < 60 then 0x8f1bbcdc else 0xca62c1d6
  { a := (rotl32 s.a 5 + f + s.e + k + w) % 2 ^ 32, b := s.a, c := rotl32 s.b 30, d := s.c,
    e := s.d }

/-- The rounds of SHA-1 over the schedule, from round `t` on. -/
def sha1Rounds : Nat → List Nat → Sha1State → Sha1State
  | _, [], s => s
  | t, w :: ws, s => sha1Rounds (t + 1) ws (sha1Round t s w)

/-- The compression of one block of sixteen words. -/
def sha1Block (h : Sha1State) (block : List Nat) : Sha1State :=
  let s := sha1Rounds 0 (sha1Schedule 64 block.reverse).reverse h
  { a := (h.a + s.a) % 2 ^ 32, b := (h.b + s.b) % 2 ^ 32, c := (h.c + s.c) % 2 ^ 32,
    d := (h.d + s.d) % 2 ^ 32, e := (h.e + s.e) % 2 ^ 32 }

/-- The compression of `n` blocks in turn. -/
def sha1Blocks : Nat → List Nat → Sha1State → Sha1State
  | 0, _, h => h
  | n + 1, ws, h => sha1Blocks n (ws.drop 16) (sha1Block h (ws.take 16))

/-- The hash SHA-1. -/
def sha1 (msg : List Byte) : List Byte :=
  let ws := toWords (sha1Pad msg)
  let h := sha1Blocks (ws.length / 16) ws
    { a := 0x67452301, b := 0xefcdab89, c := 0x98badcfe, d := 0x10325476, e := 0xc3d2e1f0 }
  wordBytes h.a ++ wordBytes h.b ++ wordBytes h.c ++ wordBytes h.d ++ wordBytes h.e

/-- The code HMAC-SHA-1 of a message under a key. -/
def hmacSha1 (key msg : List Byte) : List Byte :=
  let key := if key.length > 64 then sha1 key else key
  let key := key ++ List.replicate (64 - key.length) (byte 0)
  let inner := sha1 (key.map (fun b => byte (b.val ^^^ 0x36)) ++ msg)
  sha1 (key.map (fun b => byte (b.val ^^^ 0x5c)) ++ inner)

/-- The per-round shifts of MD5. -/
def md5S : List Nat :=
  [7, 12, 17, 22, 7, 12, 17, 22, 7, 12, 17, 22, 7, 12, 17, 22,
   5, 9, 14, 20, 5, 9, 14, 20, 5, 9, 14, 20, 5, 9, 14, 20,
   4, 11, 16, 23, 4, 11, 16, 23, 4, 11, 16, 23, 4, 11, 16, 23,
   6, 10, 15, 21, 6, 10, 15, 21, 6, 10, 15, 21, 6, 10, 15, 21]

/-- The round constants of MD5. -/
def md5K : List Nat :=
  [0xd76aa478, 0xe8c7b756, 0x242070db, 0xc1bdceee, 0xf57c0faf, 0x4787c62a,
   0xa8304613, 0xfd469501, 0x698098d8, 0x8b44f7af, 0xffff5bb1, 0x895cd7be,
   0x6b901122, 0xfd987193, 0xa679438e, 0x49b40821, 0xf61e2562, 0xc040b340,
   0x265e5a51, 0xe9b6c7aa, 0xd62f105d, 0x02441453, 0xd8a1e681, 0xe7d3fbc8,
   0x21e1cde6, 0xc33707d6, 0xf4d50d87, 0x455a14ed, 0xa9e3e905, 0xfcefa3f8,
   0x676f02d9, 0x8d2a4c8a, 0xfffa3942, 0x8771f681, 0x6d9d6122, 0xfde5380c,
   0xa4beea44, 0x4bdecfa9, 0xf6bb4b60, 0xbebfbc70, 0x289b7ec6, 0xeaa127fa,
   0xd4ef3085, 0x04881d05, 0xd9d4d039, 0xe6db99e5, 0x1fa27cf8, 0xc4ac5665,
   0xf4292244, 0x432aff97, 0xab9423a7, 0xfc93a039, 0x655b59c3, 0x8f0ccc92,
   0xffeff47d, 0x85845dd1, 0x6fa87e4f, 0xfe2ce6e0, 0xa3014314, 0x4e0811a1,
   0xf7537e82, 0xbd3af235, 0x2ad7d2bb, 0xeb86d391]

/-- The little-endian 32-bit words of a byte string. -/
def toWordsLE : List Byte → List Nat
  | b0 :: b1 :: b2 :: b3 :: rest =>
    (b3.val <<< 24 ||| b2.val <<< 16 ||| b1.val <<< 8 ||| b0.val) :: toWordsLE rest
  | _ => []

/-- The four bytes of a 32-bit word, least significant first. -/
def wordBytesLE (w : Nat) : List Byte := (wordBytes w).reverse

/-- The padding of MD5: the bit 1, zeros, and the length in bits as 64 bits, least
significant byte first. -/
def md5Pad (msg : List Byte) : List Byte :=
  msg ++ [byte 0x80] ++ List.replicate ((119 - msg.length % 64) % 64) (byte 0) ++
    (putUint64 (8 * msg.length)).reverse

/-- The four working variables of MD5. -/
structure Md5State where
  a : Nat
  b : Nat
  c : Nat
  d : Nat

/-- Round `i` of MD5 on the block `m` of sixteen words. -/
def md5Round (m : List Nat) (s : Md5State) (i : Nat) : Md5State :=
  let f := if i < 16 then (s.b &&& s.c) ||| ((s.b ^^^ 0xffffffff) &&& s.d)
    else if i < 32 then (s.d &&& s.b) ||| ((s.d ^^^ 0xffffffff) &&& s.c)
    else if i < 48 then s.b ^^^ s.c ^^^ s.d
    else s.c ^^^ (s.b ||| (s.d ^^^ 0xffffffff))
  let g := if i < 16 then i else if i < 32 then (5 * i + 1) % 16
    else if i < 48 then (3 * i + 5) % 16 else (7 * i) % 16
  let x := (f + s.a + md5K.getD i 0 + m.getD g 0) % 2 ^ 32
  { a := s.d, b := (s.b + rotl32 x (md5S.getD i 0)) % 2 ^ 32, c := s.b, d := s.c }

/-- The compression of one block of sixteen words. -/
def md5Block (h : Md5State) (block : List Nat) : Md5State :=
  let s := (List.range 64).foldl (md5Round block) h
  { a := (h.a + s.a) % 2 ^ 32, b := (h.b + s.b) % 2 ^ 32, c := (h.c + s.c) % 2 ^ 32,
    d := (h.d + s.d) % 2 ^ 32 }

/-- The compression of `n` blocks in turn. -/
def md5Blocks : Nat → List Nat → Md5State → Md5State
  | 0, _, h => h
  | n + 1, ws, h => md5Blocks n (ws.drop 16) (md5Block h (ws.take 16))

/-- The hash MD5 (RFC 1321). -/
def md5 (msg : List Byte) : List Byte :=
  let ws := toWordsLE (md5Pad msg)
  let h := md5Blocks (ws.length / 16) ws
    { a := 0x67452301, b := 0xefcdab89, c := 0x98badcfe, d := 0x10325476 }
  wordBytesLE h.a ++ wordBytesLE h.b ++ wordBytesLE h.c ++ wordBytesLE h.d

/-- The code HMAC-MD5 of a message under a key. -/
def hmacMd5 (key msg : List Byte) : List Byte :=
  let key := if key.length > 64 then md5 key else key
  let key := key ++ List.replicate (64 - key.length) (byte 0)
  let inner := md5 (key.map (fun b => byte (b.val ^^^ 0x36)) ++ msg)
  md5 (key.map (fun b => byte (b.val ^^^ 0x5c)) ++ inner)

/-- The alphabet of standard base64. -/
def base64Alphabet : List Byte :=
  goString "ABCDEFGHIJKLMNOPQRSTUVWXYZabcdefghijklmnopqrstuvwxyz0123456789+/"

/-- The character of a 6-bit value. -/
def base64Char (n : Nat) : Byte := base64Alphabet.getD n 0

/-- The 6-bit value of a character of the alphabet. -/
def base64Value (c : Byte) : Option Nat :=
  if 0x41 ≤ c.val ∧ c.val ≤ 0x5a then some (c.val - 0x41)
  else if 0x61 ≤ c.val ∧ c.val ≤ 0x7a then some (c.val - 0x61 + 26)
  else if 0x30 ≤ c.val ∧ c.val ≤ 0x39 then some (c.val - 0x30 + 52)
  else if c.val = 0x2b then some 62
  else if c.val = 0x2f then some 63
  else none

/-- Standard base64 encoding with padding. -/
def refBase64Encode : List Byte → List Byte
  | b0 :: b1 :: b2 :: rest =>
    base64Char (b0.val / 4) :: base64Char (b0.val % 4 * 16 + b1.val / 16) ::
      base64Char (b1.val % 16 * 4 + b2.val / 64) :: base64Char (b2.val % 64) ::
      refBase64Encode rest
  | [b0, b1] =>
    [base64Char (b0.val / 4), base64Char (b0.val % 4 * 16 + b1.val / 16),
      base64Char (b1.val % 16 * 4), byte 0x3d]
  | [b0] => [base64Char (b0.val / 4), base64Char (b0.val % 4 * 16), byte 0x3d, byte 0x3d]
  | [] => []

/-- Standard base64 decoding with padding. -/
def refBase64Decode : List Byte → Option (List Byte)
  | [] => some []
  | c0 :: c1 :: c2 :: c3 :: rest =>
    match base64Value c0, base64Value c1 with
    | some v0, some v1 =>
      if c3 = byte 0x3d then
        if rest ≠ [] then none
        else if c2 = byte 0x3d then some [byte (v0 * 4 + v1 / 16)]
        else
          match base64Value c2 with
          | some v2 => some [byte (v0 * 4 + v1 / 16), byte (v1 % 16 * 16 + v2 / 4)]
          | none => none
      else
        match base64Value c2, base64Value c3 with
        | some v2, some v3 =>
          (refBase64Decode rest).map fun tail =>
            byte (v0 * 4 + v1 / 16) :: byte (v1 % 16 * 16 + v2 / 4) :: byte (v2 % 4 * 64 + v3) ::
              tail
        | _, _ => none
    | _, _ => none
  | _ => none

/-- The characters `url.QueryEscape` leaves alone: letters, digits, `-`, `_`, `.`, `~`. -/
def isUnreserved (b : Byte) : Bool :=
  (0x41 ≤ b.val ∧ b.val ≤ 0x5a) ∨ (0x61 ≤ b.val ∧ b.val ≤ 0x7a) ∨
    (0x30 ≤ b.val ∧ b.val ≤ 0x39) ∨ b.val = 0x2d ∨ b.val = 0x5f ∨ b.val = 0x2e ∨ b.val = 0x7e

/-- The upper-case hexadecimal digit of a value below 16. -/
def hexDigit (n : Nat) : Byte := (goString "0123456789ABCDEF").getD n 0

/-- The value of a hexadecimal digit. -/
def hexValue (c : Byte) : Option Nat :=
  if 0x30 ≤ c.val ∧ c.val ≤ 0x39 then some (c.val - 0x30)
  else if 0x41 ≤ c.val ∧ c.val ≤ 0x46 then some (c.val - 0x41 + 10)
  else if 0x61 ≤ c.val ∧ c.val ≤ 0x66 then some (c.val - 0x61 + 10)
  else none

/-- Query escaping: a space becomes `+`, any other character that is not unreserved
becomes `%XX`. -/
def refQueryEscape : List Byte → List Byte
  | [] => []
  | b :: rest =>
    if b = byte 0x20 then byte 0x2b :: refQueryEscape rest
    else if isUnreserved b then b :: refQueryEscape rest
    else byte 0x25 :: hexDigit (b.val / 16) :: hexDigit (b.val % 16) :: refQueryEscape rest

/-- Percent-decoding; `plus` says whether `+` stands for a space (it does in a query, not
in a path).  `none` is an invalid escape. -/
def refUnescape (plus : Bool) : List Byte → Option (List Byte)
  | [] => some []
  | b :: rest =>
    if b = byte 0x25 then
      match rest with
      | h :: l :: rest2 =>
        match hexValue h, hexValue l with
        | some x, some y => (refUnescape plus rest2).map fun tail => byte (16 * x + y) :: tail
        | _, _ => none
      | _ => none
    else if b = byte 0x2b ∧ plus = true then
      (refUnescape plus rest).map fun tail => byte 0x20 :: tail
    else (refUnescape plus rest).map fun tail => b :: tail

/-- The function `strings.Split` for a one-byte separator. -/
def splitOn (sep : Byte) : List Byte → List (List Byte)
  | [] => [[]]
  | b :: rest =>
    if b = sep then [] :: splitOn sep rest
    else
      match splitOn sep rest with
      | [] => [[b]]
      | s :: ss => (b :: s) :: ss

/-- Parsing of a URL `scheme://host/path?query#fragment`: no control character, a
non-empty scheme before the first `:`, the query after the first `?`, the host between `//`
and the next `/`, the path percent-decoded. -/
def refUrlParse (s : List Byte) : Option URL :=
  if s.any (fun b => b.val < 0x20 ∨ b.val = 0x7f) then none
  else
    let s := match cut (byte 0x23) s with
      | some p => p.1
      | none => s
    match cut (byte 0x3a) s with
    | none => none
    | some (scheme, rest) =>
      if scheme = [] then none
      else
        let hq := match cut (byte 0x3f) rest with
          | some p => p
          | none => (rest, [])
        if (goString "//").isPrefixOf hq.1 then
          let authority := hq.1.drop 2
          match refUnescape false (authority.dropWhile fun b => b ≠ byte 0x2f) with
          | some path =>
            some { Host := authority.takeWhile fun b => b ≠ byte 0x2f, Path := path,
                   RawQuery := hq.2 }
          | none => none
        else
          match refUnescape false hq.1 with
          | some path => some { Host := [], Path := path, RawQuery := hq.2 }
          | none => none

/-- The first value of `key` among the `key=value` pairs; pairs with an invalid escape are
dropped, as `url.ParseQuery` drops them under `Query()`. -/
def firstValue (key : List Byte) : List (List Byte) → List Byte
  | [] => []
  | pair :: rest =>
    let kv := match cut (byte 0x3d) pair with
      | some p => p
      | none => (pair, [])
    match refUnescape true kv.1, refUnescape true kv.2 with
    | some k, some v => if k = key then v else firstValue key rest
    | _, _ => firstValue key rest

/-- The value `u.Query().Get(key)`: the pairs are separated by `&`. -/
def refQueryGet (rawQuery key : List Byte) : List Byte :=
  firstValue key (splitOn (byte 0x26) rawQuery)

/-- The character of a 5-bit value. -/
def base32Char (n : Nat) : Byte := (goString "ABCDEFGHIJKLMNOPQRSTUVWXYZ234567").getD n 0

/-- The eight characters of a group of at most five bytes: the bits in groups of five, the
last one filled with zero bits, then `=` up to eight characters. -/
def base32EncodeGroup (g : List Byte) : List Byte :=
  let n := g.foldl (fun acc b => acc * 256 + b.val) 0
  let chars := (8 * g.length + 4) / 5
  let v := n <<< (5 * chars - 8 * g.length)
  ((List.range chars).map fun i => base32Char (v >>> (5 * (chars - 1 - i)) % 32)) ++
    List.replicate (8 - chars) (byte 0x3d)

/-- Standard base32 encoding with padding. -/
def refBase32Encode : List Byte → List Byte
  | b0 :: b1 :: b2 :: b3 :: b4 :: rest =>
    base32EncodeGroup [b0, b1, b2, b3, b4] ++ refBase32Encode rest
  | [] => []
  | g => base32EncodeGroup g

/-- Base32 decoding without padding: the input holds no `=`, and its last group is
completed with `=` before it is decoded. -/
def refBase32DecodeNoPadding (s : List Byte) : Option (List Byte) :=
  if s.any (fun c => c = byte 0x3d) then none
  else refBase32Decode (s ++ List.replicate ((8 - s.length % 8) % 8) (byte 0x3d))

/-- Parsing of a decimal `int64`: an optional sign, then digits only, and a value in
range. -/
def refParseInt (s : List Byte) : Option Int :=
  let signed := s.head? = some (byte 0x2d) ∨ s.head? = some (byte 0x2b)
  let digits := if signed then s.drop 1 else s
  if digits = [] ∨ ¬ (∀ b ∈ digits, IsAsciiDigit b) then none
  else
    let v : Int := if s.head? = some (byte 0x2d) then -(decimalValue digits : Int)
      else (decimalValue digits : Int)
    if IsInt64 v then some v else none

/-- A fixed sequence of bytes in the place of the random source. -/
def refRandByte (i : Nat) : Byte := byte (i * 167 + 41)

/-- Rotation to the right of a 32-bit word. -/
def rotr32 (x n : Nat) : Nat := ((x >>> n) ||| (x <<< (32 - n))) % 2 ^ 32

/-- The round constants of SHA-256. -/
def sha256K : List Nat :=
  [0x428a2f98, 0x71374491, 0xb5c0fbcf, 0xe9b5dba5, 0x3956c25b, 0x59f111f1,
   0x923f82a4, 0xab1c5ed5, 0xd807aa98, 0x12835b01, 0x243185be, 0x550c7dc3,
   0x72be5d74, 0x80deb1fe, 0x9bdc06a7, 0xc19bf174, 0xe49b69c1, 0xefbe4786,
   0x0fc19dc6, 0x240ca1cc, 0x2de92c6f, 0x4a7484aa, 0x5cb0a9dc, 0x76f988da,
   0x983e5152, 0xa831c66d, 0xb00327c8, 0xbf597fc7, 0xc6e00bf3, 0xd5a79147,
   0x06ca6351, 0x14292967, 0x27b70a85, 0x2e1b2138, 0x4d2c6dfc, 0x53380d13,
   0x650a7354, 0x766a0abb, 0x81c2c92e, 0x92722c85, 0xa2bfe8a1, 0xa81a664b,
   0xc24b8b70, 0xc76c51a3, 0xd192e819, 0xd6990624, 0xf40e3585, 0x106aa070,
   0x19a4c116, 0x1e376c08, 0x2748774c, 0x34b0bcb5, 0x391c0cb3, 0x4ed8aa4a,
   0x5b9cca4f, 0x682e6ff3, 0x748f82ee, 0x78a5636f, 0x84c87814, 0x8cc70208,
   0x90befffa, 0xa4506ceb, 0xbef9a3f7, 0xc67178f2]

/-- The message schedule of SHA-256, extended by `n` words; the latest word comes first. -/
def sha256Schedule : Nat → List Nat → List Nat
  | 0, ws => ws
  | n + 1, ws =>
    let w2 := ws.getD 1 0
    let w15 := ws.getD 14 0
    let s0 := rotr32 w15 7 ^^^ rotr32 w15 18 ^^^ (w15 >>> 3)
    let s1 := rotr32 w2 17 ^^^ rotr32 w2 19 ^^^ (w2 >>> 10)
    sha256Schedule n ((ws.getD 15 0 + s0 + ws.getD 6 0 + s1) % 2 ^ 32 :: ws)

/-- The eight working variables of SHA-256. -/
structure Sha256State where
  a : Nat
  b : Nat
  c : Nat
  d : Nat
  e : Nat
  f : Nat
  g : Nat
  h : Nat

/-- A round of SHA-256 on a round constant and a word of the schedule. -/
def sha256Round (s : Sha256State) (kw : Nat × Nat) : Sha256State :=
  let s1 := rotr32 s.e 6 ^^^ rotr32 s.e 11 ^^^ rotr32 s.e 25
  let ch := (s.e &&& s.f) ^^^ ((s.e ^^^ 0xffffffff) &&& s.g)
  let t1 := s.h + s1 + ch + kw.1 + kw.2
  let s0 := rotr32 s.a 2 ^^^ rotr32 s.a 13 ^^^ rotr32 s.a 22
  let maj := (s.a &&& s.b) ^^^ (s.a &&& s.c) ^^^ (s.b &&& s.c)
  { a := (t1 + s0 + maj) % 2 ^ 32, b := s.a, c := s.b, d := s.c, e := (s.d + t1) % 2 ^ 32,
    f := s.e, g := s.f, h := s.g }

/-- The compression of one block of sixteen words. -/
def sha256Block (h : Sha256State) (block : List Nat) : Sha256State :=
  let s := (sha256K.zip (sha256Schedule 48 block.reverse).reverse).foldl sha256Round h
  { a := (h.a + s.a) % 2 ^ 32, b := (h.b + s.b) % 2 ^ 32, c := (h.c + s.c) % 2 ^ 32,
    d := (h.d + s.d) % 2 ^ 32, e := (h.e + s.e) % 2 ^ 32, f := (h.f + s.f) % 2 ^ 32,
    g := (h.g + s.g) % 2 ^ 32, h := (h.h + s.h) % 2 ^ 32 }

/-- The compression of `n` blocks in turn. -/
def sha256Blocks : Nat → List Nat → Sha256State → Sha256State
  | 0, _, h => h
  | n + 1, ws, h => sha256Blocks n (ws.drop 16) (sha256Block h (ws.take 16))

/-- The hash SHA-256 (FIPS 180); its padding is that of SHA-1. -/
def sha256 (msg : List Byte) : List Byte :=
  let ws := toWords (sha1Pad msg)
  let h := sha256Blocks (ws.length / 16) ws
    { a := 0x6a09e667, b := 0xbb67ae85, c := 0x3c6ef372, d := 0xa54ff53a, e := 0x510e527f,
      f := 0x9b05688c, g := 0x1f83d9ab, h := 0x5be0cd19 }
  wordBytes h.a ++ wordBytes h.b ++ wordBytes h.c ++ wordBytes h.d ++ wordBytes h.e ++
    wordBytes h.f ++ wordBytes h.g ++ wordBytes h.h

/-- A key derivation in the place of Argon2id, which is out of reach of an evaluation here:
PBKDF2 with HMAC-SHA-1 and a single iteration (RFC 8018), cut to the key length.  The cost
parameters are not used. -/
def refDeriveKey (password salt : List Byte) (keyLen : Nat) : List Byte :=
  ((List.range ((keyLen + 19) / 20)).flatMap fun i =>
    hmacSha1 password (salt ++ wordBytes (i + 1))).take keyLen

/-- The bytes of the first string, each combined by exclusive or with the byte of the second
string at its place, as far as the second string reaches. -/
def xorBytes : List Byte → List Byte → List Byte
  | [], _ => []
  | b :: bs, [] => b :: bs
  | b :: bs, k :: ks => byte (b.val ^^^ k.val) :: xorBytes bs ks

/-- A key stream of at least `n` bytes: SHA-1 over the key, the nonce and a block number. -/
def refKeystream (key nonce : List Byte) (n : Nat) : List Byte :=
  (List.range ((n + 19) / 20)).flatMap fun i => sha1 (key ++ nonce ++ wordBytes i)

/-- A tag of 16 bytes: HMAC-SHA-1 over the nonce and the ciphertext, cut. -/
def refTag (key nonce ciphertext : List Byte) : List Byte :=
  (hmacSha1 key (nonce ++ ciphertext)).take 16

/-- An authenticated cipher in the place of AES-GCM, which is out of reach of an evaluation
here: the plaintext combined with the key stream, followed by the tag.  It has the shape of
the output of `gcm.Seal`, the ciphertext followed by 16 bytes. -/
def refSeal (key nonce plaintext : List Byte) : List Byte :=
  let ciphertext := xorBytes plaintext (refKeystream key nonce plaintext.length)
  ciphertext ++ refTag key nonce ciphertext

/-- The inverse of `refSeal`; `none` where the tag does not fit. -/
def refOpen (key nonce sealed : List Byte) : Option (List Byte) :=
  if sealed.length < 16 then none
  else
    let ciphertext := sealed.take (sealed.length - 16)
    if sealed.drop (sealed.length - 16) = refTag key nonce ciphertext then
      some (xorBytes ciphertext (refKeystream key nonce ciphertext.length))
    else none

/-- The characters of a JSON string after the opening quote: a backslash before each quote
and each backslash, and the closing quote. -/
def jsonString : List Byte → List Byte
  | [] => [byte 0x22]
  | b :: rest =>
    if b = byte 0x22 ∨ b = byte 0x5c then byte 0x5c :: b :: jsonString rest
    else b :: jsonString rest

/-- Reading of a JSON string after the opening quote: the string, and what follows the
closing quote. -/
def jsonReadString : List Byte → Option (List Byte × List Byte)
  | [] => none
  | b :: rest =>
    if b = byte 0x22 then some ([], rest)
    else if b = byte 0x5c then
      match rest with
      | c :: rest2 => (jsonReadString rest2).map fun p => (c :: p.1, p.2)
      | [] => none
    else (jsonReadString rest).map fun p => (b :: p.1, p.2)

/-- The decimal form of an integer. -/
def jsonInt (i : Int) : List Byte :=
  if i < 0 then byte 0x2d :: decimal i.natAbs else decimal i.natAbs

/-- Reading of a decimal integer: the integer, and what follows its digits. -/
def jsonReadInt (s : List Byte) : Option (Int × List Byte) :=
  let negative := s.head? = some (byte 0x2d)
  let body := if negative then s.drop 1 else s
  let digits := body.takeWhile fun b => decide (IsAsciiDigit b)
  if digits = [] then none
  else
    some (if negative then -(decimalValue digits : Int) else (decimalValue digits : Int),
      body.drop digits.length)

/-- Reading of the literal `lit`: what follows it. -/
def jsonExpect (lit s : List Byte) : Option (List Byte) :=
  if lit.isPrefixOf s then some (s.drop lit.length) else none

/-- The JSON object of an account, its keys in the order of the struct.  It is the output of
`json.Marshal` for strings of printable ASCII without `<`, `>` and `&`. -/
def refJsonMarshalAccount (a : Account) : List Byte :=
  goString "\x7b\"id\":\"" ++ jsonString a.ID ++
  goString ",\"name\":\"" ++ jsonString a.Name ++
  goString ",\"issuer\":\"" ++ jsonString a.Issuer ++
  goString ",\"secret\":\"" ++ jsonString a.Secret ++
  goString ",\"algorithm\":\"" ++ jsonString a.Algorithm ++
  goString ",\"digits\":" ++ jsonInt a.Digits ++
  goString ",\"type\":\"" ++ jsonString a.Type_ ++
  goString ",\"counter\":" ++ jsonInt a.Counter ++
  goString ",\"period\":" ++ jsonInt a.Period ++
  goString ",\"group\":\"" ++ jsonString a.Group ++ goString "\x7d"

/-- Reading of the literal `key` and of the JSON string after it. -/
def jsonStringField (key s : List Byte) : Option (List Byte × List Byte) :=
  match jsonExpect key s with
  | some rest => jsonReadString rest
  | none => none

/-- Reading of the literal `key` and of the integer after it. -/
def jsonIntField (key s : List Byte) : Option (Int × List Byte) :=
  match jsonExpect key s with
  | some rest => jsonReadInt rest
  | none => none

/-- Reading of the JSON object of an account with its keys in the order of the struct. -/
def refJsonUnmarshalAccount (data : List Byte) : Option Account :=
  match jsonStringField (goString "\x7b\"id\":\"") data with
  | none => none
  | some id =>
  match jsonStringField (goString ",\"name\":\"") id.2 with
  | none => none
  | some name =>
  match jsonStringField (goString ",\"issuer\":\"") name.2 with
  | none => none
  | some issuer =>
  match jsonStringField (goString ",\"secret\":\"") issuer.2 with
  | none => none
  | some secret =>
  match jsonStringField (goString ",\"algorithm\":\"") secret.2 with
  | none => none
  | some algorithm =>
  match jsonIntField (goString ",\"digits\":") algorithm.2 with
  | none => none
  | some digits =>
  match jsonStringField (goString ",\"type\":\"") digits.2 with
  | none => none
  | some otpType =>
  match jsonIntField (goString ",\"counter\":") otpType.2 with
  | none => none
  | some counter =>
  match jsonIntField (goString ",\"period\":") counter.2 with
  | none => none
  | some period =>
  match jsonStringField (goString ",\"group\":\"") period.2 with
  | none => none
  | some group =>
    if group.2 = goString "\x7d" then
      some { ID := id.1, Name := name.1, Issuer := issuer.1, Secret := secret.1,
             Algorithm := algorithm.1, Digits := digits.1, Type_ := otpType.1,
             Counter := counter.1, Period := period.1, Group := group.1 }
    else none

/-- The JSON object of the settings. -/
def refJsonMarshalSettings (s : Settings) : List Byte :=
  goString "\x7b\"password_enabled\":" ++
  (if s.PasswordEnabled then goString "true" else goString "false") ++
  goString ",\"theme\":\"" ++ jsonString s.Theme ++
  goString ",\"auto_lock_minutes\":" ++ jsonInt s.AutoLockMinutes ++ goString "\x7d"

/-- Reading of the JSON object of the settings. -/
def refJsonUnmarshalSettings (data : List Byte) : Option Settings :=
  match jsonExpect (goString "\x7b\"password_enabled\":") data with
  | none => none
  | some s =>
  match (match jsonExpect (goString "true") s with
      | some rest => some (true, rest)
      | none => (jsonExpect (goString "false") s).map fun rest => (false, rest)) with
  | none => none
  | some enabled =>
  match jsonStringField (goString ",\"theme\":\"") enabled.2 with
  | none => none
  | some theme =>
  match jsonIntField (goString ",\"auto_lock_minutes\":") theme.2 with
  | none => none
  | some minutes =>
    if minutes.2 = goString "\x7d" then
      some { PasswordEnabled := enabled.1, Theme := theme.1, AutoLockMinutes := minutes.1 }
    else none

/-- The reference standard library.  Of the HMACs only HMAC-SHA-1 and HMAC-MD5 are
implemented: for the other hashes the digest is empty, so that no evaluation can rest on
them.  Argon2id and
AES-GCM are replaced by `refDeriveKey` and by `refSeal` and `refOpen`, and `encoding/json`
by the functions above for the two structs. -/
def refStd : GoStd where
  toUpper := refToUpper
  base32Decode := refBase32Decode
  hmacSum := fun h key msg =>
    if h = .sha1 then hmacSha1 key msg else if h = .md5 then hmacMd5 key msg else []
  codeBeyondNine := fun _ _ => .panic
  base64Encode := refBase64Encode
  base64Decode := refBase64Decode
  queryEscape := refQueryEscape
  urlParse := refUrlParse
  queryGet := refQueryGet
  base32Encode := refBase32Encode
  queryUnescape := refUnescape true
  base32DecodeNoPadding := refBase32DecodeNoPadding
  parseInt := refParseInt
  randByte := refRandByte
  argon2IDKey := fun password salt _ _ _ keyLen => refDeriveKey password salt keyLen
  sha256Sum := sha256
  hostname := goString "desktop"
  userHomeDir := goString "/home/user"
  goos := goString "linux"
  goarch := goString "amd64"
  gcmSeal := refSeal
  gcmOpen := refOpen
  jsonMarshalAccount := refJsonMarshalAccount
  jsonUnmarshalAccount := refJsonUnmarshalAccount
  jsonMarshalSettings := refJsonMarshalSettings
  jsonUnmarshalSettings := refJsonUnmarshalSettings

/-- The digest of the example of RFC 4226, section 5.4. -/
def rfc4226Digest : List Byte :=
  [0x1f, 0x86, 0x98, 0x69, 0x0e, 0x02, 0xca, 0x16, 0x61, 0x85, 0x50, 0xef, 0x7f, 0x19, 0xda,
   0x8e, 0x94, 0x5b, 0x55, 0x5a]

/-- The reference standard library with an HMAC that answers with `rfc4226Digest`. -/
def rfc4226Std : GoStd := { refStd with hmacSum := fun _ _ _ => rfc4226Digest }

/-! ## Sample vaults

Vaults as the reference library leaves them, on which the embedded methods are evaluated. -/

/-- An account. -/
def sampleAccount : Account :=
  { ID := goString "id-1", Name := goString "alice", Issuer := goString "Example",
    Secret := goString "JBSWY3DPEHPK3PXP", Algorithm := goString "SHA1", Digits := 6,
    Type_ := goString "TOTP", Counter := 0, Period := 30, Group := [] }

/-- The vault after `Initialize`, `SaveAccount(sampleAccount)` and `SetPassword("hunter2")`
on an empty file, in a process that has not unlocked it: the master key is not loaded. -/
def lockedVault : Database :=
  { metadata :=
      [(goString "salt", goString "FbxjCrFY/6ZN9JtC6ZA33g=="),
       (goString "password_verifier", goString
        "hSzTeiHIbxa9ZAuy1kHnqSCo2pPtAGwRlV/VV5Egk5pxwYTkMvHyAIBLHMCX2JcJqiZ3nbtyHbNW")],
    accounts :=
      [(goString "id-1", goString
        ("LdR7IslwF75lDLNanHr1UTKG8NEZIqVovurJTmpkjMw/B4fGnG/IeK558yo7z8WmAGPQL5vAv6IfDT+a" ++
         "sWSSNF++lYKZZ84B7nDHlYBHKXK+SbMcnjdD50WB7Ihxe6yD6B7v8VO9a7KhJpSQPutwXj6YyxW3xMOh" ++
         "+iTQvt5AgqqLblXd2UpN/Q1c2ytHZQLfayP/xOFdKLZwT3p+FrnwNJwx2ipSsMi5mteBjJNxOm9ujIXD" ++
         "X3U="))],
    settings :=
      [(goString "main", goString
        ("WQCnTvWcQ+qRON+GHYZYUwCucmlT0PH233fYjtmzdH5l3L6GYBUGupkUxrPaBZ6xbBP3iKTOdLHOywS+" ++
         "47XUSuJNjGW03APqslIywhjnhKSVFqJwHtuFXskI5w=="))],
    masterKey := [],
    randPos := 104 }

/-- The key `DeriveKey("hunter2", salt)` for the salt of `lockedVault`. -/
def sampleKey : List Byte :=
  [0xc3, 0xf9, 0xb4, 0x53, 0xbc, 0xfd, 0xf6, 0xd0, 0x84, 0x50, 0xc7, 0x02, 0xb2, 0xc4, 0x1e,
   0x14, 0x5c, 0x4c, 0x00, 0x92, 0x13, 0x12, 0x45, 0x55, 0x8d, 0xfb, 0xad, 0x66, 0x66, 0x11,
   0xdf, 0x9f]

/-- The vault `lockedVault` after `Unlock("hunter2")`. -/
def unlockedVault : Database := { lockedVault with masterKey := sampleKey }

/-- A file that holds a salt and no verifier, in a process that has loaded no key. -/
def bareVault : Database :=
  { metadata := [(goString "salt", goString "KdB3HsVsE7phCK9W/aRL8g==")],
    accounts := [], settings := [], masterKey := [], randPos := 0 }

/-! ## The varint codec and the two readers -/

theorem byte_val (n : Nat) : (byte n).val = n % 256 := rfl

theorem byte_val_of_lt {n : Nat} (h : n < 256) : (byte n).val = n := by
  simp [byte_val, Nat.mod_eq_of_lt h]

theorem or_0x80_lt (n : Fin 256) : (n.val ||| 0x80) % 256 = n.val % 128 + 128 := by
  revert n; decide

theorem add_0x80_and (k : Fin 128) : (k.val + 128) &&& 0x7f = k.val := by
  revert k; decide

theorem contByte_val (v : Nat) : (byte (v % 256 ||| 0x80)).val = v % 128 + 128 := by
  have h := or_0x80_lt ⟨v % 256, Nat.mod_lt _ (by decide)⟩
  simp only [byte_val] at *
  rw [h]; omega

theorem contByte_and (v : Nat) : (byte (v % 256 ||| 0x80)).val &&& 0x7f = v % 128 := by
  rw [contByte_val]
  exact add_0x80_and ⟨v % 128, Nat.mod_lt _ (by decide)⟩

theorem appendVarintLoop_fuel (f1 : Nat) : ∀ (f2 v : Nat) (buf : List Byte), v ≤ f1 → v ≤ f2 →
    appendVarintLoop f1 buf v = appendVarintLoop f2 buf v := by
  induction f1 with
  | zero =>
    intro f2 v buf h1 _
    obtain rfl : v = 0 := by omega
    cases f2 <;> simp [appendVarintLoop]
  | succ n ih =>
    intro f2 v buf h1 h2
    cases f2 with
    | zero =>
      obtain rfl : v = 0 := by omega
      simp [appendVarintLoop]
    | succ m =>
      simp only [appendVarintLoop]
      split
      · rename_i hv
        have : v >>> 7 < v := by rw [Nat.shiftRight_eq_div_pow]; omega
        exact ih m (v >>> 7) _ (by omega) (by omega)
      · rfl

theorem appendVarintLoop_append (f : Nat) : ∀ (v : Nat) (buf : List Byte),
    appendVarintLoop f buf v = buf ++ appendVarintLoop f [] v := by
  induction f with
  | zero => intro v buf; simp [appendVarintLoop]
  | succ n ih =>
    intro v buf
    simp only [appendVarintLoop]
    split
    · rw [ih (v >>> 7) (buf ++ _), ih (v >>> 7) ([] ++ _)]; simp
    · simp

theorem appendVarint_append (buf : List Byte) (v : Nat) :
    appendVarint buf v = buf ++ appendVarint [] v :=
  appendVarintLoop_append v v buf

/-- The unfolding of `appendVarint` on the empty buffer. -/
theorem appendVarint_nil (v : Nat) :
    appendVarint [] v =
      if v ≥ 0x80 then byte (v % 256 ||| 0x80) :: appendVarint [] (v >>> 7) else [byte v] := by
  unfold appendVarint
  cases v with
  | zero => simp [appendVarintLoop]
  | succ n =>
    simp only [appendVarintLoop]
    split
    · rename_i hv
      have : (n + 1) >>> 7 < n + 1 := by rw [Nat.shiftRight_eq_div_pow]; omega
      rw [appendVarintLoop_append, appendVarintLoop_fuel n ((n + 1) >>> 7) _ _ (by omega) (by omega)]
      simp
    · simp

theorem or_shiftLeft_mod (x m s : Nat) (hx : x < 2 ^ s) (hm : m * 2 ^ s < 2 ^ 64) :
    x ||| (m <<< s) % 2 ^ 64 = x + m * 2 ^ s := by
  rw [Nat.shiftLeft_eq, Nat.mod_eq_of_lt hm, Nat.or_comm, Nat.mul_comm,
    ← Nat.mul_add_lt_is_or hx, Nat.add_comm]

theorem mod_add_0x80_and (v : Nat) : (v % 128 + 128) &&& 127 = v % 128 :=
  add_0x80_and ⟨v % 128, Nat.mod_lt _ (by decide)⟩

/-- Reading back, from accumulator `x`, shift `7 * i` and counter `i`, the groups that
`appendVarint` writes for `v`. -/
theorem varintLoop_appendVarint (v : Nat) : ∀ (i x pos : Nat) (rest : List Byte),
    i ≤ 9 → x < 2 ^ (7 * i) → v * 2 ^ (7 * i) < 2 ^ 64 →
    varintLoop (appendVarint [] v ++ rest) pos x (7 * i) i =
      (.ok (x + v * 2 ^ (7 * i)), pos + (appendVarint [] v).length) := by
  induction v using Nat.strong_induction_on with
  | _ v ih =>
    intro i x pos rest hi hx hv
    rw [appendVarint_nil]
    by_cases h : v ≥ 0x80
    · have hlt : v >>> 7 < v := by rw [Nat.shiftRight_eq_div_pow]; omega
      have hi8 : i ≤ 8 := by
        by_contra hc
        obtain rfl : i = 9 := by omega
        omega
      have hs : 2 ^ (7 * (i + 1)) = 128 * 2 ^ (7 * i) := by
        rw [Nat.mul_add, Nat.pow_add]; omega
      have hm : (v % 128) * 2 ^ (7 * i) < 2 ^ 64 := by
        have : v % 128 ≤ v := Nat.mod_le _ _
        exact lt_of_le_of_lt (Nat.mul_le_mul_right _ this) hv
      have hsplit : v = 128 * (v >>> 7) + v % 128 := by
        rw [Nat.shiftRight_eq_div_pow]; omega
      have hx2 : x + v % 128 * 2 ^ (7 * i) < 2 ^ (7 * (i + 1)) := by
        rw [hs]
        have : v % 128 < 128 := Nat.mod_lt _ (by decide)
        nlinarith
      have hv2 : (v >>> 7) * 2 ^ (7 * (i + 1)) < 2 ^ 64 := by
        rw [hs]
        have : (v >>> 7) * (128 * 2 ^ (7 * i)) ≤ v * 2 ^ (7 * i) := by
          rw [← Nat.mul_assoc]
          apply Nat.mul_le_mul_right
          omega
        omega
      simp only [if_pos h, List.cons_append, varintLoop, contByte_val, mod_add_0x80_and,
        List.length_cons]
      rw [if_neg (by omega), or_shiftLeft_mod x _ _ hx hm]
      have := ih (v >>> 7) hlt (i + 1) _ (pos + 1) rest (by omega) hx2 hv2
      rw [show 7 * i + 7 = 7 * (i + 1) by omega, this, hs]
      refine congrArg₂ Prod.mk (congrArg Result.ok ?_) ?_
      · have e : v * 2 ^ (7 * i) = 128 * (v >>> 7) * 2 ^ (7 * i) + v % 128 * 2 ^ (7 * i) := by
          rw [← Nat.add_mul, ← hsplit]
        rw [e]; ring
      · omega
    · have hb : (byte v).val = v := byte_val_of_lt (by omega)
      simp only [if_neg h, List.cons_append, List.nil_append, varintLoop, hb, List.length_singleton]
      rw [if_pos (by omega), if_neg, or_shiftLeft_mod x _ _ hx hv]
      rintro (hc | ⟨rfl, hc⟩)
      · omega
      · omega

theorem decoder_varint_appendVarint (pre rest : List Byte) (v : Nat) (hv : v < 2 ^ 64) :
    decoder.varint ⟨pre ++ appendVarint [] v ++ rest, pre.length⟩ =
      (.ok v, ⟨pre ++ appendVarint [] v ++ rest, pre.length + (appendVarint [] v).length⟩) := by
  have h := varintLoop_appendVarint v 0 0 pre.length rest (by omega) (by simp) (by simpa using hv)
  simp only [decoder.varint, List.append_assoc, List.drop_left]
  simp at h
  rw [h]

theorem byte_bit_0x80 (b : Byte) :
    (b.val &&& 0x80 = 0x80 ↔ 0x80 ≤ b.val) ∧ (b.val &&& 0x80 = 0 ↔ b.val < 0x80) := by
  revert b; decide

theorem appendVarint_length_pos (v : Nat) : 1 ≤ (appendVarint [] v).length := by
  rw [appendVarint_nil]; split <;> simp

theorem appendVarint_length_le (k : Nat) : ∀ v : Nat, v < 2 ^ (7 * (k + 1)) →
    (appendVarint [] v).length ≤ k + 1 := by
  induction k with
  | zero =>
    intro v hv
    rw [appendVarint_nil, if_neg (by omega)]; simp
  | succ n ih =>
    intro v hv
    rw [appendVarint_nil]
    split
    · have : v >>> 7 < 2 ^ (7 * (n + 1)) := by
        rw [Nat.shiftRight_eq_div_pow, Nat.div_lt_iff_lt_mul (by decide)]
        rw [show 7 * (n + 1 + 1) = 7 * (n + 1) + 7 by omega, Nat.pow_add] at hv
        exact hv
      have := ih _ this
      simp only [List.length_cons]; omega
    · simp

/-- The groups `appendVarint` writes: continuation groups, then one final group. -/
theorem appendVarint_groups (v : Nat) : ∃ (pre : List Byte) (last : Byte),
    appendVarint [] v = pre ++ [last] ∧ (∀ b ∈ pre, 0x80 ≤ b.val) ∧ last.val < 0x80 := by
  induction v using Nat.strong_induction_on with
  | _ v ih =>
    rw [appendVarint_nil]
    by_cases h : v ≥ 0x80
    · have hlt : v >>> 7 < v := by rw [Nat.shiftRight_eq_div_pow]; omega
      obtain ⟨pre, last, he, hp, hl⟩ := ih _ hlt
      refine ⟨byte (v % 256 ||| 0x80) :: pre, last, ?_, ?_, hl⟩
      · simp [if_pos h, he]
      · intro b hb
        rcases List.mem_cons.1 hb with rfl | hb
        · rw [contByte_val]; omega
        · exact hp b hb
    · refine ⟨[], byte v, by simp [if_neg h], by simp, ?_⟩
      rw [byte_val_of_lt (by omega)]; omega

/-- Continuation groups only move the position, the shift and the counter. -/
theorem varintLoop_continuation (pre : List Byte) : ∀ (tail : List Byte) (pos x s i : Nat),
    (∀ c ∈ pre, 0x80 ≤ c.val) →
    ∃ x2, varintLoop (pre ++ tail) pos x s i =
      varintLoop tail (pos + pre.length) x2 (s + 7 * pre.length) (i + pre.length) := by
  induction pre with
  | nil => intro tail pos x s i _; exact ⟨x, by simp⟩
  | cons c cs ih =>
    intro tail pos x s i hpre
    have hc : ¬ c.val < 0x80 := by
      have := hpre c (List.mem_cons_self _ _); omega
    obtain ⟨x2, h2⟩ := ih tail (pos + 1) (x ||| ((c.val &&& 0x7f) <<< s) % 2 ^ 64) (s + 7) (i + 1)
      (fun b hb => hpre b (List.mem_cons_of_mem _ hb))
    refine ⟨x2, ?_⟩
    rw [show pos + 1 + cs.length = pos + (cs.length + 1) by omega,
      show s + 7 + 7 * cs.length = s + 7 * (cs.length + 1) by omega,
      show i + 1 + cs.length = i + (cs.length + 1) by omega] at h2
    simp only [List.cons_append, varintLoop, if_neg hc, List.length_cons]
    exact h2

theorem toInt64_of_lt {n : Nat} (h : n < 2 ^ 63) : toInt64 n = (n : Int) := by
  unfold toInt64
  have : n % 2 ^ 64 = n := Nat.mod_eq_of_lt (by omega)
  rw [this, if_pos h]

theorem toInt64_of_ge {n : Nat} (h : 2 ^ 63 ≤ n) (h2 : n < 2 ^ 64) :
    toInt64 n = (n : Int) - 2 ^ 64 := by
  unfold toInt64
  have : n % 2 ^ 64 = n := Nat.mod_eq_of_lt h2
  rw [this, if_neg (by omega)]

theorem addInt64_of_nonneg {a b : Int} (h0 : 0 ≤ a + b) (h : a + b < 2 ^ 63) :
    addInt64 a b = a + b := by
  unfold addInt64
  have e : ((a + b) % 2 ^ 64).toNat = (a + b).toNat := by omega
  rw [e, toInt64_of_lt (by omega)]
  omega

theorem addInt64_of_neg {a b : Int} (h0 : a + b < 0) (h : -(2 ^ 63) ≤ a + b) :
    addInt64 a b = a + b := by
  unfold addInt64
  have e : (((a + b) % 2 ^ 64).toNat : Int) = a + b + 2 ^ 64 := by omega
  rw [toInt64_of_ge (by omega) (by omega), e]
  omega

theorem addInt64_of_ge {a b : Int} (h0 : 2 ^ 63 ≤ a + b) (h : a + b < 2 ^ 64) :
    addInt64 a b = a + b - 2 ^ 64 := by
  unfold addInt64
  have e : (((a + b) % 2 ^ 64).toNat : Int) = a + b := by omega
  rw [toInt64_of_ge (by omega) (by omega), e]

/-- What `decoder.bytes` does once the length `n` has been read, leaving the decoder at
`d1`: a panic when `d1.pos + n` leaves the range of `int`, an error when it exceeds the
input, the `n` bytes otherwise. -/
theorem decoder_bytes_of_varint (d d1 : decoder) (n : Nat) (hv : d.varint = (.ok n, d1))
    (hn : n < 2 ^ 64) (hpos : d1.pos ≤ d1.data.length) (hlen : d1.data.length < 2 ^ 63) :
    d.bytes =
      if 2 ^ 63 ≤ d1.pos + n then (.panic, d1)
      else if d1.data.length < d1.pos + n then (.error .unexpectedEOF, d1)
      else (.ok ((d1.data.drop d1.pos).take n), { d1 with pos := d1.pos + n }) := by
  unfold decoder.bytes
  rw [hv]
  simp only
  by_cases h1 : 2 ^ 63 ≤ d1.pos + n
  · rw [if_pos h1]
    by_cases h2 : n < 2 ^ 63
    · rw [toInt64_of_lt h2, addInt64_of_ge (by omega) (by omega), if_neg (by omega),
        if_pos (by omega)]
    · rw [toInt64_of_ge (by omega) hn]
      by_cases h3 : (d1.pos : Int) + ((n : Int) - 2 ^ 64) < 0
      · rw [addInt64_of_neg h3 (by omega), if_neg (by omega), if_pos (by omega)]
      · rw [addInt64_of_nonneg (by omega) (by omega), if_neg (by omega), if_pos (by omega)]
  · rw [if_neg h1, toInt64_of_lt (by omega), addInt64_of_nonneg (by omega) (by omega)]
    by_cases h2 : d1.data.length < d1.pos + n
    · rw [if_pos (by omega), if_pos h2]
    · rw [if_neg (by omega), if_neg (by omega), if_neg h2]
      have : ((d1.pos : Int) + (n : Int)).toNat = d1.pos + n := by omega
      rw [this, Nat.add_sub_cancel_left]

theorem decoder_varint_data (d : decoder) : (d.varint).2.data = d.data := rfl

theorem appendBytes_append (buf b : List Byte) : appendBytes buf b = buf ++ appendBytes [] b := by
  unfold appendBytes
  rw [appendVarint_append]; simp

theorem decoder_bytes_appendBytes (pre rest b : List Byte)
    (hlen : (pre ++ appendBytes [] b ++ rest).length < 2 ^ 63) :
    decoder.bytes ⟨pre ++ appendBytes [] b ++ rest, pre.length⟩ =
      (.ok b, ⟨pre ++ appendBytes [] b ++ rest, pre.length + (appendBytes [] b).length⟩) := by
  have hl : (pre ++ appendBytes [] b ++ rest).length =
      pre.length + (appendVarint [] (toUint64 b.length)).length + b.length + rest.length := by
    simp [appendBytes]; omega
  have hb : toUint64 b.length = b.length := Nat.mod_eq_of_lt (by omega)
  have hdata : pre ++ appendBytes [] b ++ rest =
      pre ++ appendVarint [] (toUint64 b.length) ++ (b ++ rest) := by
    simp [appendBytes]
  have hv := decoder_varint_appendVarint pre (b ++ rest) (toUint64 b.length)
    (Nat.mod_lt _ (by decide))
  rw [← hdata] at hv
  rw [decoder_bytes_of_varint _ _ _ hv (Nat.mod_lt _ (by decide)) (by simp only; omega)
    (by simp only; omega)]
  simp only
  rw [if_neg (by omega), if_neg (by omega)]
  have hd : List.drop (pre.length + (appendVarint [] (toUint64 b.length)).length)
      (pre ++ appendBytes [] b ++ rest) = b ++ rest := by
    rw [hdata, ← List.length_append, List.drop_left]
  rw [hd, hb, List.take_left]
  simp [appendBytes, hb]
  omega

theorem tag_eq (f w : Nat) (hf : f < 2 ^ 61) (hw : w < 8) :
    toUint64 (f <<< 3) ||| w = 8 * f + w := by
  unfold toUint64
  rw [Nat.shiftLeft_eq, Nat.mod_eq_of_lt (by omega)]
  have := Nat.mul_add_lt_is_or (i := 3) (b := w) (by omega) f
  simp only [Nat.reducePow] at this ⊢
  rw [Nat.mul_comm f 8, ← this]

theorem tag_wire (f w : Nat) (hw : w < 8) : (8 * f + w) &&& 7 = w := by
  have := Nat.and_pow_two_sub_one_eq_mod (8 * f + w) 3
  simp only [Nat.reducePow, Nat.reduceSub] at this
  rw [this]; omega

theorem tag_field (f w : Nat) (hw : w < 8) : (8 * f + w) >>> 3 = f := by
  rw [Nat.shiftRight_eq_div_pow]; omega

theorem appendTag_eq (buf : List Byte) (f w : Nat) (hf : f < 2 ^ 61) (hw : w < 8) :
    appendTag buf f w = buf ++ appendVarint [] (8 * f + w) := by
  unfold appendTag
  rw [tag_eq f w hf hw, appendVarint_append]

/-- Reading the tag that `appendTag` wrote. -/
theorem decoder_varint_tag (pre rest : List Byte) (f w : Nat) (hf : f < 2 ^ 61) (hw : w < 8) :
    decoder.varint ⟨pre ++ appendTag [] f w ++ rest, pre.length⟩ =
      (.ok (8 * f + w), ⟨pre ++ appendTag [] f w ++ rest, (pre ++ appendTag [] f w).length⟩) := by
  rw [appendTag_eq [] f w hf hw, List.nil_append, List.length_append]
  exact decoder_varint_appendVarint pre rest (8 * f + w) (by omega)

theorem encode_varint_eq (f v : Nat) :
    (WireField.varint f v).encode = appendTag [] f wireVarint ++ appendVarint [] v := by
  simp only [WireField.encode]; rw [appendVarint_append]

theorem encode_bytes_eq (f : Nat) (b : List Byte) :
    (WireField.bytes f b).encode = appendTag [] f wireLen ++ appendBytes [] b := by
  simp only [WireField.encode]; rw [appendBytes_append]

/-- One pass of the loop of `parseOtpParameters` over a field that follows the schema. -/
theorem parseOtpParametersStep_field (pre rest : List Byte) (f : WireField) (p : OtpParameters)
    (hwf : f.WellFormed) (hs : f.OtpSchema)
    (hlen : (pre ++ f.encode ++ rest).length < 2 ^ 63) :
    parseOtpParametersStep ⟨pre ++ f.encode ++ rest, pre.length⟩ p =
      .next ⟨pre ++ f.encode ++ rest, (pre ++ f.encode).length⟩ (f.store p) := by
  cases f with
  | varint f v =>
    obtain ⟨hf, hv⟩ := hwf
    obtain ⟨h1, h2, h3⟩ := hs
    have hd : pre ++ (WireField.varint f v).encode ++ rest =
        pre ++ appendTag [] f wireVarint ++ (appendVarint [] v ++ rest) := by
      rw [encode_varint_eq]; simp
    have hd2 : pre ++ (WireField.varint f v).encode ++ rest =
        (pre ++ appendTag [] f wireVarint) ++ appendVarint [] v ++ rest := by
      rw [encode_varint_eq]; simp
    have ht := decoder_varint_tag pre (appendVarint [] v ++ rest) f wireVarint hf (by decide)
    rw [← hd] at ht
    have hval := decoder_varint_appendVarint (pre ++ appendTag [] f wireVarint) rest v hv
    rw [← hd2] at hval
    have hl : (pre ++ appendTag [] f wireVarint).length + (appendVarint [] v).length =
        (pre ++ (WireField.varint f v).encode).length := by
      rw [encode_varint_eq]; simp; omega
    rw [hl] at hval
    unfold parseOtpParametersStep
    rw [ht]
    simp only [tag_wire f wireVarint (by decide), tag_field f wireVarint (by decide), if_neg h1,
      if_neg h2, if_neg h3, otpVarintField, hval, WireField.store]
    by_cases e4 : f = 4
    · simp [e4]
    by_cases e5 : f = 5
    · simp [e5]
    by_cases e6 : f = 6
    · simp [e6]
    by_cases e7 : f = 7
    · simp [e7]
    simp [e4, e5, e6, e7]
  | bytes f b =>
    have hf : f < 2 ^ 61 := hwf
    obtain ⟨h4, h5, h6, h7⟩ := hs
    have hd : pre ++ (WireField.bytes f b).encode ++ rest =
        pre ++ appendTag [] f wireLen ++ (appendBytes [] b ++ rest) := by
      rw [encode_bytes_eq]; simp
    have hd2 : pre ++ (WireField.bytes f b).encode ++ rest =
        (pre ++ appendTag [] f wireLen) ++ appendBytes [] b ++ rest := by
      rw [encode_bytes_eq]; simp
    have ht := decoder_varint_tag pre (appendBytes [] b ++ rest) f wireLen hf (by decide)
    rw [← hd] at ht
    have hval := decoder_bytes_appendBytes (pre ++ appendTag [] f wireLen) rest b
      (by rw [← hd2]; exact hlen)
    rw [← hd2] at hval
    have hl : (pre ++ appendTag [] f wireLen).length + (appendBytes [] b).length =
        (pre ++ (WireField.bytes f b).encode).length := by
      rw [encode_bytes_eq]; simp; omega
    rw [hl] at hval
    unfold parseOtpParametersStep
    rw [ht]
    simp only [tag_wire f wireLen (by decide), tag_field f wireLen (by decide), if_neg h4,
      if_neg h5, if_neg h6, if_neg h7, otpBytesField, hval, WireField.store]
    by_cases e1 : f = 1
    · simp [e1]
    by_cases e2 : f = 2
    · simp [e2]
    by_cases e3 : f = 3
    · simp [e3]
    simp [e1, e2, e3, wireLen, wireVarint]

theorem appendTag_length_pos (f w : Nat) : 1 ≤ (appendTag [] f w).length := by
  unfold appendTag; exact appendVarint_length_pos _

theorem encode_length_pos (f : WireField) : 2 ≤ f.encode.length := by
  cases f with
  | varint f v =>
    rw [encode_varint_eq, List.length_append]
    have := appendTag_length_pos f wireVarint
    have := appendVarint_length_pos v
    omega
  | bytes f b =>
    rw [encode_bytes_eq, List.length_append]
    have := appendTag_length_pos f wireLen
    have : 1 ≤ (appendBytes [] b).length := by
      unfold appendBytes
      rw [List.length_append]
      have := appendVarint_length_pos (toUint64 b.length)
      omega
    omega

theorem encodeFields_length (fs : List WireField) : 2 * fs.length ≤ (encodeFields fs).length := by
  induction fs with
  | nil => simp [encodeFields]
  | cons f fs ih =>
    have := encode_length_pos f
    simp only [encodeFields, List.length_append, List.length_cons]; omega

theorem encodeFields_append (fs gs : List WireField) :
    encodeFields (fs ++ gs) = encodeFields fs ++ encodeFields gs := by
  induction fs with
  | nil => simp [encodeFields]
  | cons f fs ih => simp [encodeFields, ih]

/-- The loop of `parseOtpParameters` over a sequence of fields that follow the schema: one
pass per field, each storing its field, up to the first byte after the fields. -/
theorem parseOtpParametersLoop_over_fields (fs : List WireField) :
    ∀ (pre tail : List Byte) (p : OtpParameters) (fuel : Nat),
    (∀ f ∈ fs, f.WellFormed ∧ f.OtpSchema) →
    (pre ++ encodeFields fs ++ tail).length < 2 ^ 63 →
    parseOtpParametersLoop (fs.length + fuel) ⟨pre ++ encodeFields fs ++ tail, pre.length⟩ p =
      parseOtpParametersLoop fuel
        ⟨pre ++ encodeFields fs ++ tail, (pre ++ encodeFields fs).length⟩
        (fs.foldl WireField.store p) := by
  induction fs with
  | nil =>
    intro pre tail p fuel _ _
    simp [encodeFields]
  | cons f fs ih =>
    intro pre tail p fuel hfs hlen
    have hf := hfs f (List.mem_cons_self _ _)
    have hd : pre ++ encodeFields (f :: fs) ++ tail =
        pre ++ f.encode ++ (encodeFields fs ++ tail) := by
      simp [encodeFields]
    have hd2 : pre ++ encodeFields (f :: fs) ++ tail =
        (pre ++ f.encode) ++ encodeFields fs ++ tail := by
      simp [encodeFields]
    have hp2 : (pre ++ encodeFields (f :: fs)).length =
        ((pre ++ f.encode) ++ encodeFields fs).length := by
      simp [encodeFields]
    have hpos : pre.length < (pre ++ encodeFields (f :: fs) ++ tail).length := by
      have := encode_length_pos f
      rw [hd]; simp only [List.length_append]; omega
    have hstep := parseOtpParametersStep_field pre (encodeFields fs ++ tail) f p hf.1 hf.2
      (by rw [← hd]; exact hlen)
    have hrec := ih (pre ++ f.encode) tail (f.store p) fuel
      (fun g hg => hfs g (List.mem_cons_of_mem _ hg)) (by rw [← hd2]; exact hlen)
    rw [← hd] at hstep
    rw [← hd2, ← hp2] at hrec
    rw [show (f :: fs).length + fuel = (fs.length + fuel) + 1 by simp only [List.length_cons]; omega]
    simp only [parseOtpParametersLoop, if_pos hpos, hstep, hrec, List.foldl_cons]

/-- Reading a message made of fields that follow the schema: no error, and the record is
the default record with each field stored in turn. -/
theorem parseOtpParameters_fields (fs : List WireField)
    (hfs : ∀ f ∈ fs, f.WellFormed ∧ f.OtpSchema) (hlen : (encodeFields fs).length < 2 ^ 63) :
    parseOtpParameters (encodeFields fs) = .ok (fs.foldl WireField.store defaultOtpParameters) := by
  have h := parseOtpParametersLoop_over_fields fs [] [] defaultOtpParameters
    ((encodeFields fs).length - fs.length + 1) hfs (by simpa using hlen)
  have hl := encodeFields_length fs
  simp only [List.nil_append, List.append_nil, List.length_nil] at h
  rw [show fs.length + ((encodeFields fs).length - fs.length + 1) = (encodeFields fs).length + 1
    by omega] at h
  unfold parseOtpParameters
  rw [h]
  simp [parseOtpParametersLoop]

theorem uint64OfInt_lt (i : Int) : uint64OfInt i < 2 ^ 64 := by
  unfold uint64OfInt; omega

theorem toInt32_uint64OfInt (i : Int) (h : IsInt32 i) : toInt32 (uint64OfInt i) = i := by
  obtain ⟨h1, h2⟩ := h
  unfold toInt32 uint64OfInt
  split <;> omega

theorem toInt64_uint64OfInt (i : Int) (h : IsInt64 i) : toInt64 (uint64OfInt i) = i := by
  obtain ⟨h1, h2⟩ := h
  unfold toInt64 uint64OfInt
  split <;> omega

theorem appendTag_append (buf : List Byte) (f w : Nat) :
    appendTag buf f w = buf ++ appendTag [] f w := by
  unfold appendTag; rw [appendVarint_append]

theorem appendVarint_tag_append (buf : List Byte) (f v : Nat) :
    appendVarint (appendTag buf f wireVarint) v = buf ++ (WireField.varint f v).encode := by
  rw [appendVarint_append, appendTag_append, encode_varint_eq]; simp

theorem appendBytes_tag_append (buf : List Byte) (f : Nat) (b : List Byte) :
    appendBytes (appendTag buf f wireLen) b = buf ++ (WireField.bytes f b).encode := by
  rw [appendBytes_append, appendTag_append, encode_bytes_eq]; simp

/-- The bytes `encodeOtpParameters` writes are the encodings of `otpFields`, in order. -/
theorem encodeOtpParameters_eq (p : OtpParameters) :
    encodeOtpParameters p = encodeFields (otpFields p) := by
  unfold encodeOtpParameters otpFields appendString
  simp only [appendVarint_tag_append, appendBytes_tag_append, encodeFields_append]
  split <;> split <;> split <;> split <;> simp [encodeFields]

theorem otpFields_ok (p : OtpParameters) : ∀ f ∈ otpFields p, f.WellFormed ∧ f.OtpSchema := by
  intro f hf
  unfold otpFields at hf
  simp only [List.mem_append, List.mem_cons, List.mem_singleton] at hf
  have h64 : ∀ i, uint64OfInt i < 18446744073709551616 := uint64OfInt_lt
  rcases hf with (((hf | hf) | hf) | hf) | hf
  · split at hf
    · simp at hf; subst hf; simp [WireField.WellFormed, WireField.OtpSchema]
    · simp at hf
  · split at hf
    · simp at hf; subst hf; simp [WireField.WellFormed, WireField.OtpSchema]
    · simp at hf
  · split at hf
    · simp at hf; subst hf; simp [WireField.WellFormed, WireField.OtpSchema]
    · simp at hf
  · rcases hf with rfl | rfl | rfl | hf
    · simp [WireField.WellFormed, WireField.OtpSchema, h64]
    · simp [WireField.WellFormed, WireField.OtpSchema, h64]
    · simp [WireField.WellFormed, WireField.OtpSchema, h64]
    · simp at hf
  · split at hf
    · simp at hf; subst hf; simp [WireField.WellFormed, WireField.OtpSchema, h64]
    · simp at hf

/-- Storing the fields of a record into the default record gives the record back. -/
theorem foldl_store_otpFields (p : OtpParameters) (hr : p.InRange)
    (hc : p.Type_ ≠ OtpTypeHOTP → p.Counter = 0) :
    (otpFields p).foldl WireField.store defaultOtpParameters = p := by
  obtain ⟨ha, hd, ht, hcn⟩ := hr
  obtain ⟨s, n, i, a, dg, t, c⟩ := p
  simp only at ha hd ht hcn hc
  unfold otpFields
  simp only [List.foldl_append, List.foldl_cons, List.foldl_nil]
  have e1 := toInt32_uint64OfInt a ha
  have e2 := toInt32_uint64OfInt dg hd
  have e3 := toInt32_uint64OfInt t ht
  have e4 := toInt64_uint64OfInt c hcn
  by_cases h4 : t = OtpTypeHOTP
  · subst h4
    cases s <;> cases n <;> cases i <;>
      simp [WireField.store, defaultOtpParameters, e1, e2, e3, e4]
  · have hc0 := hc h4
    cases s <;> cases n <;> cases i <;>
      simp [h4, WireField.store, defaultOtpParameters, e1, e2, e3, hc0]

/-- Reading back the record that `encodeOtpParameters` wrote. -/
theorem parseOtpParameters_encodeOtpParameters (p : OtpParameters) (hr : p.InRange)
    (hc : p.Type_ ≠ OtpTypeHOTP → p.Counter = 0) (hlen : (encodeOtpParameters p).length < 2 ^ 63) :
    parseOtpParameters (encodeOtpParameters p) = .ok p := by
  rw [encodeOtpParameters_eq] at hlen ⊢
  rw [parseOtpParameters_fields _ (otpFields_ok p) hlen, foldl_store_otpFields p hr hc]

/-- One pass of the loop of `parsePayload` over a field-1 record. -/
theorem parsePayloadStep_record (pre rest rec : List Byte) (accounts : List OtpParameters)
    (hlen : (pre ++ (WireField.bytes 1 rec).encode ++ rest).length < 2 ^ 63) :
    parsePayloadStep ⟨pre ++ (WireField.bytes 1 rec).encode ++ rest, pre.length⟩ accounts =
      match parseOtpParameters rec with
      | .ok param =>
        .next ⟨pre ++ (WireField.bytes 1 rec).encode ++ rest,
          (pre ++ (WireField.bytes 1 rec).encode).length⟩ (accounts ++ [param])
      | .error e => .fail e
      | .panic => .panic
      | .outOfFuel => .outOfFuel := by
  have hd : pre ++ (WireField.bytes 1 rec).encode ++ rest =
      pre ++ appendTag [] 1 wireLen ++ (appendBytes [] rec ++ rest) := by
    rw [encode_bytes_eq]; simp
  have hd2 : pre ++ (WireField.bytes 1 rec).encode ++ rest =
      (pre ++ appendTag [] 1 wireLen) ++ appendBytes [] rec ++ rest := by
    rw [encode_bytes_eq]; simp
  have ht := decoder_varint_tag pre (appendBytes [] rec ++ rest) 1 wireLen (by decide) (by decide)
  rw [← hd] at ht
  have hval := decoder_bytes_appendBytes (pre ++ appendTag [] 1 wireLen) rest rec
    (by rw [← hd2]; exact hlen)
  rw [← hd2] at hval
  have hl : (pre ++ appendTag [] 1 wireLen).length + (appendBytes [] rec).length =
      (pre ++ (WireField.bytes 1 rec).encode).length := by
    rw [encode_bytes_eq]; simp; omega
  rw [hl] at hval
  unfold parsePayloadStep
  rw [ht]
  simp only [tag_wire 1 wireLen (by decide), tag_field 1 wireLen (by decide), hval]
  cases parseOtpParameters rec <;> simp

/-- One pass of the loop of `parsePayload` over a varint field 2, 3, 4 or 5. -/
theorem parsePayloadStep_skip (pre rest : List Byte) (f v : Nat) (accounts : List OtpParameters)
    (hf : f = 2 ∨ f = 3 ∨ f = 4 ∨ f = 5) (hv : v < 2 ^ 64) :
    parsePayloadStep ⟨pre ++ (WireField.varint f v).encode ++ rest, pre.length⟩ accounts =
      .next ⟨pre ++ (WireField.varint f v).encode ++ rest,
        (pre ++ (WireField.varint f v).encode).length⟩ accounts := by
  have hf61 : f < 2 ^ 61 := by omega
  have hd : pre ++ (WireField.varint f v).encode ++ rest =
      pre ++ appendTag [] f wireVarint ++ (appendVarint [] v ++ rest) := by
    rw [encode_varint_eq]; simp
  have hd2 : pre ++ (WireField.varint f v).encode ++ rest =
      (pre ++ appendTag [] f wireVarint) ++ appendVarint [] v ++ rest := by
    rw [encode_varint_eq]; simp
  have ht := decoder_varint_tag pre (appendVarint [] v ++ rest) f wireVarint hf61 (by decide)
  rw [← hd] at ht
  have hval := decoder_varint_appendVarint (pre ++ appendTag [] f wireVarint) rest v hv
  rw [← hd2] at hval
  have hl : (pre ++ appendTag [] f wireVarint).length + (appendVarint [] v).length =
      (pre ++ (WireField.varint f v).encode).length := by
    rw [encode_varint_eq]; simp; omega
  rw [hl] at hval
  unfold parsePayloadStep
  rw [ht]
  simp only [tag_wire f wireVarint (by decide), tag_field f wireVarint (by decide), hval]
  have h1 : f ≠ 1 := by omega
  simp [h1, hf]

/-- The loop of `parsePayload` over varint fields 2 to 5: one pass per field, the accounts
are kept. -/
theorem parsePayloadLoop_batch (fs : List (Nat × Nat)) :
    ∀ (pre tail : List Byte) (accounts : List OtpParameters) (fuel : Nat), IsBatch fs →
    parsePayloadLoop (fs.length + fuel)
      ⟨pre ++ encodeFields (batchFields fs) ++ tail, pre.length⟩ accounts =
      parsePayloadLoop fuel ⟨pre ++ encodeFields (batchFields fs) ++ tail,
        (pre ++ encodeFields (batchFields fs)).length⟩ accounts := by
  induction fs with
  | nil =>
    intro pre tail accounts fuel _
    simp [encodeFields, batchFields]
  | cons f fs ih =>
    intro pre tail accounts fuel hfs
    have hf := hfs f (List.mem_cons_self _ _)
    have hd : pre ++ encodeFields (batchFields (f :: fs)) ++ tail =
        pre ++ (WireField.varint f.1 f.2).encode ++ (encodeFields (batchFields fs) ++ tail) := by
      simp [encodeFields, batchFields]
    have hd2 : pre ++ encodeFields (batchFields (f :: fs)) ++ tail =
        (pre ++ (WireField.varint f.1 f.2).encode) ++ encodeFields (batchFields fs) ++ tail := by
      simp [encodeFields, batchFields]
    have hp2 : (pre ++ encodeFields (batchFields (f :: fs))).length =
        ((pre ++ (WireField.varint f.1 f.2).encode) ++ encodeFields (batchFields fs)).length := by
      simp [encodeFields, batchFields]
    have hpos : pre.length < (pre ++ encodeFields (batchFields (f :: fs)) ++ tail).length := by
      have := encode_length_pos (WireField.varint f.1 f.2)
      rw [hd]; simp only [List.length_append]; omega
    have hstep := parsePayloadStep_skip pre (encodeFields (batchFields fs) ++ tail) f.1 f.2
      accounts hf.1 hf.2
    have hrec := ih (pre ++ (WireField.varint f.1 f.2).encode) tail accounts fuel
      (fun g hg => hfs g (List.mem_cons_of_mem _ hg))
    rw [← hd] at hstep
    rw [← hd2, ← hp2] at hrec
    rw [show (f :: fs).length + fuel = (fs.length + fuel) + 1 by simp only [List.length_cons]; omega]
    simp only [parsePayloadLoop, if_pos hpos, hstep, hrec]

theorem encodeAccounts_append (accs : List OtpParameters) : ∀ buf : List Byte,
    encodeAccounts buf accs = buf ++ encodeAccounts [] accs := by
  induction accs with
  | nil => intro buf; simp [encodeAccounts]
  | cons a accs ih =>
    intro buf
    simp only [encodeAccounts]
    rw [ih, ih (appendBytes _ _), appendBytes_tag_append, appendBytes_tag_append]
    simp

theorem encodeAccounts_cons (a : OtpParameters) (accs : List OtpParameters) :
    encodeAccounts [] (a :: accs) =
      (WireField.bytes 1 (encodeOtpParameters a)).encode ++ encodeAccounts [] accs := by
  simp only [encodeAccounts]
  rw [encodeAccounts_append, appendBytes_tag_append]; simp

theorem encodeAccounts_length (accs : List OtpParameters) :
    2 * accs.length ≤ (encodeAccounts [] accs).length := by
  induction accs with
  | nil => simp [encodeAccounts]
  | cons a accs ih =>
    have := encode_length_pos (WireField.bytes 1 (encodeOtpParameters a))
    rw [encodeAccounts_cons]
    simp only [List.length_append, List.length_cons]; omega

theorem encodeAccounts_eq (accs : List OtpParameters) :
    encodeAccounts [] accs = encodeFields (recordFields (accs.map encodeOtpParameters)) := by
  induction accs with
  | nil => simp [encodeAccounts, recordFields, encodeFields]
  | cons a accs ih =>
    rw [encodeAccounts_cons, ih]; simp [recordFields, encodeFields]

/-- The loop of `parsePayload` over field-1 records that `parseOtpParameters` accepts: one
pass per record, each appending the record read. -/
theorem parsePayloadLoop_records (recs : List (List Byte × OtpParameters)) :
    ∀ (pre tail : List Byte) (acc0 : List OtpParameters) (fuel : Nat),
    (∀ r ∈ recs, parseOtpParameters r.1 = .ok r.2) →
    (pre ++ encodeFields (recordFields (recs.map Prod.fst)) ++ tail).length < 2 ^ 63 →
    parsePayloadLoop (recs.length + fuel)
        ⟨pre ++ encodeFields (recordFields (recs.map Prod.fst)) ++ tail, pre.length⟩ acc0 =
      parsePayloadLoop fuel
        ⟨pre ++ encodeFields (recordFields (recs.map Prod.fst)) ++ tail,
          (pre ++ encodeFields (recordFields (recs.map Prod.fst))).length⟩
        (acc0 ++ recs.map Prod.snd) := by
  induction recs with
  | nil =>
    intro pre tail acc0 fuel _ _
    simp [encodeFields, recordFields]
  | cons r recs ih =>
    intro pre tail acc0 fuel hrecs hlen
    have hr := hrecs r (List.mem_cons_self _ _)
    have hd : pre ++ encodeFields (recordFields ((r :: recs).map Prod.fst)) ++ tail =
        pre ++ (WireField.bytes 1 r.1).encode ++
          (encodeFields (recordFields (recs.map Prod.fst)) ++ tail) := by
      simp [encodeFields, recordFields]
    have hd2 : pre ++ encodeFields (recordFields ((r :: recs).map Prod.fst)) ++ tail =
        (pre ++ (WireField.bytes 1 r.1).encode) ++
          encodeFields (recordFields (recs.map Prod.fst)) ++ tail := by
      simp [encodeFields, recordFields]
    have hp2 : (pre ++ encodeFields (recordFields ((r :: recs).map Prod.fst))).length =
        ((pre ++ (WireField.bytes 1 r.1).encode) ++
          encodeFields (recordFields (recs.map Prod.fst))).length := by
      simp [encodeFields, recordFields]
    have hpos : pre.length <
        (pre ++ encodeFields (recordFields ((r :: recs).map Prod.fst)) ++ tail).length := by
      have := encode_length_pos (WireField.bytes 1 r.1)
      rw [hd]; simp only [List.length_append]; omega
    have hstep := parsePayloadStep_record pre
      (encodeFields (recordFields (recs.map Prod.fst)) ++ tail) r.1 acc0
      (by rw [← hd]; exact hlen)
    rw [hr] at hstep
    have hrec := ih (pre ++ (WireField.bytes 1 r.1).encode) tail (acc0 ++ [r.2]) fuel
      (fun g hg => hrecs g (List.mem_cons_of_mem _ hg)) (by rw [← hd2]; exact hlen)
    rw [← hd] at hstep
    rw [← hd2, ← hp2] at hrec
    rw [show (r :: recs).length + fuel = (recs.length + fuel) + 1
      by simp only [List.length_cons]; omega]
    simp only [parsePayloadLoop, if_pos hpos, hstep, hrec]
    simp

/-- Reading field-1 records that `parseOtpParameters` accepts, followed by varint fields 2
to 5: the records read, in order, and no error. -/
theorem parsePayload_records_batch (recs : List (List Byte × OtpParameters))
    (fs : List (Nat × Nat)) (hrecs : ∀ r ∈ recs, parseOtpParameters r.1 = .ok r.2)
    (hfs : IsBatch fs)
    (hlen : (encodeFields (recordFields (recs.map Prod.fst)) ++
      encodeFields (batchFields fs)).length < 2 ^ 63) :
    parsePayload (encodeFields (recordFields (recs.map Prod.fst)) ++
      encodeFields (batchFields fs)) = .ok (recs.map Prod.snd) := by
  have h1 := encodeFields_length (recordFields (recs.map Prod.fst))
  have h2 := encodeFields_length (batchFields fs)
  have hbl : (batchFields fs).length = fs.length := by simp [batchFields]
  have hrl : (recordFields (recs.map Prod.fst)).length = recs.length := by simp [recordFields]
  obtain ⟨k, hk⟩ : ∃ k, (encodeFields (recordFields (recs.map Prod.fst)) ++
      encodeFields (batchFields fs)).length + 1 = recs.length + (fs.length + (k + 1)) :=
    ⟨(encodeFields (recordFields (recs.map Prod.fst)) ++
      encodeFields (batchFields fs)).length - recs.length - fs.length,
      by simp only [List.length_append] at *; omega⟩
  have hA := parsePayloadLoop_records recs [] (encodeFields (batchFields fs)) []
    (fs.length + (k + 1)) hrecs (by simpa using hlen)
  have hB := parsePayloadLoop_batch fs ([] ++ encodeFields (recordFields (recs.map Prod.fst)))
    [] (recs.map Prod.snd) (k + 1) hfs
  simp only [List.nil_append, List.append_nil, List.length_nil] at hA hB
  unfold parsePayload
  rw [hk, hA, hB]
  simp [parsePayloadLoop]

/-- The four varint fields `encodePayload` writes after the records. -/
theorem encodePayload_eq (accounts : List OtpParameters) (unixNano : Int) :
    encodePayload accounts unixNano = encodeAccounts [] accounts ++
      encodeFields (batchFields [(2, 1), (3, toUint64 accounts.length), (4, 0),
        (5, uint64OfInt (unixNano.tmod 1000000))]) := by
  unfold encodePayload batchFields
  simp only [appendVarint_tag_append, List.map_cons, List.map_nil, encodeFields,
    List.append_assoc, List.append_nil]

theorem isBatch_trailer (n : Nat) (unixNano : Int) :
    IsBatch [(2, 1), (3, toUint64 n), (4, 0), (5, uint64OfInt (unixNano.tmod 1000000))] := by
  intro f hf
  have h1 : toUint64 n < 2 ^ 64 := Nat.mod_lt _ (by decide)
  have h2 := uint64OfInt_lt (unixNano.tmod 1000000)
  simp only [List.mem_cons, List.mem_singleton, List.not_mem_nil, or_false] at hf
  rcases hf with rfl | rfl | rfl | rfl <;> simp [h1, h2]
  · exact h1
  · exact h2

/-- The payload round trip. -/
theorem parsePayload_encodePayload (accounts : List OtpParameters) (unixNano : Int)
    (hacc : ∀ a ∈ accounts, a.InRange ∧ (a.Type_ ≠ OtpTypeHOTP → a.Counter = 0))
    (hlen : (encodePayload accounts unixNano).length < 2 ^ 63) :
    parsePayload (encodePayload accounts unixNano) = .ok accounts := by
  rw [encodePayload_eq, encodeAccounts_eq] at hlen ⊢
  have hm1 : (accounts.map fun a => (encodeOtpParameters a, a)).map Prod.fst =
      accounts.map encodeOtpParameters := by simp
  have hm2 : (accounts.map fun a => (encodeOtpParameters a, a)).map Prod.snd = accounts := by
    rw [List.map_map]
    exact List.map_id _
  have h := parsePayload_records_batch (accounts.map fun a => (encodeOtpParameters a, a)) _
    (by
      intro r hr
      obtain ⟨a, ha, rfl⟩ := List.mem_map.1 hr
      have hreclen : (encodeOtpParameters a).length < 2 ^ 63 := by
        have h1 : (encodeOtpParameters a).length ≤
            (encodeFields (recordFields (accounts.map encodeOtpParameters))).length := by
          clear hlen hacc hm1 hm2 hr
          induction accounts with
          | nil => simp at ha
          | cons b bs ih =>
            rcases List.mem_cons.1 ha with rfl | hb
            · simp [recordFields, encodeFields, encode_bytes_eq, appendBytes]; omega
            · have := ih hb
              simp only [recordFields, List.map_cons, encodeFields, List.length_append] at this ⊢
              omega
        simp only [List.length_append] at hlen
        omega
      exact parseOtpParameters_encodeOtpParameters a (hacc a ha).1 (hacc a ha).2 hreclen)
    (isBatch_trailer accounts.length unixNano) (by rw [hm1]; exact hlen)
  rw [hm1, hm2] at h
  exact h

/-! ## The loops end before their fuel -/

/-- The loop of `varint` moves the position forward, by at least one byte when there is
one and never beyond the bytes given; it does not run out of fuel and does not panic. -/
theorem varintLoop_pos (bs : List Byte) : ∀ (pos x s i : Nat),
    pos ≤ (varintLoop bs pos x s i).2 ∧ (varintLoop bs pos x s i).2 ≤ pos + bs.length ∧
    (bs ≠ [] → pos < (varintLoop bs pos x s i).2) ∧
    (varintLoop bs pos x s i).1 ≠ .outOfFuel ∧ (varintLoop bs pos x s i).1 ≠ .panic := by
  induction bs with
  | nil => intro pos x s i; simp [varintLoop]
  | cons b bs ih =>
    intro pos x s i
    simp only [varintLoop, List.length_cons]
    split
    · split <;> simp
    · obtain ⟨h1, h2, _, h4, h5⟩ := ih (pos + 1) (x ||| ((b.val &&& 0x7f) <<< s) % 2 ^ 64)
        (s + 7) (i + 1)
      exact ⟨by omega, by omega, fun _ => by omega, h4, h5⟩

/-- The method `varint` keeps the input, moves the position forward (by at least one byte
when a byte is left, and not beyond the input), and returns a value or an error. -/
theorem decoder_varint_pos (d : decoder) (hd : d.pos ≤ d.data.length) :
    (d.varint).2.data = d.data ∧ d.pos ≤ (d.varint).2.pos ∧
    (d.varint).2.pos ≤ d.data.length ∧
    (d.pos < d.data.length → d.pos < (d.varint).2.pos) ∧
    (d.varint).1 ≠ .outOfFuel ∧ (d.varint).1 ≠ .panic := by
  obtain ⟨h1, h2, h3, h4, h5⟩ := varintLoop_pos (d.data.drop d.pos) d.pos 0 0 0
  simp only [List.length_drop] at h2
  refine ⟨rfl, h1, by simp only [decoder.varint]; omega, fun hlt => h3 ?_, h4, h5⟩
  intro h
  have := congrArg List.length h
  simp only [List.length_drop, List.length_nil] at this
  omega

/-- The method `bytes` keeps the input, does not move the position backward or beyond the
input, and does not run out of fuel. -/
theorem decoder_bytes_pos (d : decoder) (hd : d.pos ≤ d.data.length) :
    (d.bytes).2.data = d.data ∧ d.pos ≤ (d.bytes).2.pos ∧ (d.bytes).2.pos ≤ d.data.length ∧
    (d.bytes).1 ≠ .outOfFuel := by
  obtain ⟨h1, h2, h3, _, h5, _⟩ := decoder_varint_pos d hd
  unfold decoder.bytes
  split
  · rename_i n d1 heq
    rw [heq] at h1 h2 h3
    simp only at h1 h2 h3 ⊢
    split
    · exact ⟨h1, h2, h3, by simp⟩
    · split
      · exact ⟨h1, h2, h3, by simp⟩
      · rw [h1] at *
        refine ⟨h1, by simp only; omega, by simp only; omega, by simp⟩
  · rename_i e d1 heq
    rw [heq] at h1 h2 h3
    exact ⟨h1, h2, h3, by simp⟩
  · rename_i d1 heq
    rw [heq] at h1 h2 h3
    exact ⟨h1, h2, h3, by simp⟩
  · rename_i d1 heq
    rw [heq] at h5
    exact absurd rfl h5

theorem otpBytesField_progress (d1 : decoder) (set : List Byte → OtpParameters)
    (hd : d1.pos ≤ d1.data.length) :
    otpBytesField d1 set ≠ .outOfFuel ∧
    ∀ d2 p2, otpBytesField d1 set = .next d2 p2 →
      d2.data = d1.data ∧ d1.pos ≤ d2.pos ∧ d2.pos ≤ d1.data.length := by
  obtain ⟨h1, h2, h3, h4⟩ := decoder_bytes_pos d1 hd
  unfold otpBytesField
  split
  · rename_i b d2 heq
    rw [heq] at h1 h2 h3
    refine ⟨by simp, fun d3 p3 h => ?_⟩
    obtain ⟨rfl, _⟩ := OtpStep.next.inj h
    exact ⟨h1, h2, h3⟩
  · exact ⟨by simp, fun d3 p3 h => by simp at h⟩
  · exact ⟨by simp, fun d3 p3 h => by simp at h⟩
  · rename_i d2 heq
    rw [heq] at h4
    exact absurd rfl h4

theorem otpVarintField_progress (d1 : decoder) (set : Nat → OtpParameters)
    (hd : d1.pos ≤ d1.data.length) :
    otpVarintField d1 set ≠ .outOfFuel ∧
    ∀ d2 p2, otpVarintField d1 set = .next d2 p2 →
      d2.data = d1.data ∧ d1.pos ≤ d2.pos ∧ d2.pos ≤ d1.data.length := by
  obtain ⟨h1, h2, h3, _, h5, _⟩ := decoder_varint_pos d1 hd
  unfold otpVarintField
  split
  · rename_i b d2 heq
    rw [heq] at h1 h2 h3
    refine ⟨by simp, fun d3 p3 h => ?_⟩
    obtain ⟨rfl, _⟩ := OtpStep.next.inj h
    exact ⟨h1, h2, h3⟩
  · exact ⟨by simp, fun d3 p3 h => by simp at h⟩
  · exact ⟨by simp, fun d3 p3 h => by simp at h⟩
  · rename_i d2 heq
    rw [heq] at h5
    exact absurd rfl h5

/-- A pass of the loop of `parseOtpParameters` that goes on to the next pass has read at
least one byte, and a pass does not run out of fuel. -/
theorem parseOtpParametersStep_progress (d : decoder) (p : OtpParameters)
    (hd : d.pos < d.data.length) :
    parseOtpParametersStep d p ≠ .outOfFuel ∧
    ∀ d2 p2, parseOtpParametersStep d p = .next d2 p2 →
      d2.data = d.data ∧ d.pos < d2.pos ∧ d2.pos ≤ d.data.length := by
  obtain ⟨h1, h2, h3, h4, _, _⟩ := decoder_varint_pos d (le_of_lt hd)
  have h4 := h4 hd
  unfold parseOtpParametersStep
  split
  · rename_i tag d1 heq
    rw [heq] at h1 h2 h3 h4
    simp only at h1 h2 h3 h4
    have hb : ∀ set : List Byte → OtpParameters, otpBytesField d1 set ≠ .outOfFuel ∧
        ∀ d2 p2, otpBytesField d1 set = .next d2 p2 →
          d2.data = d.data ∧ d.pos < d2.pos ∧ d2.pos ≤ d.data.length := by
      intro set
      obtain ⟨q1, q2⟩ := otpBytesField_progress d1 set (by rw [h1]; exact h3)
      rw [h1] at q2
      exact ⟨q1, fun d2 p2 h => ⟨(q2 d2 p2 h).1, lt_of_lt_of_le h4 (q2 d2 p2 h).2.1,
        (q2 d2 p2 h).2.2⟩⟩
    have hv : ∀ set : Nat → OtpParameters, otpVarintField d1 set ≠ .outOfFuel ∧
        ∀ d2 p2, otpVarintField d1 set = .next d2 p2 →
          d2.data = d.data ∧ d.pos < d2.pos ∧ d2.pos ≤ d.data.length := by
      intro set
      obtain ⟨q1, q2⟩ := otpVarintField_progress d1 set (by rw [h1]; exact h3)
      rw [h1] at q2
      exact ⟨q1, fun d2 p2 h => ⟨(q2 d2 p2 h).1, lt_of_lt_of_le h4 (q2 d2 p2 h).2.1,
        (q2 d2 p2 h).2.2⟩⟩
    have hn : OtpStep.next d1 p ≠ .outOfFuel ∧
        ∀ d2 p2, OtpStep.next d1 p = .next d2 p2 →
          d2.data = d.data ∧ d.pos < d2.pos ∧ d2.pos ≤ d.data.length := by
      refine ⟨by simp, fun d2 p2 h => ?_⟩
      obtain ⟨rfl, _⟩ := OtpStep.next.inj h
      exact ⟨h1, h4, h3⟩
    simp only
    generalize tag >>> 3 = field
    generalize tag &&& 7 = wire
    by_cases e1 : field = 1
    · rw [if_pos e1]; exact hb _
    rw [if_neg e1]
    by_cases e2 : field = 2
    · rw [if_pos e2]; exact hb _
    rw [if_neg e2]
    by_cases e3 : field = 3
    · rw [if_pos e3]; exact hb _
    rw [if_neg e3]
    by_cases e4 : field = 4
    · rw [if_pos e4]; exact hv _
    rw [if_neg e4]
    by_cases e5 : field = 5
    · rw [if_pos e5]; exact hv _
    rw [if_neg e5]
    by_cases e6 : field = 6
    · rw [if_pos e6]; exact hv _
    rw [if_neg e6]
    by_cases e7 : field = 7
    · rw [if_pos e7]; exact hv _
    rw [if_neg e7]
    by_cases w0 : wire = wireVarint
    · rw [if_pos w0]; exact hv _
    rw [if_neg w0]
    by_cases w2 : wire = wireLen
    · rw [if_pos w2]; exact hb _
    rw [if_neg w2]
    exact hn
  · exact ⟨by simp, fun d2 p2 h => by simp at h⟩

/-- The loop of `parseOtpParameters` ends before its fuel does, when it has one pass per
unread byte and one more. -/
theorem parseOtpParametersLoop_total (fuel : Nat) : ∀ (d : decoder) (p : OtpParameters),
    d.data.length - d.pos < fuel → parseOtpParametersLoop fuel d p ≠ .outOfFuel := by
  induction fuel with
  | zero => intro d p h; omega
  | succ fuel ih =>
    intro d p hfuel
    simp only [parseOtpParametersLoop]
    split
    · rename_i hpos
      obtain ⟨h1, h2⟩ := parseOtpParametersStep_progress d p hpos
      split
      · rename_i d2 p2 heq
        obtain ⟨e1, e2, e3⟩ := h2 d2 p2 heq
        exact ih d2 p2 (by rw [e1]; omega)
      · simp
      · simp
      · simp
      · rename_i heq
        exact absurd heq h1
    · simp

/-- The function `parseOtpParameters` returns a record or an error, or panics, on every
input: the fuel of its loop does not run out. -/
theorem parseOtpParameters_total (data : List Byte) : parseOtpParameters data ≠ .outOfFuel :=
  parseOtpParametersLoop_total (data.length + 1) _ _ (by simp)

/-- A pass of the loop of `parsePayload` that goes on to the next pass has read at least
one byte, and a pass does not run out of fuel. -/
theorem parsePayloadStep_progress (d : decoder) (accounts : List OtpParameters)
    (hd : d.pos < d.data.length) :
    parsePayloadStep d accounts ≠ .outOfFuel ∧
    ∀ d2 a2, parsePayloadStep d accounts = .next d2 a2 →
      d2.data = d.data ∧ d.pos < d2.pos ∧ d2.pos ≤ d.data.length := by
  obtain ⟨h1, h2, h3, h4, _, _⟩ := decoder_varint_pos d (le_of_lt hd)
  have h4 := h4 hd
  unfold parsePayloadStep
  split
  · rename_i tag d1 heq
    rw [heq] at h1 h2 h3 h4
    simp only at h1 h2 h3 h4
    obtain ⟨b1, b2, b3, b4⟩ := decoder_bytes_pos d1 (by rw [h1]; exact h3)
    obtain ⟨v1, v2, v3, _, _, _⟩ := decoder_varint_pos d1 (by rw [h1]; exact h3)
    rw [h1] at b3 v3
    simp only
    split
    · split
      · exact ⟨by simp, fun d2 a2 h => by simp at h⟩
      · split
        · rename_i pb d2 hbytes
          rw [hbytes] at b1 b2 b3
          split
          · refine ⟨by simp, fun d3 a3 h => ?_⟩
            obtain ⟨rfl, _⟩ := PayloadStep.next.inj h
            exact ⟨b1.trans h1, lt_of_lt_of_le h4 b2, b3⟩
          · exact ⟨by simp, fun d2 a2 h => by simp at h⟩
          · exact ⟨by simp, fun d2 a2 h => by simp at h⟩
          · rename_i hp
            exact absurd hp (parseOtpParameters_total pb)
        · exact ⟨by simp, fun d2 a2 h => by simp at h⟩
        · exact ⟨by simp, fun d2 a2 h => by simp at h⟩
        · rename_i d2 hbytes
          rw [hbytes] at b4
          exact absurd rfl b4
    · split
      · split
        · refine ⟨by simp, fun d3 a3 h => ?_⟩
          obtain ⟨rfl, _⟩ := PayloadStep.next.inj h
          exact ⟨v1.trans h1, lt_of_lt_of_le h4 v2, v3⟩
        · refine ⟨by simp, fun d3 a3 h => ?_⟩
          obtain ⟨rfl, _⟩ := PayloadStep.next.inj h
          exact ⟨h1, h4, h3⟩
      · exact ⟨by simp, fun d2 a2 h => by simp at h⟩
  · exact ⟨by simp, fun d2 a2 h => by simp at h⟩

/-- The loop of `parsePayload` ends before its fuel does, when it has one pass per unread
byte and one more. -/
theorem parsePayloadLoop_total (fuel : Nat) : ∀ (d : decoder) (accounts : List OtpParameters),
    d.data.length - d.pos < fuel → parsePayloadLoop fuel d accounts ≠ .outOfFuel := by
  induction fuel with
  | zero => intro d p h; omega
  | succ fuel ih =>
    intro d accounts hfuel
    simp only [parsePayloadLoop]
    split
    · rename_i hpos
      obtain ⟨h1, h2⟩ := parsePayloadStep_progress d accounts hpos
      split
      · rename_i d2 p2 heq
        obtain ⟨e1, e2, e3⟩ := h2 d2 p2 heq
        exact ih d2 p2 (by rw [e1]; omega)
      · simp
      · simp
      · simp
      · rename_i heq
        exact absurd heq h1
    · simp

/-- The function `parsePayload` returns accounts or an error, or panics, on every input:
the fuel of its loop does not run out. -/
theorem parsePayload_total (data : List Byte) : parsePayload data ≠ .outOfFuel :=
  parsePayloadLoop_total (data.length + 1) _ _ (by simp)

/-! ## Malformed varints -/

/-- A varint that cannot be read: the error, and the position after the groups read. -/
theorem decoder_varint_malformed (bad rest : List Byte) (e : GoError)
    (h : MalformedVarint bad rest e) (pre : List Byte) :
    decoder.varint ⟨pre ++ bad ++ rest, pre.length⟩ =
      (.error e, ⟨pre ++ bad ++ rest, (pre ++ bad).length⟩) := by
  obtain ⟨cont, hcont, h⟩ := h
  rcases h with ⟨rfl, rfl, rfl⟩ | ⟨b, rfl, hb, hov, rfl⟩
  · obtain ⟨x2, hx⟩ := varintLoop_continuation bad [] pre.length 0 0 0 hcont
    simp only [List.append_nil] at hx ⊢
    simp only [decoder.varint, List.drop_left, hx, varintLoop, List.length_append]
  · obtain ⟨x2, hx⟩ := varintLoop_continuation cont (b :: rest) pre.length 0 0 0 hcont
    have hd : List.drop pre.length (pre ++ (cont ++ [b]) ++ rest) = cont ++ b :: rest := by
      rw [List.append_assoc, List.drop_left]; simp
    simp only [decoder.varint, hd, hx, varintLoop, if_pos hb, Nat.zero_add]
    rw [if_pos (by omega)]
    simp only [List.length_append, List.length_singleton]
    rw [Nat.add_assoc]

theorem decoder_bytes_malformed (bad rest : List Byte) (e : GoError)
    (h : MalformedVarint bad rest e) (pre : List Byte) :
    decoder.bytes ⟨pre ++ bad ++ rest, pre.length⟩ =
      (.error e, ⟨pre ++ bad ++ rest, (pre ++ bad).length⟩) := by
  unfold decoder.bytes
  rw [decoder_varint_malformed bad rest e h pre]

/-- Reading field-1 records first: the loop of `parsePayload` reaches the first byte after
them with the records read, and with a pass left for every byte that follows. -/
theorem parsePayload_records_then (recs : List (List Byte × OtpParameters)) (tail : List Byte)
    (hrecs : ∀ r ∈ recs, parseOtpParameters r.1 = .ok r.2)
    (hlen : (encodeFields (recordFields (recs.map Prod.fst)) ++ tail).length < 2 ^ 63) :
    ∃ fuel, tail.length < fuel ∧
      parsePayload (encodeFields (recordFields (recs.map Prod.fst)) ++ tail) =
        parsePayloadLoop fuel ⟨encodeFields (recordFields (recs.map Prod.fst)) ++ tail,
          (encodeFields (recordFields (recs.map Prod.fst))).length⟩ (recs.map Prod.snd) := by
  have h1 := encodeFields_length (recordFields (recs.map Prod.fst))
  have hrl : (recordFields (recs.map Prod.fst)).length = recs.length := by simp [recordFields]
  refine ⟨(encodeFields (recordFields (recs.map Prod.fst)) ++ tail).length + 1 - recs.length,
    by simp only [List.length_append] at *; omega, ?_⟩
  have hA := parsePayloadLoop_records recs [] tail []
    ((encodeFields (recordFields (recs.map Prod.fst)) ++ tail).length + 1 - recs.length)
    hrecs (by simpa using hlen)
  simp only [List.nil_append, List.length_nil] at hA
  unfold parsePayload
  rw [← hA]
  congr 1
  simp only [List.length_append] at *; omega

/-- Reading fields that follow the schema first: the loop of `parseOtpParameters` reaches
the first byte after them with the fields stored, and with a pass left for every byte
that follows. -/
theorem parseOtpParameters_fields_then (fs : List WireField) (tail : List Byte)
    (hfs : ∀ f ∈ fs, f.WellFormed ∧ f.OtpSchema)
    (hlen : (encodeFields fs ++ tail).length < 2 ^ 63) :
    ∃ fuel, tail.length < fuel ∧
      parseOtpParameters (encodeFields fs ++ tail) =
        parseOtpParametersLoop fuel ⟨encodeFields fs ++ tail, (encodeFields fs).length⟩
          (fs.foldl WireField.store defaultOtpParameters) := by
  have h1 := encodeFields_length fs
  refine ⟨(encodeFields fs ++ tail).length + 1 - fs.length,
    by simp only [List.length_append] at *; omega, ?_⟩
  have hA := parseOtpParametersLoop_over_fields fs [] tail defaultOtpParameters
    ((encodeFields fs ++ tail).length + 1 - fs.length) hfs (by simpa using hlen)
  simp only [List.nil_append, List.length_nil] at hA
  unfold parseOtpParameters
  rw [← hA]
  congr 1
  simp only [List.length_append] at *; omega

/-- A pass of the loop of `parseOtpParameters` whose field value is a varint that cannot be
read returns the error. -/
theorem parseOtpParametersStep_malformed (pre bad rest : List Byte) (e : GoError) (f w : Nat)
    (p : OtpParameters) (h : MalformedVarint bad rest e) (hf : f < 2 ^ 61) (hw : w < 8)
    (hread : (1 ≤ f ∧ f ≤ 7) ∨ w = wireVarint ∨ w = wireLen) :
    parseOtpParametersStep ⟨pre ++ appendTag [] f w ++ bad ++ rest, pre.length⟩ p = .fail e := by
  have ht := decoder_varint_tag pre (bad ++ rest) f w hf hw
  rw [← List.append_assoc] at ht
  have hv := decoder_varint_malformed bad rest e h (pre ++ appendTag [] f w)
  have hb := decoder_bytes_malformed bad rest e h (pre ++ appendTag [] f w)
  unfold parseOtpParametersStep
  rw [ht]
  simp only [tag_wire f w hw, tag_field f w hw, otpBytesField, otpVarintField, hv, hb]
  by_cases e1 : f = 1
  · simp [e1]
  by_cases e2 : f = 2
  · simp [e2]
  by_cases e3 : f = 3
  · simp [e3]
  by_cases e4 : f = 4
  · simp [e4]
  by_cases e5 : f = 5
  · simp [e5]
  by_cases e6 : f = 6
  · simp [e6]
  by_cases e7 : f = 7
  · simp [e7]
  rcases hread with hr | hr | hr
  · omega
  · simp [e1, e2, e3, e4, e5, e6, e7, hr]
  · simp [e1, e2, e3, e4, e5, e6, e7, hr, wireLen, wireVarint]

/-- A pass of the loop of `parsePayload` over a varint field 2 to 5 whose value cannot be
read: the error is dropped, the bytes read are skipped. -/
theorem parsePayloadStep_malformed_batch (pre bad rest : List Byte) (e : GoError) (f : Nat)
    (accounts : List OtpParameters) (h : MalformedVarint bad rest e)
    (hf : f = 2 ∨ f = 3 ∨ f = 4 ∨ f = 5) :
    parsePayloadStep ⟨pre ++ appendTag [] f wireVarint ++ bad ++ rest, pre.length⟩ accounts =
      .next ⟨pre ++ appendTag [] f wireVarint ++ bad ++ rest,
        (pre ++ appendTag [] f wireVarint ++ bad).length⟩ accounts := by
  have ht := decoder_varint_tag pre (bad ++ rest) f wireVarint (by omega) (by decide)
  rw [← List.append_assoc] at ht
  have hv := decoder_varint_malformed bad rest e h (pre ++ appendTag [] f wireVarint)
  unfold parsePayloadStep
  rw [ht]
  simp only [tag_wire f wireVarint (by decide), tag_field f wireVarint (by decide), hv]
  have h1 : f ≠ 1 := by omega
  simp [h1, hf]

/-- A varint that cannot be read, in the place of a tag of the top-level message, ends
`parsePayload` without an error. -/
theorem parsePayload_malformed_tag (recs : List (List Byte × OtpParameters))
    (bad rest : List Byte) (e : GoError) (h : MalformedVarint bad rest e)
    (hrecs : ∀ r ∈ recs, parseOtpParameters r.1 = .ok r.2)
    (hlen : (encodeFields (recordFields (recs.map Prod.fst)) ++ bad ++ rest).length < 2 ^ 63) :
    parsePayload (encodeFields (recordFields (recs.map Prod.fst)) ++ bad ++ rest) =
      .ok (recs.map Prod.snd) := by
  obtain ⟨fuel, hfuel, hp⟩ := parsePayload_records_then recs (bad ++ rest) hrecs
    (by rw [← List.append_assoc]; exact hlen)
  obtain ⟨k, rfl⟩ : ∃ k, fuel = k + 1 := ⟨fuel - 1, by omega⟩
  rw [← List.append_assoc] at hp
  rw [hp]
  simp only [parsePayloadLoop, parsePayloadStep,
    decoder_varint_malformed bad rest e h (encodeFields (recordFields (recs.map Prod.fst)))]
  split <;> rfl

/-- A varint that cannot be read, in the place of a tag inside an `OtpParameters` message,
ends `parseOtpParameters` without an error. -/
theorem parseOtpParameters_malformed_tag (fs : List WireField) (bad rest : List Byte)
    (e : GoError) (h : MalformedVarint bad rest e)
    (hfs : ∀ f ∈ fs, f.WellFormed ∧ f.OtpSchema)
    (hlen : (encodeFields fs ++ bad ++ rest).length < 2 ^ 63) :
    parseOtpParameters (encodeFields fs ++ bad ++ rest) =
      .ok (fs.foldl WireField.store defaultOtpParameters) := by
  obtain ⟨fuel, hfuel, hp⟩ := parseOtpParameters_fields_then fs (bad ++ rest) hfs
    (by rw [← List.append_assoc]; exact hlen)
  obtain ⟨k, rfl⟩ : ∃ k, fuel = k + 1 := ⟨fuel - 1, by omega⟩
  rw [← List.append_assoc] at hp
  rw [hp]
  simp only [parseOtpParametersLoop, parseOtpParametersStep,
    decoder_varint_malformed bad rest e h (encodeFields fs)]
  split <;> rfl

/-- A varint that cannot be read, in the place of a field value inside an `OtpParameters`
message, makes `parseOtpParameters` return the error. -/
theorem parseOtpParameters_malformed_value (fs : List WireField) (bad rest : List Byte)
    (e : GoError) (f w : Nat) (h : MalformedVarint bad rest e)
    (hfs : ∀ f ∈ fs, f.WellFormed ∧ f.OtpSchema) (hf : f < 2 ^ 61) (hw : w < 8)
    (hread : (1 ≤ f ∧ f ≤ 7) ∨ w = wireVarint ∨ w = wireLen)
    (hlen : (encodeFields fs ++ appendTag [] f w ++ bad ++ rest).length < 2 ^ 63) :
    parseOtpParameters (encodeFields fs ++ appendTag [] f w ++ bad ++ rest) = .error e := by
  have hdata : encodeFields fs ++ appendTag [] f w ++ bad ++ rest =
      encodeFields fs ++ (appendTag [] f w ++ bad ++ rest) := by simp
  obtain ⟨fuel, hfuel, hp⟩ := parseOtpParameters_fields_then fs
    (appendTag [] f w ++ bad ++ rest) hfs (by rw [← hdata]; exact hlen)
  obtain ⟨k, rfl⟩ : ∃ k, fuel = k + 1 := ⟨fuel - 1, by omega⟩
  rw [← hdata] at hp
  rw [hp]
  have hpos : (encodeFields fs).length <
      (encodeFields fs ++ appendTag [] f w ++ bad ++ rest).length := by
    have := appendTag_length_pos f w
    simp only [List.length_append]; omega
  simp only [parseOtpParametersLoop, if_pos hpos,
    parseOtpParametersStep_malformed (encodeFields fs) bad rest e f w _ h hf hw hread]

/-- An error of `parseOtpParameters` on a field-1 record is the error of `parsePayload`. -/
theorem parsePayload_record_error (recs : List (List Byte × OtpParameters))
    (rec tail : List Byte) (e : GoError)
    (hrecs : ∀ r ∈ recs, parseOtpParameters r.1 = .ok r.2)
    (hrec : parseOtpParameters rec = .error e)
    (hlen : (encodeFields (recordFields (recs.map Prod.fst)) ++
      (WireField.bytes 1 rec).encode ++ tail).length < 2 ^ 63) :
    parsePayload (encodeFields (recordFields (recs.map Prod.fst)) ++
      (WireField.bytes 1 rec).encode ++ tail) = .error e := by
  have hdata : encodeFields (recordFields (recs.map Prod.fst)) ++
      (WireField.bytes 1 rec).encode ++ tail =
      encodeFields (recordFields (recs.map Prod.fst)) ++
        ((WireField.bytes 1 rec).encode ++ tail) := by simp
  obtain ⟨fuel, hfuel, hp⟩ := parsePayload_records_then recs
    ((WireField.bytes 1 rec).encode ++ tail) hrecs (by rw [← hdata]; exact hlen)
  obtain ⟨k, rfl⟩ : ∃ k, fuel = k + 1 := ⟨fuel - 1, by omega⟩
  rw [← hdata] at hp
  rw [hp]
  have hpos : (encodeFields (recordFields (recs.map Prod.fst))).length <
      (encodeFields (recordFields (recs.map Prod.fst)) ++
        (WireField.bytes 1 rec).encode ++ tail).length := by
    have := encode_length_pos (WireField.bytes 1 rec)
    simp only [List.length_append]; omega
  simp only [parsePayloadLoop, if_pos hpos,
    parsePayloadStep_record (encodeFields (recordFields (recs.map Prod.fst))) tail rec _ hlen,
    hrec]

/-- A varint that cannot be read, in the place of the value of a top-level varint field 2
to 5, is skipped: `parsePayload` goes on with the fields that follow. -/
theorem parsePayload_malformed_batch (recs : List (List Byte × OtpParameters))
    (bad : List Byte) (e : GoError) (f : Nat) (gs : List (Nat × Nat))
    (h : MalformedVarint bad (encodeFields (batchFields gs)) e)
    (hrecs : ∀ r ∈ recs, parseOtpParameters r.1 = .ok r.2)
    (hf : f = 2 ∨ f = 3 ∨ f = 4 ∨ f = 5) (hgs : IsBatch gs)
    (hlen : (encodeFields (recordFields (recs.map Prod.fst)) ++ appendTag [] f wireVarint ++
      bad ++ encodeFields (batchFields gs)).length < 2 ^ 63) :
    parsePayload (encodeFields (recordFields (recs.map Prod.fst)) ++
      appendTag [] f wireVarint ++ bad ++ encodeFields (batchFields gs)) =
      .ok (recs.map Prod.snd) := by
  have hdata : encodeFields (recordFields (recs.map Prod.fst)) ++ appendTag [] f wireVarint ++
      bad ++ encodeFields (batchFields gs) =
      encodeFields (recordFields (recs.map Prod.fst)) ++
        (appendTag [] f wireVarint ++ bad ++ encodeFields (batchFields gs)) := by simp
  obtain ⟨fuel, hfuel, hp⟩ := parsePayload_records_then recs
    (appendTag [] f wireVarint ++ bad ++ encodeFields (batchFields gs)) hrecs
    (by rw [← hdata]; exact hlen)
  have h2 := encodeFields_length (batchFields gs)
  have hbl : (batchFields gs).length = gs.length := by simp [batchFields]
  have htl := appendTag_length_pos f wireVarint
  obtain ⟨k, rfl⟩ : ∃ k, fuel = (gs.length + (k + 1)) + 1 :=
    ⟨fuel - gs.length - 2, by simp only [List.length_append] at hfuel; omega⟩
  rw [← hdata] at hp
  rw [hp]
  have hpos : (encodeFields (recordFields (recs.map Prod.fst))).length <
      (encodeFields (recordFields (recs.map Prod.fst)) ++ appendTag [] f wireVarint ++
        bad ++ encodeFields (batchFields gs)).length := by
    simp only [List.length_append]; omega
  have hB := parsePayloadLoop_batch gs
    (encodeFields (recordFields (recs.map Prod.fst)) ++ appendTag [] f wireVarint ++ bad) []
    (recs.map Prod.snd) (k + 1) hgs
  simp only [List.append_nil] at hB
  simp only [parsePayloadLoop, if_pos hpos,
    parsePayloadStep_malformed_batch (encodeFields (recordFields (recs.map Prod.fst))) bad
      (encodeFields (batchFields gs)) e f _ h hf] at hB ⊢
  rw [hB]
  simp

/-- The records `encodeAccounts` writes are read back by `parseOtpParameters`. -/
theorem accounts_records (accounts : List OtpParameters)
    (hacc : ∀ a ∈ accounts, a.InRange ∧ (a.Type_ ≠ OtpTypeHOTP → a.Counter = 0))
    (hlen : (encodeAccounts [] accounts).length < 2 ^ 63) :
    (∀ r ∈ accounts.map fun a => (encodeOtpParameters a, a), parseOtpParameters r.1 = .ok r.2) ∧
    encodeFields (recordFields ((accounts.map fun a => (encodeOtpParameters a, a)).map
      Prod.fst)) = encodeAccounts [] accounts ∧
    (accounts.map fun a => (encodeOtpParameters a, a)).map Prod.snd = accounts := by
  have hm1 : (accounts.map fun a => (encodeOtpParameters a, a)).map Prod.fst =
      accounts.map encodeOtpParameters := by simp
  have hm2 : (accounts.map fun a => (encodeOtpParameters a, a)).map Prod.snd = accounts := by
    rw [List.map_map]
    exact List.map_id _
  refine ⟨?_, by rw [hm1, encodeAccounts_eq], hm2⟩
  intro r hr
  obtain ⟨a, ha, rfl⟩ := List.mem_map.1 hr
  have hreclen : (encodeOtpParameters a).length < 2 ^ 63 := by
    have h1 : (encodeOtpParameters a).length ≤ (encodeAccounts [] accounts).length := by
      clear hlen hacc hm1 hm2 hr
      induction accounts with
      | nil => simp at ha
      | cons b bs ih =>
        rw [encodeAccounts_cons]
        rcases List.mem_cons.1 ha with rfl | hb
        · simp [encode_bytes_eq, appendBytes]; omega
        · have := ih hb
          simp only [List.length_append] at this ⊢
          omega
    omega
  exact parseOtpParameters_encodeOtpParameters a (hacc a ha).1 (hacc a ha).2 hreclen

theorem store_unknown (u : WireField) (p : OtpParameters)
    (hnum : ¬ (1 ≤ u.field ∧ u.field ≤ 7)) : u.store p = p := by
  cases u with
  | varint f v =>
    simp only [WireField.field] at hnum
    simp only [WireField.store]
    rw [if_neg (by omega), if_neg (by omega), if_neg (by omega), if_neg (by omega)]
  | bytes f b =>
    simp only [WireField.field] at hnum
    simp only [WireField.store]
    rw [if_neg (by omega), if_neg (by omega), if_neg (by omega)]

theorem otpSchema_unknown (u : WireField) (hnum : ¬ (1 ≤ u.field ∧ u.field ≤ 7)) :
    u.OtpSchema := by
  cases u with
  | varint f v =>
    simp only [WireField.field] at hnum
    exact ⟨by omega, by omega, by omega⟩
  | bytes f b =>
    simp only [WireField.field] at hnum
    exact ⟨by omega, by omega, by omega, by omega⟩

/-- A field whose number is not `n` leaves the slot of field `n` alone. -/
theorem store_other (f : WireField) (p : OtpParameters) :
    (f.field ≠ 4 → (f.store p).Algorithm = p.Algorithm) ∧
    (f.field ≠ 5 → (f.store p).Digits = p.Digits) ∧
    (f.field ≠ 6 → (f.store p).Type_ = p.Type_) ∧
    (f.field ≠ 7 → (f.store p).Counter = p.Counter) := by
  cases f with
  | varint f v =>
    simp only [WireField.field, WireField.store]
    refine ⟨fun h => ?_, fun h => ?_, fun h => ?_, fun h => ?_⟩ <;>
      (repeat' split) <;> simp_all
  | bytes f b =>
    simp only [WireField.field, WireField.store]
    refine ⟨fun _ => ?_, fun _ => ?_, fun _ => ?_, fun _ => ?_⟩ <;>
      (repeat' split) <;> rfl

theorem foldl_store_other (fs : List WireField) : ∀ p : OtpParameters,
    ((∀ f ∈ fs, f.field ≠ 4) → (fs.foldl WireField.store p).Algorithm = p.Algorithm) ∧
    ((∀ f ∈ fs, f.field ≠ 5) → (fs.foldl WireField.store p).Digits = p.Digits) ∧
    ((∀ f ∈ fs, f.field ≠ 6) → (fs.foldl WireField.store p).Type_ = p.Type_) ∧
    ((∀ f ∈ fs, f.field ≠ 7) → (fs.foldl WireField.store p).Counter = p.Counter) := by
  induction fs with
  | nil => intro p; simp
  | cons f fs ih =>
    intro p
    obtain ⟨i1, i2, i3, i4⟩ := ih (f.store p)
    obtain ⟨s1, s2, s3, s4⟩ := store_other f p
    simp only [List.foldl_cons, List.mem_cons, forall_eq_or_imp]
    exact ⟨fun h => (i1 h.2).trans (s1 h.1), fun h => (i2 h.2).trans (s2 h.1),
      fun h => (i3 h.2).trans (s3 h.1), fun h => (i4 h.2).trans (s4 h.1)⟩

theorem appendTag_length_le (f w : Nat) (hf : f < 2 ^ 61) (hw : w < 8) :
    (appendTag [] f w).length ≤ 10 := by
  rw [appendTag_eq [] f w hf hw, List.nil_append]
  exact appendVarint_length_le 9 _ (by omega)

theorem encode_bytes_length_le (f : Nat) (b : List Byte) (hf : f < 2 ^ 61) :
    (WireField.bytes f b).encode.length ≤ b.length + 20 := by
  rw [encode_bytes_eq, List.length_append]
  have h1 := appendTag_length_le f wireLen hf (by decide)
  have h2 := appendVarint_length_le 9 (toUint64 b.length)
    (lt_of_lt_of_le (Nat.mod_lt _ (by decide)) (by decide))
  simp only [appendBytes, List.length_append]
  omega

/-- What `ParseMigrationURISimple` returns for a URI that has the scheme, parses, and
carries in `data` the base64 text of `payload`. -/
theorem parseMigrationURISimple_of_payload (std : GoStd) (uri : List Byte) (u : URL)
    (payload : List Byte) (hscheme : (goString "otpauth-migration://").isPrefixOf uri = true)
    (hparse : std.urlParse uri = some u)
    (hdata : std.queryGet u.RawQuery (goString "data") ≠ [])
    (hdecode : std.base64Decode (std.queryGet u.RawQuery (goString "data")) = some payload) :
    ParseMigrationURISimple std uri = parsePayload payload := by
  unfold ParseMigrationURISimple
  simp only [hscheme, not_true_eq_false, if_false, hparse, if_neg hdata, hdecode]

/-! ## Dynamic truncation and formatting -/

theorem mul_two_pow_or (a y k : Nat) (hy : y < 2 ^ k) : a * 2 ^ k ||| y = a * 2 ^ k + y := by
  rw [Nat.mul_comm, ← Nat.mul_add_lt_is_or hy]

theorem or_mul_two_pow (a y k : Nat) (hy : y < 2 ^ k) : y ||| a * 2 ^ k = y + a * 2 ^ k := by
  rw [Nat.or_comm, mul_two_pow_or a y k hy, Nat.add_comm]

theorem byte_and_0x7f (b : Byte) : b.val &&& 0x7f = b.val % 128 := by
  revert b; decide

theorem byte_and_0x0f (b : Byte) : b.val &&& 0x0f ≤ 15 := by
  revert b; decide

/-- The 31-bit value of dynamic truncation, as a sum. -/
theorem uint32BE_and (b0 b1 b2 b3 : Byte) :
    uint32BE b0 b1 b2 b3 &&& 0x7fffffff =
      b0.val % 128 * 2 ^ 24 + b1.val * 2 ^ 16 + b2.val * 2 ^ 8 + b3.val := by
  have h0 := b0.isLt
  have h1 := b1.isLt
  have h2 := b2.isLt
  have h3 := b3.isLt
  unfold uint32BE
  simp only [Nat.shiftLeft_eq]
  rw [or_mul_two_pow b2.val b3.val 8 (by omega),
    or_mul_two_pow b1.val _ 16 (by omega), or_mul_two_pow b0.val _ 24 (by omega)]
  have := Nat.and_pow_two_sub_one_eq_mod
    (b3.val + b2.val * 2 ^ 8 + b1.val * 2 ^ 16 + b0.val * 2 ^ 24) 31
  simp only [Nat.reducePow, Nat.reduceSub] at this ⊢
  rw [this]
  omega

/-- The value of dynamic truncation as RFC 4226 writes it, as a sum. -/
theorem truncation_value (b0 b1 b2 b3 : Byte) :
    (b0.val &&& 0x7f) <<< 24 ||| b1.val <<< 16 ||| b2.val <<< 8 ||| b3.val =
      b0.val % 128 * 2 ^ 24 + b1.val * 2 ^ 16 + b2.val * 2 ^ 8 + b3.val := by
  have h0 := b0.isLt
  have h1 := b1.isLt
  have h2 := b2.isLt
  have h3 := b3.isLt
  rw [byte_and_0x7f]
  simp only [Nat.shiftLeft_eq]
  have e1 : b0.val % 128 * 2 ^ 24 ||| b1.val * 2 ^ 16 = (b0.val % 128 * 2 ^ 8 + b1.val) * 2 ^ 16 := by
    rw [mul_two_pow_or _ _ 24 (by omega)]; omega
  have e2 : (b0.val % 128 * 2 ^ 8 + b1.val) * 2 ^ 16 ||| b2.val * 2 ^ 8 =
      ((b0.val % 128 * 2 ^ 8 + b1.val) * 2 ^ 8 + b2.val) * 2 ^ 8 := by
    rw [mul_two_pow_or _ _ 16 (by omega)]; omega
  rw [e1, e2, mul_two_pow_or _ _ 8 (by omega)]
  omega

theorem digitChar_byte (k : Nat) (hk : k < 10) : (byte (Nat.digitChar k).toNat).val = 0x30 + k := by
  interval_cases k <;> rfl

theorem decimalValue_foldl (s : List Byte) : ∀ acc : Nat,
    s.foldl (fun acc b => 10 * acc + (b.val - 0x30)) acc = acc * 10 ^ s.length + decimalValue s := by
  induction s with
  | nil => intro acc; simp [decimalValue]
  | cons b s ih =>
    intro acc
    unfold decimalValue
    simp only [List.foldl_cons, List.length_cons]
    rw [ih, ih (10 * 0 + _)]
    ring

theorem decimalValue_cons (b : Byte) (s : List Byte) :
    decimalValue (b :: s) = (b.val - 0x30) * 10 ^ s.length + decimalValue s := by
  unfold decimalValue
  simp only [List.foldl_cons]
  rw [decimalValue_foldl]
  simp [decimalValue]

theorem decimalValue_append (s t : List Byte) :
    decimalValue (s ++ t) = decimalValue s * 10 ^ t.length + decimalValue t := by
  unfold decimalValue
  rw [List.foldl_append, decimalValue_foldl]
  rfl

/-- The digits `Nat.toDigitsCore` prepends are ASCII digits and have the value of `n`. -/
theorem toDigitsCore_spec (fuel : Nat) : ∀ (n : Nat) (ds : List Char), n < fuel →
    (∀ c ∈ ds, IsAsciiDigit (byte c.toNat)) →
    (∀ c ∈ Nat.toDigitsCore 10 fuel n ds, IsAsciiDigit (byte c.toNat)) ∧
    decimalValue ((Nat.toDigitsCore 10 fuel n ds).map fun c => byte c.toNat) =
      n * 10 ^ ds.length + decimalValue (ds.map fun c => byte c.toNat) := by
  induction fuel with
  | zero => intro n ds h; omega
  | succ fuel ih =>
    intro n ds hn hds
    have hd := digitChar_byte (n % 10) (Nat.mod_lt _ (by decide))
    have hdig : ∀ c ∈ Nat.digitChar (n % 10) :: ds, IsAsciiDigit (byte c.toNat) := by
      intro c hc
      rcases List.mem_cons.1 hc with rfl | hc
      · unfold IsAsciiDigit; rw [hd]; omega
      · exact hds c hc
    have hval : decimalValue ((Nat.digitChar (n % 10) :: ds).map fun c => byte c.toNat) =
        n % 10 * 10 ^ ds.length + decimalValue (ds.map fun c => byte c.toNat) := by
      rw [List.map_cons, decimalValue_cons, hd]
      simp
    simp only [Nat.toDigitsCore]
    split
    · rename_i h0
      refine ⟨hdig, ?_⟩
      rw [hval]
      have : n % 10 = n := by omega
      rw [this]
    · rename_i h0
      obtain ⟨i1, i2⟩ := ih (n / 10) (Nat.digitChar (n % 10) :: ds) (by omega) hdig
      refine ⟨i1, ?_⟩
      rw [i2, hval, List.length_cons, Nat.pow_succ]
      have : n = 10 * (n / 10) + n % 10 := (Nat.div_add_mod n 10).symm
      generalize 10 ^ ds.length = P at *
      generalize decimalValue (ds.map fun c => byte c.toNat) = D at *
      calc n / 10 * (P * 10) + (n % 10 * P + D) = (10 * (n / 10) + n % 10) * P + D := by ring
        _ = n * P + D := by rw [← this]

theorem decimal_spec (n : Nat) :
    (∀ b ∈ decimal n, IsAsciiDigit b) ∧ decimalValue (decimal n) = n := by
  obtain ⟨h1, h2⟩ := toDigitsCore_spec (n + 1) n [] (by omega) (by simp)
  unfold decimal Nat.toDigits
  refine ⟨?_, by simpa [decimalValue] using h2⟩
  intro b hb
  obtain ⟨c, hc, rfl⟩ := List.mem_map.1 hb
  exact h1 c hc

theorem decimal_length (n w : Nat) (hw : 0 < w) (hn : n < 10 ^ w) : (decimal n).length ≤ w := by
  unfold decimal Nat.toDigits
  rw [List.length_map]
  exact Nat.toDigitsCore_length 10 (by decide) (n + 1) n w hn hw

/-- The call `fmt.Sprintf("%0<w>d", n)` for `n < 10^w`: exactly `w` ASCII digits, whose
value is `n`. -/
theorem sprintfZeroPad_spec (w n : Nat) (hw : 0 < w) (hn : n < 10 ^ w) :
    (sprintfZeroPad w n).length = w ∧ (∀ b ∈ sprintfZeroPad w n, IsAsciiDigit b) ∧
    decimalValue (sprintfZeroPad w n) = n := by
  have hl := decimal_length n w hw hn
  obtain ⟨h1, h2⟩ := decimal_spec n
  unfold sprintfZeroPad
  refine ⟨by simp only [List.length_append, List.length_replicate]; omega, ?_, ?_⟩
  · intro b hb
    rcases List.mem_append.1 hb with h | h
    · rw [List.eq_of_mem_replicate h]; decide
    · exact h1 b h
  · rw [decimalValue_append, h2]
    have : decimalValue (List.replicate (w - (decimal n).length) (byte 0x30)) = 0 := by
      generalize w - (decimal n).length = k
      induction k with
      | zero => rfl
      | succ k ih =>
        rw [List.replicate_succ, decimalValue_cons, ih]
        have : (byte 0x30).val - 0x30 = 0 := by decide
        rw [this]; simp
    rw [this]; simp

theorem offset_in_digest (h : List Byte) (last : Byte) (hlen : 20 ≤ h.length) :
    (last.val &&& 0x0f) + 4 ≤ h.length := by
  have := byte_and_0x0f last
  omega

/-! ## The reference standard library -/

theorem base64_char_fin (n : Fin 64) :
    base64Value (base64Char n.val) = some n.val ∧ base64Char n.val ≠ byte 0x3d := by
  revert n; decide

theorem base64Value_char (n : Nat) (h : n < 64) : base64Value (base64Char n) = some n :=
  (base64_char_fin ⟨n, h⟩).1

theorem base64Char_ne_pad (n : Nat) (h : n < 64) : base64Char n ≠ byte 0x3d :=
  (base64_char_fin ⟨n, h⟩).2

theorem byte_eq_of_val (b : Byte) (n : Nat) (h : n = b.val) : byte n = b := by
  apply Fin.ext
  have := b.isLt
  simp only [byte]
  omega

/-- Reference base64: decoding undoes encoding. -/
theorem refBase64_round_trip (b : List Byte) : refBase64Decode (refBase64Encode b) = some b := by
  induction b using refBase64Encode.induct with
  | case1 b0 b1 b2 rest ih =>
    have h0 := b0.isLt
    have h1 := b1.isLt
    have h2 := b2.isLt
    simp only [refBase64Encode, refBase64Decode]
    rw [base64Value_char _ (by omega), base64Value_char _ (by omega)]
    simp only
    rw [if_neg (base64Char_ne_pad _ (by omega)), base64Value_char _ (by omega),
      base64Value_char _ (by omega)]
    simp only [ih, Option.map_some']
    rw [byte_eq_of_val b0 _ (by omega), byte_eq_of_val b1 _ (by omega),
      byte_eq_of_val b2 _ (by omega)]
  | case2 b0 b1 =>
    have h0 := b0.isLt
    have h1 := b1.isLt
    simp only [refBase64Encode, refBase64Decode]
    rw [base64Value_char _ (by omega), base64Value_char _ (by omega)]
    simp only [if_true, ne_eq, not_true_eq_false, if_false]
    rw [if_neg (base64Char_ne_pad _ (by omega)), base64Value_char _ (by omega)]
    simp only
    rw [byte_eq_of_val b0 _ (by omega), byte_eq_of_val b1 _ (by omega)]
  | case3 b0 =>
    have h0 := b0.isLt
    simp only [refBase64Encode, refBase64Decode]
    rw [base64Value_char _ (by omega), base64Value_char _ (by omega)]
    simp only [if_true, ne_eq, not_true_eq_false, if_false]
    rw [byte_eq_of_val b0 _ (by omega)]
  | case4 => rfl

theorem refBase64_nonempty (b : List Byte) (h : b ≠ []) : refBase64Encode b ≠ [] := by
  match b, h with
  | [_], _ => simp [refBase64Encode]
  | [_, _], _ => simp [refBase64Encode]
  | _ :: _ :: _ :: _, _ => simp [refBase64Encode]

theorem hexDigit_fin (n : Fin 16) :
    hexValue (hexDigit n.val) = some n.val ∧ isUnreserved (hexDigit n.val) = true := by
  revert n; decide

/-- What the characters `refQueryEscape` writes are not: control characters, `#`, `&`, `=`. -/
theorem escaped_byte (c : Byte)
    (h : isUnreserved c = true ∨ c = byte 0x25 ∨ c = byte 0x2b) :
    ¬ (c.val < 0x20 ∨ c.val = 0x7f) ∧ c ≠ byte 0x23 ∧ c ≠ byte 0x26 ∧ c ≠ byte 0x3d := by
  revert c; decide

theorem unreserved_byte (c : Byte) (h : isUnreserved c = true) :
    c ≠ byte 0x25 ∧ c ≠ byte 0x2b := by
  revert c; decide

theorem refQueryEscape_bytes (x : List Byte) :
    ∀ c ∈ refQueryEscape x, isUnreserved c = true ∨ c = byte 0x25 ∨ c = byte 0x2b := by
  induction x with
  | nil => simp [refQueryEscape]
  | cons b rest ih =>
    intro c hc
    simp only [refQueryEscape] at hc
    split at hc
    · rcases List.mem_cons.1 hc with rfl | hc
      · exact Or.inr (Or.inr rfl)
      · exact ih c hc
    · split at hc
      · rename_i hu
        rcases List.mem_cons.1 hc with rfl | hc
        · exact Or.inl hu
        · exact ih c hc
      · simp only [List.mem_cons] at hc
        rcases hc with rfl | rfl | rfl | hc
        · exact Or.inr (Or.inl rfl)
        · exact Or.inl (hexDigit_fin ⟨b.val / 16, by have := b.isLt; omega⟩).2
        · exact Or.inl (hexDigit_fin ⟨b.val % 16, by omega⟩).2
        · exact ih c hc

/-- Reference query escaping: decoding undoes encoding. -/
theorem refUnescape_refQueryEscape (x : List Byte) :
    refUnescape true (refQueryEscape x) = some x := by
  induction x with
  | nil => rfl
  | cons b rest ih =>
    simp only [refQueryEscape]
    split
    · rename_i hb
      rw [refUnescape.eq_def]
      simp only
      rw [if_neg (by decide), if_pos (by simp), ih, hb]
      rfl
    · split
      · rename_i hu
        obtain ⟨n1, n2⟩ := unreserved_byte b hu
        rw [refUnescape.eq_def]
        simp only
        rw [if_neg n1, if_neg (fun h => n2 h.1), ih]
        rfl
      · have h1 := (hexDigit_fin ⟨b.val / 16, by have := b.isLt; omega⟩).1
        have h2 := (hexDigit_fin ⟨b.val % 16, by omega⟩).1
        simp only at h1 h2
        rw [refUnescape.eq_def]
        simp only [if_true, h1, h2, ih, Option.map_some']
        rw [byte_eq_of_val b _ (by omega)]

theorem cut_append (sep : Byte) (l m a r : List Byte) (h : cut sep l = some (a, r)) :
    cut sep (l ++ m) = some (a, r ++ m) := by
  induction l generalizing a r with
  | nil => simp [cut] at h
  | cons b l ih =>
    rw [List.cons_append]
    simp only [cut] at h ⊢
    split
    · rename_i hb
      rw [if_pos hb] at h
      obtain ⟨rfl, rfl⟩ := Prod.mk.inj (Option.some.inj h)
      rfl
    · rename_i hb
      rw [if_neg hb] at h
      cases hc : cut sep l with
      | none => rw [hc] at h; simp at h
      | some p =>
        rw [hc] at h
        obtain ⟨p1, p2⟩ := p
        simp only [Option.map_some', Option.some.injEq, Prod.mk.injEq] at h
        obtain ⟨rfl, rfl⟩ := h
        rw [ih p1 p2 hc]
        rfl

theorem cut_none (sep : Byte) (l : List Byte) (h : ∀ c ∈ l, c ≠ sep) : cut sep l = none := by
  induction l with
  | nil => rfl
  | cons b l ih =>
    simp only [cut]
    rw [if_neg (h b (List.mem_cons_self _ _)), ih fun c hc => h c (List.mem_cons_of_mem _ hc)]
    rfl

theorem splitOn_none (sep : Byte) (l : List Byte) (h : ∀ c ∈ l, c ≠ sep) :
    splitOn sep l = [l] := by
  induction l with
  | nil => rfl
  | cons b l ih =>
    simp only [splitOn]
    rw [if_neg (h b (List.mem_cons_self _ _)), ih fun c hc => h c (List.mem_cons_of_mem _ hc)]

/-- Reference URL functions: the `data` parameter of a migration URI comes back. -/
theorem refQuery_round_trip (x : List Byte) :
    ∃ u : URL,
      refUrlParse (goString "otpauth-migration://offline?data=" ++ refQueryEscape x) = some u ∧
      refQueryGet u.RawQuery (goString "data") = x := by
  have hesc := refQueryEscape_bytes x
  have hsafe : ∀ c ∈ refQueryEscape x,
      ¬ (c.val < 0x20 ∨ c.val = 0x7f) ∧ c ≠ byte 0x23 ∧ c ≠ byte 0x26 ∧ c ≠ byte 0x3d :=
    fun c hc => escaped_byte c (hesc c hc)
  refine ⟨{ Host := goString "offline", Path := [],
            RawQuery := goString "data=" ++ refQueryEscape x }, ?_, ?_⟩
  · have hany : (goString "otpauth-migration://offline?data=" ++ refQueryEscape x).any
        (fun b => b.val < 0x20 ∨ b.val = 0x7f) = false := by
      rw [List.any_append, Bool.or_eq_false_iff]
      refine ⟨by decide, ?_⟩
      rw [List.any_eq_false]
      intro c hc
      simpa using (hsafe c hc).1
    have hfrag : cut (byte 0x23)
        (goString "otpauth-migration://offline?data=" ++ refQueryEscape x) = none := by
      apply cut_none
      intro c hc
      rcases List.mem_append.1 hc with h | h
      · exact (by decide : ∀ c ∈ goString "otpauth-migration://offline?data=", c ≠ byte 0x23) c h
      · exact (hsafe c h).2.1
    have hscheme := cut_append (byte 0x3a) (goString "otpauth-migration://offline?data=")
      (refQueryEscape x) (goString "otpauth-migration") (goString "//offline?data=") (by decide)
    have hquery := cut_append (byte 0x3f) (goString "//offline?data=") (refQueryEscape x)
      (goString "//offline") (goString "data=") (by decide)
    unfold refUrlParse
    simp only [hany, hfrag, hscheme, hquery]
    rfl
  · have hsplit : splitOn (byte 0x26) (goString "data=" ++ refQueryEscape x) =
        [goString "data=" ++ refQueryEscape x] := by
      apply splitOn_none
      intro c hc
      rcases List.mem_append.1 hc with h | h
      · exact (by decide : ∀ c ∈ goString "data=", c ≠ byte 0x26) c h
      · exact (hsafe c h).2.2.1
    have hkv := cut_append (byte 0x3d) (goString "data=") (refQueryEscape x)
      (goString "data") [] (by decide)
    have hkey : refUnescape true (goString "data") = some (goString "data") := by decide
    unfold refQueryGet
    simp only [hsplit, firstValue, hkv, hkey, List.nil_append, refUnescape_refQueryEscape]
    simp

/-- The reference standard library has what the migration codec needs. -/
theorem refStd_migrationLaws : refStd.MigrationLaws where
  base64_round_trip := refBase64_round_trip
  base64_nonempty := refBase64_nonempty
  query_round_trip := fun b => refQuery_round_trip (refBase64Encode b)

/-! ## The claims -/

/-- C1. Migration round trip: for every list of `OtpParameters` whose integer fields are in
the range of their Go types (any algorithm, digit-count and type values, HOTP and TOTP
entries mixed) with counter 0 on every entry that is not HOTP, and every clock reading,
`ParseMigrationURISimple` applied to the URI returned by `GenerateMigrationURISimple`
succeeds and returns the same list, in the same order, with every entry equal to its input
(secret, name, issuer, algorithm, digits, type and counter); the same holds one level
down for `parsePayload` applied to `encodePayload`.  The standard library is any that
satisfies `MigrationLaws`, and the payload has a length that a Go slice can have. -/
theorem migration_round_trip (std : GoStd) (hstd : std.MigrationLaws)
    (accounts : List OtpParameters) (unixNano : Int)
    (hacc : ∀ a ∈ accounts, a.InRange ∧ (a.Type_ ≠ OtpTypeHOTP → a.Counter = 0))
    (hlen : (encodePayload accounts unixNano).length < 2 ^ 63) :
    (∃ uri : List Byte, GenerateMigrationURISimple std accounts unixNano = .ok uri ∧
      ParseMigrationURISimple std uri = .ok accounts) ∧
    parsePayload (encodePayload accounts unixNano) = .ok accounts := by
  have hpayload := parsePayload_encodePayload accounts unixNano hacc hlen
  refine ⟨⟨_, rfl, ?_⟩, hpayload⟩
  obtain ⟨u, hu, hq⟩ := hstd.query_round_trip (encodePayload accounts unixNano)
  have hne : encodePayload accounts unixNano ≠ [] := by
    intro h
    have h2 := encodeFields_length (batchFields [(2, 1), (3, toUint64 accounts.length), (4, 0),
      (5, uint64OfInt (unixNano.tmod 1000000))])
    rw [encodePayload_eq] at h
    have h3 := congrArg List.length h
    simp only [List.length_append, batchFields, List.map_cons, List.map_nil, List.length_cons,
      List.length_nil] at h2 h3
    omega
  rw [parseMigrationURISimple_of_payload std _ u (encodePayload accounts unixNano) (by rfl) hu
    (by rw [hq]; exact hstd.base64_nonempty _ hne) (by rw [hq]; exact hstd.base64_round_trip _)]
  exact hpayload

/-- C1, witness: a TOTP entry and an HOTP entry (negative algorithm value, negative
counter), a clock before 1970, and the reference standard library. -/
theorem migration_round_trip_witness :
    (∃ uri : List Byte,
      GenerateMigrationURISimple refStd
        [{ Secret := [0xde, 0xad, 0xbe, 0xef], Name := goString "alice",
           Issuer := goString "example", Algorithm := 2, Digits := 2, Type_ := 2, Counter := 0 },
         { Secret := [], Name := goString "bob", Issuer := [], Algorithm := -1, Digits := 7,
           Type_ := 1, Counter := -5 }] (-123456789) = .ok uri ∧
      ParseMigrationURISimple refStd uri = .ok
        [{ Secret := [0xde, 0xad, 0xbe, 0xef], Name := goString "alice",
           Issuer := goString "example", Algorithm := 2, Digits := 2, Type_ := 2, Counter := 0 },
         { Secret := [], Name := goString "bob", Issuer := [], Algorithm := -1, Digits := 7,
           Type_ := 1, Counter := -5 }]) ∧
    parsePayload (encodePayload
        [{ Secret := [0xde, 0xad, 0xbe, 0xef], Name := goString "alice",
           Issuer := goString "example", Algorithm := 2, Digits := 2, Type_ := 2, Counter := 0 },
         { Secret := [], Name := goString "bob", Issuer := [], Algorithm := -1, Digits := 7,
           Type_ := 1, Counter := -5 }] (-123456789)) = .ok
        [{ Secret := [0xde, 0xad, 0xbe, 0xef], Name := goString "alice",
           Issuer := goString "example", Algorithm := 2, Digits := 2, Type_ := 2, Counter := 0 },
         { Secret := [], Name := goString "bob", Issuer := [], Algorithm := -1, Digits := 7,
           Type_ := 1, Counter := -5 }] :=
  migration_round_trip refStd refStd_migrationLaws _ (-123456789) (by decide) (by decide)

/-- C2. HOTP dynamic truncation: when the secret decodes and the HMAC digest `h` has at
least 20 bytes, then for `digits` between 1 and 9 `generateCode` returns a code of exactly
`digits` ASCII decimal digits whose decimal value is `V mod 10^digits` (so the code is the
decimal rendering of that number, left-padded with zeros), where `o` is the last byte of
`h` AND `0x0f`, the four bytes `h[o] .. h[o+3]` lie inside the digest, and
`V = ((h[o] AND 0x7f) << 24) | (h[o+1] << 16) | (h[o+2] << 8) | h[o+3] < 2^31`. -/
theorem hotp_dynamic_truncation (std : GoStd) (secret algorithm key h : List Byte)
    (counter digits : Int) (last : Byte)
    (hkey : std.base32Decode (std.toUpper (secret.filter fun b => b ≠ byte 0x20)) = some key)
    (hmac : std.hmacSum (hashFor (std.toUpper algorithm)) key (putUint64 (uint64OfInt counter))
      = h)
    (hlen : 20 ≤ h.length) (hlast : h.getLast? = some last)
    (hd1 : 1 ≤ digits) (hd9 : digits ≤ 9) :
    (last.val &&& 0x0f) + 4 ≤ h.length ∧
    ((h.getD (last.val &&& 0x0f) 0).val &&& 0x7f) <<< 24 |||
      (h.getD ((last.val &&& 0x0f) + 1) 0).val <<< 16 |||
      (h.getD ((last.val &&& 0x0f) + 2) 0).val <<< 8 |||
      (h.getD ((last.val &&& 0x0f) + 3) 0).val < 2 ^ 31 ∧
    ∃ code : List Byte, generateCode std secret counter algorithm digits = .ok code ∧
      code.length = digits.toNat ∧ (∀ b ∈ code, IsAsciiDigit b) ∧
      decimalValue code =
        (((h.getD (last.val &&& 0x0f) 0).val &&& 0x7f) <<< 24 |||
          (h.getD ((last.val &&& 0x0f) + 1) 0).val <<< 16 |||
          (h.getD ((last.val &&& 0x0f) + 2) 0).val <<< 8 |||
          (h.getD ((last.val &&& 0x0f) + 3) 0).val) % 10 ^ digits.toNat := by
  have hoff := offset_in_digest h last hlen
  have hV := truncation_value (h.getD (last.val &&& 0x0f) 0) (h.getD ((last.val &&& 0x0f) + 1) 0)
    (h.getD ((last.val &&& 0x0f) + 2) 0) (h.getD ((last.val &&& 0x0f) + 3) 0)
  have hU := uint32BE_and (h.getD (last.val &&& 0x0f) 0) (h.getD ((last.val &&& 0x0f) + 1) 0)
    (h.getD ((last.val &&& 0x0f) + 2) 0) (h.getD ((last.val &&& 0x0f) + 3) 0)
  have hw : 0 < digits.toNat := by omega
  have hpos : 0 < 10 ^ digits.toNat := Nat.pow_pos (by decide)
  refine ⟨hoff, ?_, ?_⟩
  · rw [hV]
    have h1 := (h.getD ((last.val &&& 0x0f) + 1) 0).isLt
    have h2 := (h.getD ((last.val &&& 0x0f) + 2) 0).isLt
    have h3 := (h.getD ((last.val &&& 0x0f) + 3) 0).isLt
    omega
  · obtain ⟨s1, s2, s3⟩ := sprintfZeroPad_spec digits.toNat
      ((uint32BE (h.getD (last.val &&& 0x0f) 0) (h.getD ((last.val &&& 0x0f) + 1) 0)
        (h.getD ((last.val &&& 0x0f) + 2) 0) (h.getD ((last.val &&& 0x0f) + 3) 0) &&&
        0x7fffffff) % 10 ^ digits.toNat) hw (Nat.mod_lt _ hpos)
    refine ⟨_, ?_, s1, s2, ?_⟩
    · unfold generateCode
      simp only [hkey, hmac, truncateCode, hlast]
      rw [if_neg (by omega), if_neg (by omega), if_pos hd9]
    · rw [s3, hU, hV]

/-- C2, witness: the example of RFC 4226, section 5.4: the digest
`1f8698690e02ca16618550ef7f19da8e945b555a` gives the offset 10, the value `0x50ef7f19` and
the 6-digit code `872921`. -/
theorem hotp_dynamic_truncation_witness :
    ((0x5a : Byte).val &&& 0x0f = 10) ∧
    ((rfc4226Digest.getD 10 0).val &&& 0x7f) <<< 24 ||| (rfc4226Digest.getD 11 0).val <<< 16 |||
      (rfc4226Digest.getD 12 0).val <<< 8 ||| (rfc4226Digest.getD 13 0).val = 0x50ef7f19 ∧
    generateCode rfc4226Std (goString "GEZDGNBVGY3TQOJQGEZDGNBVGY3TQOJQ") 1 (goString "SHA1") 6 =
      .ok (goString "872921") ∧
    ∃ code : List Byte,
      generateCode rfc4226Std (goString "GEZDGNBVGY3TQOJQGEZDGNBVGY3TQOJQ") 1 (goString "SHA1") 6 =
        .ok code ∧
      code.length = 6 ∧ (∀ b ∈ code, IsAsciiDigit b) ∧ decimalValue code = 0x50ef7f19 % 10 ^ 6 :=
  ⟨by decide, by decide, by decide,
    (hotp_dynamic_truncation rfc4226Std (goString "GEZDGNBVGY3TQOJQGEZDGNBVGY3TQOJQ")
      (goString "SHA1") (goString "12345678901234567890") rfc4226Digest 1 6 0x5a (by decide) rfl
      (by decide) (by decide) (by decide) (by decide)).2.2⟩

/-- C3. Whenever `GenerateHOTP` returns a code for `digits` equal to 6 or 8, the code has
exactly `digits` characters, each an ASCII decimal digit; and the result is determined by
the four arguments (the function reads no clock: any code it returns for these arguments
is this code). -/
theorem hotp_code_shape (std : GoStd) (secret algorithm : List Byte) (digits counter : Int)
    (code : List Byte) (hd : digits = 6 ∨ digits = 8)
    (hret : GenerateHOTP std secret algorithm digits counter = .ok code) :
    code.length = digits.toNat ∧ (∀ b ∈ code, IsAsciiDigit b) ∧
    ∀ code2 : List Byte, GenerateHOTP std secret algorithm digits counter = .ok code2 →
      code2 = code := by
  refine ⟨?_, ?_, fun code2 h2 => by rw [hret] at h2; exact (Result.ok.inj h2).symm⟩
  all_goals
    unfold GenerateHOTP generateCode at hret
    simp only at hret
    split at hret
    · exact absurd hret (by simp)
    · unfold truncateCode at hret
      split at hret
      · exact absurd hret (by simp)
      · simp only at hret
        split at hret
        · exact absurd hret (by simp)
        · rw [if_neg (by omega), if_pos (by omega)] at hret
          have hw : 0 < digits.toNat := by omega
          obtain ⟨s1, s2, _⟩ := sprintfZeroPad_spec digits.toNat _ hw
            (Nat.mod_lt _ (Nat.pow_pos (by decide)))
          rw [← Result.ok.inj hret]
          first | exact s1 | exact s2

/-- C3, witness: the first test value of RFC 4226, appendix D (secret
`12345678901234567890`, counter 0, HMAC-SHA-1): the code `755224`. -/
theorem hotp_code_shape_witness :
    GenerateHOTP refStd (goString "GEZDGNBVGY3TQOJQGEZDGNBVGY3TQOJQ") (goString "SHA1") 6 0 =
      .ok (goString "755224") ∧
    (goString "755224").length = 6 ∧ (∀ b ∈ goString "755224", IsAsciiDigit b) :=
  have h : GenerateHOTP refStd (goString "GEZDGNBVGY3TQOJQGEZDGNBVGY3TQOJQ") (goString "SHA1")
      6 0 = .ok (goString "755224") := by decide
  ⟨h, (hotp_code_shape refStd _ _ 6 0 _ (Or.inl rfl) h).1,
    (hotp_code_shape refStd _ _ 6 0 _ (Or.inl rfl) h).2.1⟩

/-- Where both calls of the clock read the same second `t`, in the window `[k*p, (k+1)*p)` of
the period `p > 0` (a period of `0` stands for `p = 30`), `GenerateTOTP` returns what
`GenerateHOTP` returns for the counter `k = floor(t / p)` and the same secret, algorithm and
digits: its error, or its code together with `remaining = p - (t mod p)`, which lies
between 1 and `p`; a period of `0` gives exactly the result of a period of `30`. -/
theorem totp_is_hotp_of_window (std : GoStd) (secret algorithm : List Byte)
    (digits period p t k : Int) (hp : p = if period = 0 then 30 else period) (hpos : 0 < p)
    (hk : 0 ≤ k) (hlo : k * p ≤ t) (hhi : t < (k + 1) * p) :
    t / p = k ∧
    GenerateTOTP std secret algorithm digits period t t =
      (match GenerateHOTP std secret algorithm digits k with
        | .ok code => .ok (code, p - t % p)
        | .error e => .error e
        | .panic => .panic
        | .outOfFuel => .outOfFuel) ∧
    1 ≤ p - t % p ∧ p - t % p ≤ p ∧
    GenerateTOTP std secret algorithm digits 0 t t =
      GenerateTOTP std secret algorithm digits 30 t t := by
  have ht : 0 ≤ t := le_trans (mul_nonneg hk (le_of_lt hpos)) hlo
  have hdiv : t / p = k ∧ t % p = t - p * k :=
    (Int.ediv_emod_unique hpos).2 ⟨by ring, by linarith, by linarith⟩
  have hm1 := Int.emod_nonneg t (ne_of_gt hpos)
  have hm2 := Int.emod_lt_of_pos t hpos
  refine ⟨hdiv.1, ?_, by omega, by omega, by simp [GenerateTOTP]⟩
  unfold GenerateTOTP GenerateHOTP
  simp only [← hp, Int.tdiv_eq_ediv ht (le_of_lt hpos), Int.tmod_eq_emod ht (le_of_lt hpos),
    hdiv.1]

/-- An instance with both reads equal: the first test value of RFC 6238, appendix B (time 59,
period 30, eight digits, HMAC-SHA-1): counter 1, the code `94287082`, one second remaining. -/
theorem totp_is_hotp_of_window_witness :
    (59 : Int) / 30 = 1 ∧
    GenerateTOTP refStd (goString "GEZDGNBVGY3TQOJQGEZDGNBVGY3TQOJQ") (goString "SHA1") 8 30
      59 59 = .ok (goString "94287082", 1) :=
  have h := totp_is_hotp_of_window refStd (goString "GEZDGNBVGY3TQOJQGEZDGNBVGY3TQOJQ")
    (goString "SHA1") 8 30 30 59 1 (by decide) (by decide) (by decide) (by decide) (by decide)
  have hc : GenerateHOTP refStd (goString "GEZDGNBVGY3TQOJQGEZDGNBVGY3TQOJQ") (goString "SHA1")
      8 1 = .ok (goString "94287082") := by decide
  ⟨h.1, by rw [h.2.1, hc]; rfl⟩

/-- The two calls of the clock apart.  With the first read `t1 ≥ 0` and the second read
`t2 ≥ 0`, and the period `p > 0` (a period of `0` stands for `p = 30`), `GenerateTOTP` returns
what `GenerateHOTP` returns for the counter `floor(t1 / p)`: its error, or its code together
with `p - (t2 mod p)`, which lies between 1 and `p`. -/
theorem totp_two_reads (std : GoStd) (secret algorithm : List Byte)
    (digits period p t1 t2 : Int) (hp : p = if period = 0 then 30 else period) (hpos : 0 < p)
    (h1 : 0 ≤ t1) (h2 : 0 ≤ t2) :
    GenerateTOTP std secret algorithm digits period t1 t2 =
      (match GenerateHOTP std secret algorithm digits (t1 / p) with
        | .ok code => .ok (code, p - t2 % p)
        | .error e => .error e
        | .panic => .panic
        | .outOfFuel => .outOfFuel) ∧
    1 ≤ p - t2 % p ∧ p - t2 % p ≤ p := by
  have hm1 := Int.emod_nonneg t2 (ne_of_gt hpos)
  have hm2 := Int.emod_lt_of_pos t2 hpos
  refine ⟨?_, by omega, by omega⟩
  unfold GenerateTOTP GenerateHOTP
  simp only [← hp, Int.tdiv_eq_ediv h1 (le_of_lt hpos), Int.tmod_eq_emod h2 (le_of_lt hpos)]

/-- Claim C4, at a failing input.  The secret and the parameters are those of RFC 6238,
appendix B, with the period 30.  When the first call of the clock reads the second 59 and the
second call reads the second 60, `GenerateTOTP` returns the code of the counter 1, the window
`[30, 60)`, together with 30 remaining seconds.  Read at the one time 59 the result is that
code with 1 second remaining, and read at the one time 60 it is the code of the counter 2
with 30 seconds remaining: the pair returned is the result at neither time. -/
theorem totp_clock_read_twice :
    GenerateTOTP refStd (goString "GEZDGNBVGY3TQOJQGEZDGNBVGY3TQOJQ") (goString "SHA1") 8 30
      59 60 = .ok (goString "94287082", 30) ∧
    GenerateTOTP refStd (goString "GEZDGNBVGY3TQOJQGEZDGNBVGY3TQOJQ") (goString "SHA1") 8 30
      59 59 = .ok (goString "94287082", 1) ∧
    GenerateTOTP refStd (goString "GEZDGNBVGY3TQOJQGEZDGNBVGY3TQOJQ") (goString "SHA1") 8 30
      60 60 = .ok (goString "37359152", 30) ∧
    (59 : Int) / 30 = 1 ∧ (60 : Int) / 30 = 2 := by
  refine ⟨by decide, by decide, by decide, by decide, by decide⟩

/-- C5. Varint round trip: for every 64-bit value `v`, `appendVarint` appends to the buffer
between 1 and 10 groups, every group but the last has the continuation bit `0x80` set and
the last has it clear, and `decoder.varint`, started at the first of these groups and
whatever bytes `rest` follow them, returns `v` without error and advances the position by
exactly the number of groups. -/
theorem varint_round_trip (v : Nat) (hv : v < 2 ^ 64) (buf rest : List Byte) :
    appendVarint buf v = buf ++ appendVarint [] v ∧
    1 ≤ (appendVarint [] v).length ∧ (appendVarint [] v).length ≤ 10 ∧
    (∀ b ∈ (appendVarint [] v).dropLast, b.val &&& 0x80 = 0x80) ∧
    (∀ b ∈ (appendVarint [] v).getLast?, b.val &&& 0x80 = 0) ∧
    decoder.varint ⟨appendVarint buf v ++ rest, buf.length⟩ =
      (.ok v, ⟨appendVarint buf v ++ rest, buf.length + (appendVarint [] v).length⟩) := by
  obtain ⟨pre, last, he, hp, hl⟩ := appendVarint_groups v
  refine ⟨appendVarint_append buf v, appendVarint_length_pos v,
    appendVarint_length_le 9 v (lt_of_lt_of_le hv (by decide)), ?_, ?_, ?_⟩
  · intro b hb
    rw [he, List.dropLast_concat] at hb
    exact (byte_bit_0x80 b).1.2 (hp b hb)
  · intro b hb
    rw [he, List.getLast?_concat] at hb
    obtain rfl : last = b := by simpa using hb
    exact (byte_bit_0x80 last).2.2 hl
  · rw [appendVarint_append buf v]
    exact decoder_varint_appendVarint buf rest v hv

/-- C5, witness: the largest 64-bit value; its tenth group is 1. -/
theorem varint_round_trip_witness :
    (2 ^ 64 - 1 < 2 ^ 64) ∧
    appendVarint [] (2 ^ 64 - 1) =
      [0xff, 0xff, 0xff, 0xff, 0xff, 0xff, 0xff, 0xff, 0xff, 0x01] ∧
    decoder.varint ⟨appendVarint [0x0a] (2 ^ 64 - 1) ++ [0x07], 1⟩ =
      (.ok (2 ^ 64 - 1), ⟨appendVarint [0x0a] (2 ^ 64 - 1) ++ [0x07], 11⟩) :=
  ⟨by decide, by decide,
    by simpa using (varint_round_trip (2 ^ 64 - 1) (by decide) [0x0a] [0x07]).2.2.2.2.2⟩

/-- C6. Varint overflow.  Split the unread input into its leading continuation groups
`pre` (bytes with `0x80` set) and the `tail` that follows them.  When `tail` is empty the
input ends before a terminating group and `decoder.varint` fails with unexpected-EOF.
Otherwise the first byte `b` of `tail` is the terminating group, the `pre.length + 1`-th
group: `decoder.varint` fails with the varint-overflow error if and only if that group is
the eleventh or later, or is the tenth and has a value greater than 1, and in every other
case it succeeds; in both cases it has read exactly the groups up to `b`. -/
theorem varint_overflow_iff (d : decoder) (pre tail : List Byte)
    (hsplit : d.data.drop d.pos = pre ++ tail) (hpre : ∀ c ∈ pre, 0x80 ≤ c.val)
    (htail : ∀ b ∈ tail.head?, b.val < 0x80) :
    match tail with
    | [] => d.varint = (.error .unexpectedEOF, { d with pos := d.pos + pre.length })
    | b :: _ =>
      ((d.varint).1 = .error .varintOverflow ↔
        (11 ≤ pre.length + 1 ∨ (pre.length + 1 = 10 ∧ 1 < b.val))) ∧
      (¬ (11 ≤ pre.length + 1 ∨ (pre.length + 1 = 10 ∧ 1 < b.val)) →
        ∃ v, (d.varint).1 = .ok v) ∧
      (d.varint).2 = { d with pos := d.pos + pre.length + 1 } := by
  obtain ⟨x2, hx⟩ := varintLoop_continuation pre tail d.pos 0 0 0 hpre
  cases tail with
  | nil =>
    simp only [decoder.varint, hsplit, hx, varintLoop]
  | cons b rest =>
    have hb : b.val < 0x80 := htail b (by simp)
    simp only [decoder.varint, hsplit, hx, varintLoop, if_pos hb, Nat.zero_add]
    by_cases hov : pre.length > 9 ∨ (pre.length = 9 ∧ b.val > 1)
    · rw [if_pos hov]
      refine ⟨⟨fun _ => by omega, fun _ => rfl⟩, fun h => absurd (by omega) h, rfl⟩
    · rw [if_neg hov]
      refine ⟨⟨fun h => by simp at h, fun h => absurd (by omega) hov⟩, fun _ => ⟨_, rfl⟩, rfl⟩

/-- C6, witness: nine continuation groups and a tenth group of value 2 overflow. -/
theorem varint_overflow_iff_witness :
    (decoder.varint ⟨[0x80, 0x80, 0x80, 0x80, 0x80, 0x80, 0x80, 0x80, 0x80, 0x02], 0⟩).1 =
      .error .varintOverflow :=
  ((varint_overflow_iff ⟨[0x80, 0x80, 0x80, 0x80, 0x80, 0x80, 0x80, 0x80, 0x80, 0x02], 0⟩
    [0x80, 0x80, 0x80, 0x80, 0x80, 0x80, 0x80, 0x80, 0x80] [0x02] (by decide) (by decide)
    (by decide)).1).2 (by decide)

/-- C7, counterexample: a truncated varint in a top-level tag, in the value of top-level
field 2 and in a tag inside an `OtpParameters` record, and an overflowing varint (eleven
groups) in a top-level tag: `parsePayload` returns a result, not an error. -/
theorem malformed_varint_not_an_error :
    parsePayload [0x80] = .ok [] ∧
    parsePayload [0x10, 0x80] = .ok [] ∧
    parsePayload [0x0a, 0x01, 0x80] = .ok [defaultOtpParameters] ∧
    parsePayload [0x80, 0x80, 0x80, 0x80, 0x80, 0x80, 0x80, 0x80, 0x80, 0x80, 0x00] = .ok [] := by
  decide

/-- C7 (as amended).  A varint that cannot be read (truncated by the end of the input, or
overflowing) makes the decode fail exactly where it is the value or the length prefix of a
field inside an `OtpParameters` message: `parseOtpParameters` returns the error, and
`parsePayload`, and `ParseMigrationURISimple` on a URI carrying the payload, return it for
the record that holds the field.  Where the tag of a field is expected, inside
`OtpParameters` or in the top-level message, it ends the loop and what has been read so far
is returned without error; as the value of a top-level varint field 2 to 5 it is skipped and
reading goes on. -/
theorem malformed_varint_outcomes (accounts : List OtpParameters) (fs : List WireField)
    (bad rest tail : List Byte) (e : GoError) (f w g : Nat)
    (hacc : ∀ a ∈ accounts, a.InRange ∧ (a.Type_ ≠ OtpTypeHOTP → a.Counter = 0))
    (hfs : ∀ f ∈ fs, f.WellFormed ∧ f.OtpSchema) (hbad : MalformedVarint bad rest e)
    (hf : f < 2 ^ 61) (hw : w < 8) (hread : (1 ≤ f ∧ f ≤ 7) ∨ w = wireVarint ∨ w = wireLen)
    (hg : g = 2 ∨ g = 3 ∨ g = 4 ∨ g = 5)
    (hlen : (encodeAccounts [] accounts).length + (encodeFields fs).length + bad.length +
      rest.length + tail.length + 32 < 2 ^ 63) :
    parseOtpParameters (encodeFields fs ++ appendTag [] f w ++ bad ++ rest) = .error e ∧
    parsePayload (encodeAccounts [] accounts ++
      (WireField.bytes 1 (encodeFields fs ++ appendTag [] f w ++ bad ++ rest)).encode ++ tail) =
      .error e ∧
    (∀ (std : GoStd) (uri : List Byte) (u : URL),
      (goString "otpauth-migration://").isPrefixOf uri = true → std.urlParse uri = some u →
      std.queryGet u.RawQuery (goString "data") ≠ [] →
      std.base64Decode (std.queryGet u.RawQuery (goString "data")) =
        some (encodeAccounts [] accounts ++
          (WireField.bytes 1 (encodeFields fs ++ appendTag [] f w ++ bad ++ rest)).encode ++
          tail) →
      ParseMigrationURISimple std uri = .error e) ∧
    parseOtpParameters (encodeFields fs ++ bad ++ rest) =
      .ok (fs.foldl WireField.store defaultOtpParameters) ∧
    parsePayload (encodeAccounts [] accounts ++ bad ++ rest) = .ok accounts ∧
    (∀ gs : List (Nat × Nat), IsBatch gs → rest = encodeFields (batchFields gs) →
      parsePayload (encodeAccounts [] accounts ++ appendTag [] g wireVarint ++ bad ++ rest) =
        .ok accounts) := by
  obtain ⟨hrecs, hR, hA⟩ := accounts_records accounts hacc (by omega)
  have htag := appendTag_length_le f w hf hw
  have hgtag := appendTag_length_le g wireVarint (by omega) (by decide)
  have hvalue := parseOtpParameters_malformed_value fs bad rest e f w hbad hfs hf hw hread
    (by simp only [List.length_append]; omega)
  have hrecbytes := encode_bytes_length_le 1
    (encodeFields fs ++ appendTag [] f w ++ bad ++ rest) (by decide)
  have hrecord := parsePayload_record_error _ _ tail e hrecs hvalue
    (by rw [hR]; simp only [List.length_append] at hrecbytes ⊢; omega)
  rw [hR] at hrecord
  refine ⟨hvalue, hrecord, ?_, ?_, ?_, ?_⟩
  · intro std uri u h1 h2 h3 h4
    rw [parseMigrationURISimple_of_payload std uri u _ h1 h2 h3 h4, hrecord]
  · exact parseOtpParameters_malformed_tag fs bad rest e hbad hfs
      (by simp only [List.length_append]; omega)
  · have := parsePayload_malformed_tag _ bad rest e hbad hrecs
      (by rw [hR]; simp only [List.length_append]; omega)
    rw [hR, hA] at this
    exact this
  · intro gs hgs hrest
    subst hrest
    have := parsePayload_malformed_batch _ bad e g gs hbad hrecs hg hgs
      (by rw [hR]; simp only [List.length_append] at hlen ⊢; omega)
    rw [hR, hA] at this
    exact this

/-- C7, witness: one account, a record with a name, and the truncated varint `0x80`. -/
theorem malformed_varint_outcomes_witness :
    parseOtpParameters (encodeFields [WireField.bytes 2 (goString "alice")] ++
      appendTag [] 4 0 ++ [0x80] ++ []) = .error .unexpectedEOF ∧
    parsePayload (encodeAccounts [] [defaultOtpParameters] ++ [0x80] ++ []) =
      .ok [defaultOtpParameters] :=
  have h := malformed_varint_outcomes [defaultOtpParameters]
    [WireField.bytes 2 (goString "alice")] [0x80] [] [] .unexpectedEOF 4 0 3 (by decide)
    (by decide) ⟨[0x80], by decide, Or.inl ⟨rfl, rfl, rfl⟩⟩ (by decide) (by decide)
    (by decide) (by decide) (by decide)
  ⟨h.1, h.2.2.2.2.1⟩

/-- C8, the failing input: a length prefix of `2^64 - 1` becomes `-1` as an `int`, passes the
test `d.pos+int(n) > len(d.data)`, and the slice expression `d.data[10:9]` panics; the
payload that holds such a length after the tag of a field-1 record makes `parsePayload`
panic. -/
theorem decoder_bytes_negative_length_panics :
    decoder.varint ⟨[0xff, 0xff, 0xff, 0xff, 0xff, 0xff, 0xff, 0xff, 0xff, 0x01], 0⟩ =
      (.ok (2 ^ 64 - 1), ⟨[0xff, 0xff, 0xff, 0xff, 0xff, 0xff, 0xff, 0xff, 0xff, 0x01], 10⟩) ∧
    toInt64 (2 ^ 64 - 1) = -1 ∧
    (decoder.bytes ⟨[0xff, 0xff, 0xff, 0xff, 0xff, 0xff, 0xff, 0xff, 0xff, 0x01], 0⟩).1 =
      .panic ∧
    parsePayload [0x0a, 0xff, 0xff, 0xff, 0xff, 0xff, 0xff, 0xff, 0xff, 0xff, 0x01] = .panic := by
  decide

/-- C9. Unknown fields inside an `OtpParameters` message are skipped: for every message
made of fields that follow the schema, and every well-formed field `u` of wire type varint
or length-delimited whose number is not 1 to 7, `parseOtpParameters` succeeds on the
message with `u` inserted at any field boundary, and returns the record it returns
without `u`. -/
theorem unknown_field_skipped (fs1 fs2 : List WireField) (u : WireField)
    (hfs : ∀ f ∈ fs1 ++ fs2, f.WellFormed ∧ f.OtpSchema) (hu : u.WellFormed)
    (hnum : ¬ (1 ≤ u.field ∧ u.field ≤ 7))
    (hlen : (encodeFields (fs1 ++ u :: fs2)).length < 2 ^ 63) :
    ∃ p : OtpParameters, parseOtpParameters (encodeFields (fs1 ++ fs2)) = .ok p ∧
      parseOtpParameters (encodeFields (fs1 ++ u :: fs2)) = .ok p := by
  have hlen2 : (encodeFields (fs1 ++ fs2)).length < 2 ^ 63 := by
    simp only [encodeFields_append, encodeFields, List.length_append] at hlen ⊢
    omega
  have hfs2 : ∀ f ∈ fs1 ++ u :: fs2, f.WellFormed ∧ f.OtpSchema := by
    intro f hf
    rcases List.mem_append.1 hf with h | h
    · exact hfs f (List.mem_append_left _ h)
    · rcases List.mem_cons.1 h with rfl | h
      · exact ⟨hu, otpSchema_unknown _ hnum⟩
      · exact hfs f (List.mem_append_right _ h)
  refine ⟨(fs1 ++ fs2).foldl WireField.store defaultOtpParameters,
    parseOtpParameters_fields _ hfs hlen2, ?_⟩
  rw [parseOtpParameters_fields _ hfs2 hlen]
  simp only [List.foldl_append, List.foldl_cons, store_unknown u _ hnum]

/-- C9, witness: field 9 as a varint between the secret and the name of a message. -/
theorem unknown_field_skipped_witness :
    ∃ p : OtpParameters,
      parseOtpParameters (encodeFields ([WireField.bytes 1 [0xde, 0xad]] ++
        [WireField.bytes 2 (goString "alice"), WireField.varint 6 1])) = .ok p ∧
      parseOtpParameters (encodeFields ([WireField.bytes 1 [0xde, 0xad]] ++
        WireField.varint 9 300 ::
          [WireField.bytes 2 (goString "alice"), WireField.varint 6 1])) = .ok p :=
  unknown_field_skipped [WireField.bytes 1 [0xde, 0xad]]
    [WireField.bytes 2 (goString "alice"), WireField.varint 6 1] (WireField.varint 9 300)
    (by decide) (by decide) (by decide) (by decide)

/-- C10. Decode defaults: for every `OtpParameters` wire message (fields that follow the
schema) with no field 4, no field 5 and no field 6, `parseOtpParameters` returns a record
with algorithm SHA1, digit count six and type TOTP, and with counter 0 when field 7 is
absent as well.  In particular a payload holding one record with only a secret, the name
"alice" and the issuer "example" (followed by any varint fields 2 to 5) decodes to exactly
one `OtpParameters` with these three values and the defaults. -/
theorem decode_defaults (fs : List WireField) (secret : List Byte) (batch : List (Nat × Nat))
    (hfs : ∀ f ∈ fs, f.WellFormed ∧ f.OtpSchema)
    (h456 : ∀ f ∈ fs, f.field ≠ 4 ∧ f.field ≠ 5 ∧ f.field ≠ 6)
    (hlen : (encodeFields fs).length < 2 ^ 63) (hbatch : IsBatch batch)
    (hlen2 : (encodeFields (recordFields [encodeFields [WireField.bytes 1 secret,
      WireField.bytes 2 (goString "alice"), WireField.bytes 3 (goString "example")]]) ++
      encodeFields (batchFields batch)).length < 2 ^ 63) :
    (∃ p : OtpParameters, parseOtpParameters (encodeFields fs) = .ok p ∧
      p.Algorithm = AlgorithmSHA1 ∧ p.Digits = DigitCountSix ∧ p.Type_ = OtpTypeTOTP ∧
      ((∀ f ∈ fs, f.field ≠ 7) → p.Counter = 0)) ∧
    parsePayload (encodeFields (recordFields [encodeFields [WireField.bytes 1 secret,
      WireField.bytes 2 (goString "alice"), WireField.bytes 3 (goString "example")]]) ++
      encodeFields (batchFields batch)) =
      .ok [{ Secret := secret, Name := goString "alice", Issuer := goString "example",
             Algorithm := AlgorithmSHA1, Digits := DigitCountSix, Type_ := OtpTypeTOTP,
             Counter := 0 }] := by
  constructor
  · obtain ⟨i1, i2, i3, i4⟩ := foldl_store_other fs defaultOtpParameters
    exact ⟨_, parseOtpParameters_fields fs hfs hlen, i1 fun f hf => (h456 f hf).1,
      i2 fun f hf => (h456 f hf).2.1, i3 fun f hf => (h456 f hf).2.2, i4⟩
  · have hrec : parseOtpParameters (encodeFields [WireField.bytes 1 secret,
        WireField.bytes 2 (goString "alice"), WireField.bytes 3 (goString "example")]) =
        .ok { Secret := secret, Name := goString "alice", Issuer := goString "example",
              Algorithm := AlgorithmSHA1, Digits := DigitCountSix, Type_ := OtpTypeTOTP,
              Counter := 0 } := by
      rw [parseOtpParameters_fields _ (by
        intro f hf
        simp only [List.mem_cons, List.mem_singleton, List.not_mem_nil, or_false] at hf
        rcases hf with rfl | rfl | rfl <;> simp [WireField.WellFormed, WireField.OtpSchema]) (by
        have : (encodeFields [WireField.bytes 1 secret, WireField.bytes 2 (goString "alice"),
            WireField.bytes 3 (goString "example")]).length ≤
            (encodeFields (recordFields [encodeFields [WireField.bytes 1 secret,
              WireField.bytes 2 (goString "alice"), WireField.bytes 3 (goString "example")]]) ++
              encodeFields (batchFields batch)).length := by
          simp only [recordFields, List.map_cons, List.map_nil, encodeFields, List.append_nil,
            encode_bytes_eq (f := 1), appendBytes, List.length_append]
          omega
        omega)]
      simp [WireField.store, defaultOtpParameters]
    exact parsePayload_records_batch [(_, _)] batch (by simpa using hrec) hbatch hlen2

/-- C10, witness: the record of the scenario, with a two-byte secret. -/
theorem decode_defaults_witness :
    parsePayload (encodeFields (recordFields [encodeFields [WireField.bytes 1 [0xde, 0xad],
      WireField.bytes 2 (goString "alice"), WireField.bytes 3 (goString "example")]]) ++
      encodeFields (batchFields [])) =
      .ok [{ Secret := [0xde, 0xad], Name := goString "alice", Issuer := goString "example",
             Algorithm := AlgorithmSHA1, Digits := DigitCountSix, Type_ := OtpTypeTOTP,
             Counter := 0 }] :=
  (decode_defaults [WireField.bytes 1 [0xde, 0xad], WireField.varint 7 5] [0xde, 0xad] []
    (by decide) (by decide) (by decide) (by decide) (by decide)).2

/-! ## The encoder, the algorithm fallback and the progress value -/

theorem mulInt64_exact (a b : Int) (h0 : 0 ≤ a * b) (h1 : a * b < 2 ^ 63) :
    mulInt64 a b = a * b := by
  unfold mulInt64 toInt64
  have hm : (a * b) % 2 ^ 64 = a * b := Int.emod_eq_of_lt h0 (by omega)
  rw [hm]
  have hn : (a * b).toNat % 2 ^ 64 = (a * b).toNat := Nat.mod_eq_of_lt (by omega)
  rw [hn]
  have hc : ((a * b).toNat : Int) = a * b := Int.toNat_of_nonneg h0
  split
  · exact hc
  · omega

theorem getProgress_exact (p t : Int) (hp : 0 < p) (hbound : 100 * (p - 1) < 2 ^ 63)
    (ht : 0 ≤ t) : GetProgress p t = ((t % p) * 100) / p := by
  unfold GetProgress
  have hp0 : p ≠ 0 := by omega
  simp only [hp0, if_false]
  have hm : t.tmod p = t % p := Int.tmod_eq_emod ht hp.le
  have h0 : 0 ≤ t % p := Int.emod_nonneg t hp0
  have h1 : t % p < p := Int.emod_lt_of_pos t hp
  rw [hm, mulInt64_exact _ _ (by positivity) (by nlinarith)]
  exact Int.tdiv_eq_ediv (by positivity) hp.le

theorem appendVarint_cancel (v w : Nat) (hv : v < 2 ^ 64) (hw : w < 2 ^ 64) (r1 r2 : List Byte)
    (h : appendVarint [] v ++ r1 = appendVarint [] w ++ r2) : v = w ∧ r1 = r2 := by
  have a := decoder_varint_appendVarint [] r1 v hv
  have b := decoder_varint_appendVarint [] r2 w hw
  simp only [List.nil_append, List.length_nil, Nat.zero_add] at a b
  rw [h, b] at a
  have e : w = v := Result.ok.inj (Prod.mk.inj a).1
  subst e
  exact ⟨rfl, List.append_cancel_left h⟩

theorem appendBytes_cancel (b c r1 r2 : List Byte)
    (h : appendBytes [] b ++ r1 = appendBytes [] c ++ r2)
    (hlen : (appendBytes [] b ++ r1).length < 2 ^ 63) : b = c ∧ r1 = r2 := by
  have x := decoder_bytes_appendBytes [] r1 b (by simpa using hlen)
  have y := decoder_bytes_appendBytes [] r2 c (by rw [h] at hlen; simpa using hlen)
  simp only [List.nil_append, List.length_nil, Nat.zero_add] at x y
  rw [h, y] at x
  have e : c = b := Result.ok.inj (Prod.mk.inj x).1
  subst e
  exact ⟨rfl, List.append_cancel_left h⟩

/-- The encoding of a well-formed field is self-delimiting: two well-formed fields whose
encodings, each followed by further bytes, give the same bytes are the same field, followed by
the same bytes. -/
theorem encode_cancel (f g : WireField) (hf : f.WellFormed) (hg : g.WellFormed)
    (r1 r2 : List Byte) (h : f.encode ++ r1 = g.encode ++ r2)
    (hlen : (f.encode ++ r1).length < 2 ^ 63) : f = g ∧ r1 = r2 := by
  cases f with
  | varint f v =>
    cases g with
    | varint g w =>
      rw [encode_varint_eq, encode_varint_eq, appendTag_eq [] f _ hf.1 (by decide),
        appendTag_eq [] g _ hg.1 (by decide)] at h
      simp only [List.nil_append, List.append_assoc] at h
      have hf1 := hf.1
      have hg1 := hg.1
      obtain ⟨e1, h2⟩ := appendVarint_cancel _ _ (by unfold wireVarint; omega)
        (by unfold wireVarint; omega) _ _ h
      obtain ⟨e2, h3⟩ := appendVarint_cancel _ _ hf.2 hg.2 _ _ h2
      unfold wireVarint at e1
      have e3 : f = g := by omega
      subst e3; subst e2
      exact ⟨rfl, h3⟩
    | bytes g c =>
      exfalso
      have hg1 : g < 2 ^ 61 := hg
      rw [encode_varint_eq, encode_bytes_eq, appendTag_eq [] f _ hf.1 (by decide),
        appendTag_eq [] g _ hg1 (by decide)] at h
      simp only [List.nil_append, List.append_assoc] at h
      have hf1 := hf.1
      obtain ⟨e1, _⟩ := appendVarint_cancel _ _ (by unfold wireVarint; omega)
        (by unfold wireLen; omega) _ _ h
      unfold wireVarint wireLen at e1
      omega
  | bytes f b =>
    have hf1 : f < 2 ^ 61 := hf
    cases g with
    | varint g w =>
      exfalso
      have hg1 := hg.1
      rw [encode_varint_eq, encode_bytes_eq, appendTag_eq [] f _ hf1 (by decide),
        appendTag_eq [] g _ hg1 (by decide)] at h
      simp only [List.nil_append, List.append_assoc] at h
      obtain ⟨e1, _⟩ := appendVarint_cancel _ _ (by unfold wireLen; omega)
        (by unfold wireVarint; omega) _ _ h
      unfold wireVarint wireLen at e1
      omega
    | bytes g c =>
      have hg1 : g < 2 ^ 61 := hg
      rw [encode_bytes_eq, appendTag_eq [] f _ hf1 (by decide)] at hlen
      rw [encode_bytes_eq, encode_bytes_eq, appendTag_eq [] f _ hf1 (by decide),
        appendTag_eq [] g _ hg1 (by decide)] at h
      simp only [List.nil_append, List.append_assoc] at h hlen
      obtain ⟨e1, h2⟩ := appendVarint_cancel _ _ (by unfold wireLen; omega)
        (by unfold wireLen; omega) _ _ h
      obtain ⟨e2, h3⟩ := appendBytes_cancel _ _ _ _ h2
        (by rw [List.length_append] at hlen; omega)
      unfold wireLen at e1
      have e3 : f = g := by omega
      subst e3; subst e2
      exact ⟨rfl, h3⟩

/-- A message of fewer than `2^63` bytes is the encoding of one sequence of well-formed
fields only. -/
theorem encodeFields_inj : ∀ fs gs : List WireField, (∀ f ∈ fs, f.WellFormed) →
    (∀ g ∈ gs, g.WellFormed) → (encodeFields fs).length < 2 ^ 63 →
    encodeFields fs = encodeFields gs → fs = gs := by
  intro fs
  induction fs with
  | nil =>
    intro gs _ _ _ h
    cases gs with
    | nil => rfl
    | cons g gs =>
      exfalso
      have hl := congrArg List.length h
      simp only [encodeFields, List.length_append, List.length_nil] at hl
      have := encode_length_pos g
      omega
  | cons f fs ih =>
    intro gs hfs hgs hlen h
    cases gs with
    | nil =>
      exfalso
      have hl := congrArg List.length h
      simp only [encodeFields, List.length_append, List.length_nil] at hl
      have := encode_length_pos f
      omega
    | cons g gs =>
      simp only [encodeFields] at h hlen
      obtain ⟨e, hr⟩ := encode_cancel f g (hfs f (List.mem_cons_self _ _))
        (hgs g (List.mem_cons_self _ _)) _ _ h hlen
      subst e
      rw [ih gs (fun x hx => hfs x (List.mem_cons_of_mem _ hx))
        (fun x hx => hgs x (List.mem_cons_of_mem _ hx))
        (by rw [List.length_append] at hlen; omega) hr]

theorem otpFields_field7 (p : OtpParameters) :
    (∃ f ∈ otpFields p, f.field = 7) ↔ p.Type_ = OtpTypeHOTP := by
  unfold otpFields
  constructor
  · rintro ⟨f, hf, h7⟩
    simp only [List.mem_append, List.mem_cons, List.mem_singleton] at hf
    rcases hf with (((hf | hf) | hf) | hf) | hf
    · split at hf
      · simp at hf; subst hf; simp [WireField.field] at h7
      · simp at hf
    · split at hf
      · simp at hf; subst hf; simp [WireField.field] at h7
      · simp at hf
    · split at hf
      · simp at hf; subst hf; simp [WireField.field] at h7
      · simp at hf
    · rcases hf with rfl | rfl | rfl | hf
      · simp [WireField.field] at h7
      · simp [WireField.field] at h7
      · simp [WireField.field] at h7
      · simp at hf
    · split at hf
      · assumption
      · simp at hf
  · intro h
    exact ⟨WireField.varint 7 (uint64OfInt p.Counter), by simp [h], rfl⟩

theorem payloadFields_wellFormed (accounts : List OtpParameters) (n : Nat) (hn : n < 2 ^ 64)
    (m : Nat) (hm : m < 2 ^ 64) :
    ∀ f ∈ accounts.map (fun a => WireField.bytes 1 (encodeOtpParameters a)) ++
        [WireField.varint 2 1, WireField.varint 3 n, WireField.varint 4 0, WireField.varint 5 m],
      f.WellFormed := by
  intro f hf
  simp only [List.mem_append, List.mem_map, List.mem_cons, List.mem_singleton,
    List.mem_nil_iff, or_false] at hf
  rcases hf with ⟨a, _, rfl⟩ | rfl | rfl | rfl | rfl
  · show (1 : Nat) < 2 ^ 61
    decide
  · exact ⟨by decide, by decide⟩
  · exact ⟨by decide, hn⟩
  · exact ⟨by decide, by decide⟩
  · exact ⟨by decide, hm⟩

/-- Claim C11.  The output of `encodePayload` is the encoding of one length-delimited
field 1 per account, holding `encodeOtpParameters` of the account, in input order, followed
by the varint fields 2 = 1, 3 = the number of accounts as a `uint64`, 4 = 0 and 5 = the
batch id, and nothing else.  The output of `encodeOtpParameters` is the encoding of the
fields 1, 2 and 3 that are not empty, of the varint fields 4, 5 and 6, and then of the varint
field 7 with the counter exactly when the type is HOTP.  All these fields are well formed, so
that no tag wraps around, and an output of fewer than `2^63` bytes is the encoding of no
other sequence of well-formed fields: read as fields, a record holds a field 7 if and only
if its type is HOTP. -/
theorem encode_layout (accounts : List OtpParameters) (unixNano : Int) :
    (let top := accounts.map (fun a => WireField.bytes 1 (encodeOtpParameters a)) ++
        [WireField.varint 2 1, WireField.varint 3 (toUint64 accounts.length),
         WireField.varint 4 0, WireField.varint 5 (uint64OfInt (unixNano.tmod 1000000))]
     encodePayload accounts unixNano = encodeFields top ∧
     (∀ f ∈ top, f.WellFormed) ∧
     ∀ fs : List WireField, (∀ f ∈ fs, f.WellFormed) →
       (encodePayload accounts unixNano).length < 2 ^ 63 →
       encodeFields fs = encodePayload accounts unixNano → fs = top) ∧
    ∀ p : OtpParameters,
      let record := (if p.Secret.length > 0 then [WireField.bytes 1 p.Secret] else []) ++
        (if p.Name ≠ [] then [WireField.bytes 2 p.Name] else []) ++
        (if p.Issuer ≠ [] then [WireField.bytes 3 p.Issuer] else []) ++
        [WireField.varint 4 (uint64OfInt p.Algorithm), WireField.varint 5 (uint64OfInt p.Digits),
          WireField.varint 6 (uint64OfInt p.Type_)] ++
        (if p.Type_ = OtpTypeHOTP then [WireField.varint 7 (uint64OfInt p.Counter)] else [])
      encodeOtpParameters p = encodeFields record ∧
      (∀ f ∈ record, f.WellFormed) ∧
      ((∃ f ∈ record, f.field = 7) ↔ p.Type_ = OtpTypeHOTP) ∧
      ∀ fs : List WireField, (∀ f ∈ fs, f.WellFormed) →
        (encodeOtpParameters p).length < 2 ^ 63 →
        encodeFields fs = encodeOtpParameters p →
        fs = record ∧ ((∃ f ∈ fs, f.field = 7) ↔ p.Type_ = OtpTypeHOTP) := by
  have htop : encodePayload accounts unixNano =
      encodeFields (accounts.map (fun a => WireField.bytes 1 (encodeOtpParameters a)) ++
        [WireField.varint 2 1, WireField.varint 3 (toUint64 accounts.length),
         WireField.varint 4 0, WireField.varint 5 (uint64OfInt (unixNano.tmod 1000000))]) := by
    rw [encodePayload_eq, encodeAccounts_eq, encodeFields_append]
    simp [recordFields, batchFields, List.map_map, Function.comp_def]
  have hwf := payloadFields_wellFormed accounts (toUint64 accounts.length)
    (Nat.mod_lt _ (by decide)) (uint64OfInt (unixNano.tmod 1000000)) (uint64OfInt_lt _)
  refine ⟨⟨htop, hwf, ?_⟩, ?_⟩
  · intro fs hfs hlen h
    rw [htop] at h hlen
    exact (encodeFields_inj _ _ hwf hfs hlen h.symm).symm
  · intro p
    have hrec : encodeOtpParameters p = encodeFields (otpFields p) := encodeOtpParameters_eq p
    refine ⟨hrec, fun f hf => (otpFields_ok p f hf).1, otpFields_field7 p, ?_⟩
    intro fs hfs hlen h
    rw [hrec] at h hlen
    have e : fs = otpFields p :=
      (encodeFields_inj _ _ (fun f hf => (otpFields_ok p f hf).1) hfs hlen h.symm).symm
    subst e
    exact ⟨rfl, otpFields_field7 p⟩

/-- Witness of C11: a HOTP record and the same record with the type TOTP.  The first is
written with the field 7 at its end, the second without it, and the bytes of the second are
the encoding of no sequence of well-formed fields that holds a field 7. -/
theorem encode_layout_witness :
    encodeOtpParameters
        { Secret := [0xde, 0xad], Name := goString "alice", Issuer := [],
          Algorithm := AlgorithmSHA1, Digits := DigitCountSix, Type_ := OtpTypeHOTP,
          Counter := 5 } =
      encodeFields [WireField.bytes 1 [0xde, 0xad], WireField.bytes 2 (goString "alice"),
        WireField.varint 4 1, WireField.varint 5 1, WireField.varint 6 1,
        WireField.varint 7 5] ∧
    encodeOtpParameters
        { Secret := [0xde, 0xad], Name := goString "alice", Issuer := [],
          Algorithm := AlgorithmSHA1, Digits := DigitCountSix, Type_ := OtpTypeTOTP,
          Counter := 5 } =
      encodeFields [WireField.bytes 1 [0xde, 0xad], WireField.bytes 2 (goString "alice"),
        WireField.varint 4 1, WireField.varint 5 1, WireField.varint 6 2] ∧
    (∀ fs : List WireField, (∀ f ∈ fs, f.WellFormed) →
      encodeFields fs = encodeOtpParameters
        { Secret := [0xde, 0xad], Name := goString "alice", Issuer := [],
          Algorithm := AlgorithmSHA1, Digits := DigitCountSix, Type_ := OtpTypeTOTP,
          Counter := 5 } →
      ¬ ∃ f ∈ fs, f.field = 7) :=
  ⟨((encode_layout [] 0).2
      { Secret := [0xde, 0xad], Name := goString "alice", Issuer := [],
        Algorithm := AlgorithmSHA1, Digits := DigitCountSix, Type_ := OtpTypeHOTP,
        Counter := 5 }).1,
   ((encode_layout [] 0).2
      { Secret := [0xde, 0xad], Name := goString "alice", Issuer := [],
        Algorithm := AlgorithmSHA1, Digits := DigitCountSix, Type_ := OtpTypeTOTP,
        Counter := 5 }).1,
   fun fs hfs he h7 => absurd
     ((((encode_layout [] 0).2
        { Secret := [0xde, 0xad], Name := goString "alice", Issuer := [],
          Algorithm := AlgorithmSHA1, Digits := DigitCountSix, Type_ := OtpTypeTOTP,
          Counter := 5 }).2.2.2 fs hfs (by decide) he).2.1 h7) (by decide)⟩

/-- Claim C16.  For a library whose upper-casing leaves `"SHA1"` alone, and an algorithm
name whose upper-casing is none of `SHA1`, `SHA256`, `SHA512` and `MD5` (the empty name
included), `GenerateHOTP` returns what it returns for the name `"SHA1"`, error or code. -/
theorem unknown_algorithm_is_sha1 (std : GoStd) (secret algorithm : List Byte)
    (digits counter : Int)
    (hsha1 : std.toUpper (goString "SHA1") = goString "SHA1")
    (hother : std.toUpper algorithm ≠ goString "SHA1" ∧
      std.toUpper algorithm ≠ goString "SHA256" ∧
      std.toUpper algorithm ≠ goString "SHA512" ∧ std.toUpper algorithm ≠ goString "MD5") :
    GenerateHOTP std secret algorithm digits counter =
      GenerateHOTP std secret (goString "SHA1") digits counter := by
  obtain ⟨h1, h2, h3, h4⟩ := hother
  have ha : hashFor (std.toUpper algorithm) = .sha1 := by
    unfold hashFor
    simp [h1, h2, h3, h4]
  have hb : hashFor (std.toUpper (goString "SHA1")) = .sha1 := by
    rw [hsha1]; decide
  unfold GenerateHOTP generateCode
  simp only [ha, hb]

/-- Witness of C16: the name `whirlpool` under the reference library. -/
theorem unknown_algorithm_is_sha1_witness :
    GenerateHOTP refStd (goString "JBSWY3DPEHPK3PXP") (goString "whirlpool") 6 1 =
      GenerateHOTP refStd (goString "JBSWY3DPEHPK3PXP") (goString "SHA1") 6 1 :=
  unknown_algorithm_is_sha1 refStd (goString "JBSWY3DPEHPK3PXP") (goString "whirlpool") 6 1
    (by decide) (by decide)

/-- Claim C17, at a failing input.  For the period `2^62` at the time `2^61` the product
`elapsed * 100` of two values of type `int` wraps around, and `GetProgress` returns `-2`,
where the formula gives 50 and the comment of the function announces a percentage from 0 to
100. -/
theorem progress_overflow : GetProgress (2 ^ 62) (2 ^ 61) = -2 ∧
    ((2 ^ 61 % 2 ^ 62 : Int) * 100) / 2 ^ 62 = 50 := by
  constructor <;> decide

/-- Where the product cannot wrap around, the progress value is the one of the formula.  For
a period `p > 0` with `100 * (p - 1) < 2^63` and a time `t ≥ 0`, `GetProgress` is
`((t mod p) * 100) / p`, lies in `[0, 100)`, does not decrease from `t` to a later time of the
same window, and is 0 at the start `k * p` of a window. -/
theorem progress_formula (p t : Int) (hp : 0 < p) (hbound : 100 * (p - 1) < 2 ^ 63)
    (ht : 0 ≤ t) :
    GetProgress p t = ((t % p) * 100) / p ∧ 0 ≤ GetProgress p t ∧ GetProgress p t < 100 ∧
    (∀ u : Int, t ≤ u → u / p = t / p → GetProgress p t ≤ GetProgress p u) ∧
    (∀ k : Int, t = k * p → GetProgress p t = 0) := by
  have hp0 : p ≠ 0 := by omega
  have h0 : 0 ≤ t % p := Int.emod_nonneg t hp0
  have h1 : t % p < p := Int.emod_lt_of_pos t hp
  refine ⟨getProgress_exact p t hp hbound ht, ?_, ?_, ?_, ?_⟩
  · rw [getProgress_exact p t hp hbound ht]
    exact Int.ediv_nonneg (by positivity) hp.le
  · rw [getProgress_exact p t hp hbound ht]
    exact Int.ediv_lt_of_lt_mul hp (by nlinarith)
  · intro u htu hw
    rw [getProgress_exact p t hp hbound ht, getProgress_exact p u hp hbound (by omega)]
    apply Int.ediv_le_ediv hp
    have e1 := Int.emod_add_ediv t p
    have e2 := Int.emod_add_ediv u p
    rw [hw] at e2
    nlinarith
  · intro k hk
    rw [getProgress_exact p t hp hbound ht, hk]
    simp

/-- An instance of `progress_formula`: the period 30 at the time 59. -/
theorem progress_formula_witness :
    GetProgress 30 59 = ((59 % 30) * 100) / 30 ∧ 0 ≤ GetProgress 30 59 ∧
    GetProgress 30 59 < 100 ∧
    (∀ u : Int, 59 ≤ u → u / 30 = 59 / 30 → GetProgress 30 59 ≤ GetProgress 30 u) ∧
    (∀ k : Int, 59 = k * 30 → GetProgress 30 59 = 0) :=
  progress_formula 30 59 (by decide) (by decide) (by decide)

/-! ## The standard URI -/

theorem cut_at (sep : Byte) (a b : List Byte) (h : sep ∉ a) :
    cut sep (a ++ sep :: b) = some (a, b) := by
  induction a with
  | nil => simp [cut]
  | cons x a ih =>
    have hx : x ≠ sep := fun e => h (e ▸ List.mem_cons_self _ _)
    have ha : sep ∉ a := fun m => h (List.mem_cons_of_mem _ m)
    rw [List.cons_append]
    simp only [cut]
    rw [if_neg hx, ih ha]
    rfl

theorem splitLabel_colon (issuer name : List Byte) (h : byte 0x3a ∉ issuer) :
    splitLabel (issuer ++ byte 0x3a :: name) = (issuer, name) := by
  unfold splitLabel
  rw [cut_at _ _ _ h]

theorem splitLabel_plain (label : List Byte) (h : byte 0x3a ∉ label) :
    splitLabel label = ([], label) := by
  unfold splitLabel
  rw [cut_none _ _ fun c hc e => h (by subst e; exact hc)]

/-- The result of `ParseOTPAuthURI` once the checks of the head have passed. -/
theorem parseOTPAuthURI_of_head (std : GoStd) (uri : List Byte) (u : URL)
    (label secret : List Byte) (hd : OtpAuthHead std uri u label secret) :
    ParseOTPAuthURI std uri =
      match (if std.queryGet u.RawQuery (goString "algorithm") ≠ [] then
          algorithmOf (std.toUpper (std.queryGet u.RawQuery (goString "algorithm")))
        else some AlgorithmSHA1) with
      | none => .error .unsupportedAlgorithm
      | some algorithm =>
        match (if std.queryGet u.RawQuery (goString "digits") ≠ [] then
            digitsOf (std.queryGet u.RawQuery (goString "digits"))
          else some DigitCountSix) with
        | none => .error .unsupportedDigits
        | some digitCount =>
          if u.Host = goString "hotp" then
            if std.queryGet u.RawQuery (goString "counter") = [] then .error .missingCounter
            else
              match std.parseInt (std.queryGet u.RawQuery (goString "counter")) with
              | none => .error .invalidCounter
              | some counter =>
                .ok { Secret := secret, Name := (splitLabel label).2,
                      Issuer := if std.queryGet u.RawQuery (goString "issuer") ≠ [] then
                          std.queryGet u.RawQuery (goString "issuer")
                        else (splitLabel label).1,
                      Algorithm := algorithm, Digits := digitCount, Type_ := OtpTypeHOTP,
                      Counter := counter }
          else
            .ok { Secret := secret, Name := (splitLabel label).2,
                  Issuer := if std.queryGet u.RawQuery (goString "issuer") ≠ [] then
                      std.queryGet u.RawQuery (goString "issuer")
                    else (splitLabel label).1,
                  Algorithm := algorithm, Digits := digitCount, Type_ := OtpTypeTOTP,
                  Counter := 0 } := by
  have hhost : ¬ (u.Host ≠ goString "hotp" ∧ u.Host ≠ goString "totp") := by
    rcases hd.host with h | h <;> simp [h]
  unfold ParseOTPAuthURI
  rw [if_neg (by simp [hd.scheme])]
  simp only [hd.parsed, hhost, if_false, hd.label_nonempty, hd.label_decoded,
    hd.secret_nonempty, hd.secret_decoded]
  generalize (if std.queryGet u.RawQuery (goString "algorithm") ≠ [] then
      algorithmOf (std.toUpper (std.queryGet u.RawQuery (goString "algorithm")))
    else some AlgorithmSHA1) = A
  generalize (if std.queryGet u.RawQuery (goString "digits") ≠ [] then
      digitsOf (std.queryGet u.RawQuery (goString "digits"))
    else some DigitCountSix) = D
  cases A with
  | none => rfl
  | some a =>
    cases D with
    | none => rfl
    | some d =>
      by_cases hh : u.Host = goString "hotp"
      · simp only [hh, if_true]
      · have ht : (OtpTypeTOTP = OtpTypeHOTP) = False := by simp [OtpTypeTOTP, OtpTypeHOTP]
        simp only [hh, if_false, ht]

/-- An accepted URI has passed the checks of the head. -/
theorem head_of_ok (std : GoStd) (uri : List Byte) (p : OtpParameters)
    (h : ParseOTPAuthURI std uri = .ok p) :
    ∃ (u : URL) (label secret : List Byte), OtpAuthHead std uri u label secret := by
  unfold ParseOTPAuthURI at h
  by_cases h1 : (goString "otpauth://").isPrefixOf uri = true
  swap
  · rw [if_pos (by simpa using h1)] at h; cases h
  rw [if_neg (by simp [h1])] at h
  cases h2 : std.urlParse uri with
  | none => rw [h2] at h; cases h
  | some u =>
    rw [h2] at h
    simp only at h
    by_cases h3 : u.Host ≠ goString "hotp" ∧ u.Host ≠ goString "totp"
    · rw [if_pos h3] at h; cases h
    rw [if_neg h3] at h
    by_cases h4 : trimSlash u.Path = []
    · rw [if_pos h4] at h; cases h
    rw [if_neg h4] at h
    cases h5 : std.queryUnescape (trimSlash u.Path) with
    | none => rw [h5] at h; cases h
    | some label =>
      rw [h5] at h
      simp only at h
      by_cases h6 : std.queryGet u.RawQuery (goString "secret") = []
      · rw [if_pos h6] at h; cases h
      rw [if_neg h6] at h
      cases h7 : std.base32DecodeNoPadding
          (std.toUpper (std.queryGet u.RawQuery (goString "secret"))) with
      | none => rw [h7] at h; cases h
      | some secret =>
        refine ⟨u, label, secret, ⟨h1, h2, ?_, h4, h5, h6, h7⟩⟩
        by_contra hc
        exact h3 ⟨fun e => hc (Or.inl e), fun e => hc (Or.inr e)⟩

/-- Claim C13.  For an accepted URI, with `label` the label as `ParseOTPAuthURI` has decoded
it: if the label is `issuer ++ ":" ++ name` with no `':'` in `issuer`, the name returned is
`name` (later colons stay in it) and, without an `issuer` parameter, the issuer returned is
`issuer`; if the label holds no `':'`, the name is the label and, without an `issuer`
parameter, the issuer is empty; and a non-empty `issuer` parameter is the issuer returned. -/
theorem label_split_rule (std : GoStd) (uri : List Byte) (p : OtpParameters)
    (h : ParseOTPAuthURI std uri = .ok p) :
    ∃ (u : URL) (label : List Byte), std.urlParse uri = some u ∧
      std.queryUnescape (trimSlash u.Path) = some label ∧
      (∀ issuer name : List Byte, label = issuer ++ byte 0x3a :: name → byte 0x3a ∉ issuer →
        p.Name = name ∧
        (std.queryGet u.RawQuery (goString "issuer") = [] → p.Issuer = issuer)) ∧
      (byte 0x3a ∉ label →
        p.Name = label ∧ (std.queryGet u.RawQuery (goString "issuer") = [] → p.Issuer = [])) ∧
      (std.queryGet u.RawQuery (goString "issuer") ≠ [] →
        p.Issuer = std.queryGet u.RawQuery (goString "issuer")) := by
  obtain ⟨u, label, secret, hd⟩ := head_of_ok std uri p h
  have hform : p.Name = (splitLabel label).2 ∧
      p.Issuer = if std.queryGet u.RawQuery (goString "issuer") ≠ [] then
        std.queryGet u.RawQuery (goString "issuer") else (splitLabel label).1 := by
    rw [parseOTPAuthURI_of_head std uri u label secret hd] at h
    revert h
    generalize (if std.queryGet u.RawQuery (goString "algorithm") ≠ [] then
        algorithmOf (std.toUpper (std.queryGet u.RawQuery (goString "algorithm")))
      else some AlgorithmSHA1) = A
    generalize (if std.queryGet u.RawQuery (goString "digits") ≠ [] then
        digitsOf (std.queryGet u.RawQuery (goString "digits"))
      else some DigitCountSix) = D
    intro h
    cases A with
    | none => cases h
    | some a =>
      cases D with
      | none => cases h
      | some d =>
        simp only at h
        by_cases hh : u.Host = goString "hotp"
        · rw [if_pos hh] at h
          by_cases hc : std.queryGet u.RawQuery (goString "counter") = []
          · rw [if_pos hc] at h; cases h
          · rw [if_neg hc] at h
            cases hp : std.parseInt (std.queryGet u.RawQuery (goString "counter")) with
            | none => rw [hp] at h; cases h
            | some c =>
              rw [hp] at h
              simp only [Result.ok.injEq] at h
              subst h
              exact ⟨rfl, rfl⟩
        · rw [if_neg hh] at h
          simp only [Result.ok.injEq] at h
          subst h
          exact ⟨rfl, rfl⟩
  obtain ⟨hname, hissuer⟩ := hform
  refine ⟨u, label, hd.parsed, hd.label_decoded, ?_, ?_, ?_⟩
  · intro issuer name hl hi
    rw [hname, hissuer, hl, splitLabel_colon issuer name hi]
    exact ⟨rfl, fun he => by simp [he]⟩
  · intro hl
    rw [hname, hissuer, splitLabel_plain label hl]
    exact ⟨rfl, fun he => by simp [he]⟩
  · intro hne
    rw [hissuer, if_pos hne]

/-- Witness of C13: the label `Example:alice:x` under the reference library. -/
theorem label_split_rule_witness :
    ∃ (u : URL) (label : List Byte),
      refStd.urlParse (goString "otpauth://totp/Example:alice:x?secret=JBSWY3DPEHPK3PXP") =
        some u ∧
      refStd.queryUnescape (trimSlash u.Path) = some label ∧
      (∀ issuer name : List Byte, label = issuer ++ byte 0x3a :: name → byte 0x3a ∉ issuer →
        goString "alice:x" = name ∧
        (refStd.queryGet u.RawQuery (goString "issuer") = [] → goString "Example" = issuer)) ∧
      (byte 0x3a ∉ label →
        goString "alice:x" = label ∧
        (refStd.queryGet u.RawQuery (goString "issuer") = [] → goString "Example" = [])) ∧
      (refStd.queryGet u.RawQuery (goString "issuer") ≠ [] →
        goString "Example" = refStd.queryGet u.RawQuery (goString "issuer")) :=
  label_split_rule refStd (goString "otpauth://totp/Example:alice:x?secret=JBSWY3DPEHPK3PXP")
    { Secret := [0x48, 0x65, 0x6c, 0x6c, 0x6f, 0x21, 0xde, 0xad, 0xbe, 0xef],
      Name := goString "alice:x", Issuer := goString "Example", Algorithm := AlgorithmSHA1,
      Digits := DigitCountSix, Type_ := OtpTypeTOTP, Counter := 0 } (by decide)

/-- Claim C12, at a failing input.  Under the reference library the label `Example:a%2Bb`
comes back with the name `a b`: `url.Parse` has already decoded the path to `Example:a+b`,
and `url.QueryUnescape` then turns the `+` into a space.  The label `Example:100%25` is
rejected: the path is decoded to `Example:100%`, which is no valid escape for the second
decoding. -/
theorem label_decoded_twice :
    ParseOTPAuthURI refStd (goString "otpauth://totp/Example:a%2Bb?secret=JBSWY3DPEHPK3PXP") =
      .ok { Secret := [0x48, 0x65, 0x6c, 0x6c, 0x6f, 0x21, 0xde, 0xad, 0xbe, 0xef],
            Name := goString "a b", Issuer := goString "Example",
            Algorithm := AlgorithmSHA1, Digits := DigitCountSix, Type_ := OtpTypeTOTP,
            Counter := 0 } ∧
    ParseOTPAuthURI refStd (goString "otpauth://totp/Example:100%25?secret=JBSWY3DPEHPK3PXP") =
      .error .decodeLabel := by
  constructor <;> decide

theorem algorithm_choice (std : GoStd) (algo : List Byte)
    (hvalid : algo = [] ∨ std.toUpper algo = goString "SHA1" ∨
      std.toUpper algo = goString "SHA256" ∨ std.toUpper algo = goString "SHA512" ∨
      std.toUpper algo = goString "MD5") :
    (if algo ≠ [] then algorithmOf (std.toUpper algo) else some AlgorithmSHA1) =
      some (if algo = [] ∨ std.toUpper algo = goString "SHA1" then AlgorithmSHA1
           else if std.toUpper algo = goString "SHA256" then AlgorithmSHA256
           else if std.toUpper algo = goString "SHA512" then AlgorithmSHA512
           else AlgorithmMD5) := by
  by_cases h0 : algo = []
  · rw [if_neg (not_not.mpr h0), if_pos (Or.inl h0)]
  · rw [if_pos h0]
    unfold algorithmOf
    by_cases h1 : std.toUpper algo = goString "SHA1"
    · rw [if_pos h1, if_pos (Or.inr h1)]
    · rw [if_neg h1, if_neg (not_or.mpr ⟨h0, h1⟩)]
      by_cases h2 : std.toUpper algo = goString "SHA256"
      · rw [if_pos h2, if_pos h2]
      · rw [if_neg h2, if_neg h2]
        by_cases h3 : std.toUpper algo = goString "SHA512"
        · rw [if_pos h3, if_pos h3]
        · rw [if_neg h3, if_neg h3]
          have h4 : std.toUpper algo = goString "MD5" := by
            rcases hvalid with h | h | h | h | h
            · exact absurd h h0
            · exact absurd h h1
            · exact absurd h h2
            · exact absurd h h3
            · exact h
          rw [if_pos h4]

theorem digits_choice (digits : List Byte)
    (hvalid : digits = [] ∨ digits = goString "6" ∨ digits = goString "8") :
    (if digits ≠ [] then digitsOf digits else some DigitCountSix) =
      some (if digits = goString "8" then DigitCountEight else DigitCountSix) := by
  rcases hvalid with h | h | h
  · subst h; decide
  · subst h; decide
  · subst h; decide

/-- Claim C14.  For a URI that passes the checks of the head and, for HOTP, has a counter
that parses: a non-empty algorithm whose upper-casing is none of the four names makes the
parse fail; with an absent or recognised algorithm, a non-empty digits value other than
`"6"` and `"8"` makes the parse fail, and an absent or recognised digits value makes it
succeed with the algorithm named (SHA1 when absent) and the digit count named (six when
absent). -/
theorem algorithm_digits_rule (std : GoStd) (uri : List Byte) (u : URL)
    (label secret algo digits : List Byte) (hd : OtpAuthHead std uri u label secret)
    (halgo : std.queryGet u.RawQuery (goString "algorithm") = algo)
    (hdigits : std.queryGet u.RawQuery (goString "digits") = digits)
    (hcounter : u.Host = goString "hotp" →
      std.queryGet u.RawQuery (goString "counter") ≠ [] ∧
      std.parseInt (std.queryGet u.RawQuery (goString "counter")) ≠ none) :
    (algo ≠ [] → std.toUpper algo ≠ goString "SHA1" → std.toUpper algo ≠ goString "SHA256" →
      std.toUpper algo ≠ goString "SHA512" → std.toUpper algo ≠ goString "MD5" →
      ParseOTPAuthURI std uri = .error .unsupportedAlgorithm) ∧
    ((algo = [] ∨ std.toUpper algo = goString "SHA1" ∨ std.toUpper algo = goString "SHA256" ∨
        std.toUpper algo = goString "SHA512" ∨ std.toUpper algo = goString "MD5") →
      (digits ≠ [] → digits ≠ goString "6" → digits ≠ goString "8" →
        ParseOTPAuthURI std uri = .error .unsupportedDigits) ∧
      ((digits = [] ∨ digits = goString "6" ∨ digits = goString "8") →
        ∃ p : OtpParameters, ParseOTPAuthURI std uri = .ok p ∧
          p.Algorithm =
            (if algo = [] ∨ std.toUpper algo = goString "SHA1" then AlgorithmSHA1
             else if std.toUpper algo = goString "SHA256" then AlgorithmSHA256
             else if std.toUpper algo = goString "SHA512" then AlgorithmSHA512
             else AlgorithmMD5) ∧
          p.Digits = (if digits = goString "8" then DigitCountEight else DigitCountSix))) := by
  have hmain := parseOTPAuthURI_of_head std uri u label secret hd
  rw [halgo, hdigits] at hmain
  refine ⟨?_, ?_⟩
  · intro h0 h1 h2 h3 h4
    rw [hmain, if_pos h0]
    simp [algorithmOf, h1, h2, h3, h4]
  · intro hvalid
    have hA := algorithm_choice std algo hvalid
    rw [hA] at hmain
    refine ⟨?_, ?_⟩
    · intro d0 d6 d8
      rw [hmain]
      simp [digitsOf, d0, d6, d8]
    · intro hdv
      have hD := digits_choice digits hdv
      rw [hD] at hmain
      simp only at hmain
      by_cases hh : u.Host = goString "hotp"
      · obtain ⟨hc1, hc2⟩ := hcounter hh
        rw [if_pos hh, if_neg hc1] at hmain
        cases hp : std.parseInt (std.queryGet u.RawQuery (goString "counter")) with
        | none => exact absurd hp hc2
        | some c =>
          rw [hp] at hmain
          exact ⟨_, hmain, rfl, rfl⟩
      · rw [if_neg hh] at hmain
        exact ⟨_, hmain, rfl, rfl⟩

/-- Witness of C14: `algorithm=sha256&digits=8` under the reference library. -/
theorem algorithm_digits_rule_witness :
    ∃ p : OtpParameters,
      ParseOTPAuthURI refStd (goString
        "otpauth://totp/Example:alice?secret=JBSWY3DPEHPK3PXP&algorithm=sha256&digits=8") =
        .ok p ∧ p.Algorithm = AlgorithmSHA256 ∧ p.Digits = DigitCountEight := by
  have h := ((algorithm_digits_rule refStd
    (goString "otpauth://totp/Example:alice?secret=JBSWY3DPEHPK3PXP&algorithm=sha256&digits=8")
    { Host := goString "totp", Path := goString "/Example:alice",
      RawQuery := goString "secret=JBSWY3DPEHPK3PXP&algorithm=sha256&digits=8" }
    (goString "Example:alice") [0x48, 0x65, 0x6c, 0x6c, 0x6f, 0x21, 0xde, 0xad, 0xbe, 0xef]
    (goString "sha256") (goString "8")
    ⟨by decide, by decide, by decide, by decide, by decide, by decide, by decide⟩
    (by decide) (by decide) (by decide)).2 (by decide)).2 (by decide)
  obtain ⟨p, hp, ha, hd⟩ := h
  exact ⟨p, hp, by rw [ha]; decide, by rw [hd]; decide⟩

/-- Claim C15.  For a URI that passes the checks of the head, with an absent or recognised
algorithm and digits value: on the host `hotp` the parse fails when the counter parameter is
absent or empty, fails when `strconv.ParseInt` rejects it, and otherwise returns the parsed
integer as the counter; on the host `totp` the parse succeeds with the counter 0, whatever
the counter parameter holds. -/
theorem counter_rule (std : GoStd) (uri : List Byte) (u : URL)
    (label secret algo digits counterStr : List Byte)
    (hd : OtpAuthHead std uri u label secret)
    (halgo : std.queryGet u.RawQuery (goString "algorithm") = algo)
    (hdigits : std.queryGet u.RawQuery (goString "digits") = digits)
    (hcounter : std.queryGet u.RawQuery (goString "counter") = counterStr)
    (hav : algo = [] ∨ std.toUpper algo = goString "SHA1" ∨
      std.toUpper algo = goString "SHA256" ∨ std.toUpper algo = goString "SHA512" ∨
      std.toUpper algo = goString "MD5")
    (hdv : digits = [] ∨ digits = goString "6" ∨ digits = goString "8") :
    (u.Host = goString "hotp" → counterStr = [] →
      ParseOTPAuthURI std uri = .error .missingCounter) ∧
    (u.Host = goString "hotp" → counterStr ≠ [] → std.parseInt counterStr = none →
      ParseOTPAuthURI std uri = .error .invalidCounter) ∧
    (u.Host = goString "hotp" → counterStr ≠ [] → ∀ c : Int, std.parseInt counterStr = some c →
      ∃ p : OtpParameters, ParseOTPAuthURI std uri = .ok p ∧ p.Counter = c ∧
        p.Type_ = OtpTypeHOTP) ∧
    (u.Host = goString "totp" →
      ∃ p : OtpParameters, ParseOTPAuthURI std uri = .ok p ∧ p.Counter = 0 ∧
        p.Type_ = OtpTypeTOTP) := by
  have hmain := parseOTPAuthURI_of_head std uri u label secret hd
  rw [halgo, hdigits, hcounter, algorithm_choice std algo hav, digits_choice digits hdv]
    at hmain
  simp only at hmain
  refine ⟨?_, ?_, ?_, ?_⟩
  · intro hh hc
    rw [hmain, if_pos hh, if_pos hc]
  · intro hh hc hp
    rw [hmain, if_pos hh, if_neg hc, hp]
  · intro hh hc c hp
    rw [if_pos hh, if_neg hc, hp] at hmain
    exact ⟨_, hmain, rfl, rfl⟩
  · intro ht
    have hh : ¬ u.Host = goString "hotp" := by rw [ht]; decide
    rw [if_neg hh] at hmain
    exact ⟨_, hmain, rfl, rfl⟩

/-- Witness of C15: `counter=-42` on the host `hotp` under the reference library. -/
theorem counter_rule_witness :
    ∃ p : OtpParameters,
      ParseOTPAuthURI refStd (goString
        "otpauth://hotp/Example:alice?secret=JBSWY3DPEHPK3PXP&counter=-42") = .ok p ∧
      p.Counter = -42 ∧ p.Type_ = OtpTypeHOTP :=
  (counter_rule refStd
    (goString "otpauth://hotp/Example:alice?secret=JBSWY3DPEHPK3PXP&counter=-42")
    { Host := goString "hotp", Path := goString "/Example:alice",
      RawQuery := goString "secret=JBSWY3DPEHPK3PXP&counter=-42" }
    (goString "Example:alice") [0x48, 0x65, 0x6c, 0x6c, 0x6f, 0x21, 0xde, 0xad, 0xbe, 0xef]
    [] [] (goString "-42")
    ⟨by decide, by decide, by decide, by decide, by decide, by decide, by decide⟩
    (by decide) (by decide) (by decide) (by decide) (by decide)).2.2.1 (by decide) (by decide)
    (-42) (by decide)

/-! ## The vault -/

/-! ## Tables -/

theorem selectValue_filter_ne (t : Table) (k : List Byte) :
    selectValue (t.filter fun row => row.1 ≠ k) k = none := by
  induction t with
  | nil => rfl
  | cons r t ih =>
    unfold selectValue at ih ⊢
    by_cases h : r.1 = k
    · rw [List.filter_cons_of_neg (by simpa using h)]
      exact ih
    · rw [List.filter_cons_of_pos (by simpa using h), List.find?_cons_of_neg _ (by simpa using h)]
      exact ih

theorem selectValue_filter_other (t : Table) (k k' : List Byte) (h : k' ≠ k) :
    selectValue (t.filter fun row => row.1 ≠ k) k' = selectValue t k' := by
  induction t with
  | nil => rfl
  | cons r t ih =>
    unfold selectValue at ih ⊢
    by_cases h1 : r.1 = k
    · have h2 : ¬ r.1 = k' := fun e => h (e.symm.trans h1)
      rw [List.filter_cons_of_neg (by simpa using h1),
        List.find?_cons_of_neg _ (by simpa using h2)]
      exact ih
    · by_cases h2 : r.1 = k'
      · rw [List.filter_cons_of_pos (by simpa using h1),
          List.find?_cons_of_pos _ (by simpa using h2),
          List.find?_cons_of_pos _ (by simpa using h2)]
      · rw [List.filter_cons_of_pos (by simpa using h1),
          List.find?_cons_of_neg _ (by simpa using h2),
          List.find?_cons_of_neg _ (by simpa using h2)]
        exact ih

theorem selectValue_append (t s : Table) (k : List Byte) :
    selectValue (t ++ s) k = (selectValue t k).or (selectValue s k) := by
  unfold selectValue
  rw [List.find?_append]
  cases List.find? (fun row => decide (row.1 = k)) t <;> simp

theorem selectValue_insert_same (t : Table) (k v : List Byte) :
    selectValue (insertOrReplace t k v) k = some v := by
  unfold insertOrReplace
  rw [selectValue_append, selectValue_filter_ne]
  simp [selectValue, List.find?]

theorem selectValue_insert_other (t : Table) (k v k' : List Byte) (h : k' ≠ k) :
    selectValue (insertOrReplace t k v) k' = selectValue t k' := by
  unfold insertOrReplace
  rw [selectValue_append, selectValue_filter_other t k k' h]
  have : selectValue [(k, v)] k' = none := by
    simp [selectValue, List.find?, Ne.symm h]
  rw [this]
  cases selectValue t k' <;> rfl

theorem selectValue_delete_same (t : Table) (k : List Byte) :
    selectValue (deleteKey t k) k = none := selectValue_filter_ne t k

theorem selectValue_delete_other (t : Table) (k k' : List Byte) (h : k' ≠ k) :
    selectValue (deleteKey t k) k' = selectValue t k' := selectValue_filter_other t k k' h

theorem countKey_pos_iff (t : Table) (k : List Byte) :
    0 < countKey t k ↔ selectValue t k ≠ none := by
  unfold countKey selectValue
  induction t with
  | nil => simp
  | cons r t ih =>
    by_cases h : r.1 = k
    · simp [List.filter, List.find?, h]
    · simpa [List.filter, List.find?, h] using ih

theorem insertOrReplace_fresh (t : Table) (k v : List Byte) (h : ∀ row ∈ t, row.1 ≠ k) :
    insertOrReplace t k v = t ++ [(k, v)] := by
  unfold insertOrReplace
  rw [List.filter_eq_self.mpr (by simpa using h)]

/-! ## The cipher -/

theorem readRandom_length (std : GoStd) (pos n : Nat) : (readRandom std pos n).length = n := by
  simp [readRandom]

theorem encrypt_ok (std : GoStd) (plaintext key : List Byte) (pos : Nat)
    (hk : ValidAesKey key) :
    Encrypt std plaintext key pos =
      .ok (readRandom std pos nonceLen ++
        std.gcmSeal key (readRandom std pos nonceLen) plaintext) := by
  unfold Encrypt
  rw [if_neg (not_not.mpr hk)]

theorem encrypt_bad_key (std : GoStd) (plaintext key : List Byte) (pos : Nat)
    (hk : ¬ ValidAesKey key) : Encrypt std plaintext key pos = .error .createCipher := by
  unfold Encrypt
  rw [if_pos hk]

theorem decrypt_sealed (std : GoStd) (hl : std.VaultLaws) (key nonce plaintext : List Byte)
    (hk : ValidAesKey key) (hn : nonce.length = 12) :
    Decrypt std (nonce ++ std.gcmSeal key nonce plaintext) key = .ok plaintext := by
  unfold Decrypt
  have hlen := hl.gcm_length key nonce plaintext
  rw [if_neg (by rw [List.length_append, hn, hlen]; unfold nonceLen; omega),
    if_neg (not_not.mpr hk)]
  have ht : (nonce ++ std.gcmSeal key nonce plaintext).take nonceLen = nonce :=
    List.take_left' hn
  have hd : (nonce ++ std.gcmSeal key nonce plaintext).drop nonceLen =
      std.gcmSeal key nonce plaintext := List.drop_left' hn
  rw [ht, hd, hl.gcm_round_trip key nonce plaintext hk hn]

theorem decrypt_encrypt (std : GoStd) (hl : std.VaultLaws) (plaintext key : List Byte)
    (pos : Nat) (hk : ValidAesKey key) :
    ∃ c : List Byte, Encrypt std plaintext key pos = .ok c ∧ Decrypt std c key = .ok plaintext ∧
      c.length = plaintext.length + 28 ∧ c.take 12 = readRandom std pos 12 := by
  refine ⟨_, encrypt_ok std plaintext key pos hk,
    decrypt_sealed std hl key _ plaintext hk (readRandom_length std pos nonceLen), ?_, ?_⟩
  · rw [List.length_append, readRandom_length, hl.gcm_length]
    unfold nonceLen; omega
  · exact List.take_left' (readRandom_length std pos nonceLen)

theorem decrypt_bad_key (std : GoStd) (c key : List Byte) (hk : ¬ ValidAesKey key) :
    Decrypt std c key = .error .invalidData ∨ Decrypt std c key = .error .createCipher := by
  unfold Decrypt
  by_cases h : c.length < nonceLen + 16
  · left; rw [if_pos h]
  · right; rw [if_neg h, if_pos hk]

theorem deriveKey_valid (std : GoStd) (hl : std.VaultLaws) (password salt : List Byte) :
    ValidAesKey (DeriveKey std password salt) := by
  unfold ValidAesKey DeriveKey
  rw [hl.argon2_length]
  right; right; rfl

theorem deviceKey_valid (std : GoStd) (hl : std.VaultLaws) : ValidAesKey (GetDeviceKey std) := by
  unfold ValidAesKey GetDeviceKey
  rw [hl.sha256_length]
  right; right; rfl

theorem verifyKey_sealed (std : GoStd) (hl : std.VaultLaws) (key nonce plaintext : List Byte)
    (hk : ValidAesKey key) (hn : nonce.length = 12) :
    VerifyKey std (nonce ++ std.gcmSeal key nonce plaintext) key = true := by
  unfold VerifyKey
  rw [decrypt_sealed std hl key nonce plaintext hk hn]

/-! ## Rows of the accounts table -/

theorem accountOfRow_saved (std : GoStd) (hl : std.VaultLaws) (key : List Byte)
    (hk : ValidAesKey key) (a : Account) (pos : Nat)
    (hj : std.jsonUnmarshalAccount (std.jsonMarshalAccount a) = some a) :
    accountOfRow std key (encodeBytes std (readRandom std pos nonceLen ++
      std.gcmSeal key (readRandom std pos nonceLen) (std.jsonMarshalAccount a))) = some a := by
  unfold accountOfRow decodeBytes encodeBytes
  rw [hl.base64_round_trip]
  simp only
  rw [decrypt_sealed std hl key _ _ hk (readRandom_length std pos nonceLen)]
  exact hj

theorem accountOfRow_bad_key (std : GoStd) (key data : List Byte) (hk : ¬ ValidAesKey key) :
    accountOfRow std key data = none := by
  unfold accountOfRow
  cases decodeBytes std data with
  | none => rfl
  | some enc =>
    simp only
    rcases decrypt_bad_key std enc key hk with h | h <;> rw [h]

theorem accountOfRow_image (std : GoStd) (key data : List Byte) (a : Account)
    (h : accountOfRow std key data = some a) :
    ∃ d : List Byte, std.jsonUnmarshalAccount d = some a := by
  unfold accountOfRow at h
  cases hd : decodeBytes std data with
  | none => rw [hd] at h; cases h
  | some enc =>
    rw [hd] at h
    simp only at h
    cases hc : Decrypt std enc key with
    | ok dec => rw [hc] at h; exact ⟨dec, h⟩
    | error e => rw [hc] at h; cases h
    | panic => rw [hc] at h; cases h
    | outOfFuel => rw [hc] at h; cases h

theorem saveAccountInternal_ok (std : GoStd) (db : Database) (acc : Account)
    (hk : ValidAesKey db.masterKey) :
    saveAccountInternal std db acc =
      (.ok (), { db with
        accounts := insertOrReplace db.accounts acc.ID (encodeBytes std
          (readRandom std db.randPos nonceLen ++
            std.gcmSeal db.masterKey (readRandom std db.randPos nonceLen)
              (std.jsonMarshalAccount acc)))
        randPos := db.randPos + nonceLen }) := by
  simp only [saveAccountInternal, encrypt_ok std _ _ _ hk]

theorem saveSettingsInternal_ok (std : GoStd) (db : Database) (s : Settings)
    (hk : ValidAesKey db.masterKey) :
    saveSettingsInternal std db s =
      (.ok (), { db with
        settings := insertOrReplace db.settings (goString "main") (encodeBytes std
          (readRandom std db.randPos nonceLen ++
            std.gcmSeal db.masterKey (readRandom std db.randPos nonceLen)
              (std.jsonMarshalSettings s)))
        randPos := db.randPos + nonceLen }) := by
  simp only [saveSettingsInternal, encrypt_ok std _ _ _ hk]

/-- The loop that saves the accounts ends without error under an AES key, and touches the
accounts table and the random position only. -/
theorem saveAccountsLoop_ok (std : GoStd) (accs : List Account) :
    ∀ db : Database, ValidAesKey db.masterKey →
    ∃ db' : Database, saveAccountsLoop std db accs = (.ok (), db') ∧
      db'.metadata = db.metadata ∧ db'.settings = db.settings ∧
      db'.masterKey = db.masterKey := by
  induction accs with
  | nil => intro db _; exact ⟨db, rfl, rfl, rfl, rfl⟩
  | cons a rest ih =>
    intro db hk
    obtain ⟨db', h1, h2, h3, h4⟩ := ih _ (show ValidAesKey
      ({ db with
        accounts := insertOrReplace db.accounts a.ID (encodeBytes std
          (readRandom std db.randPos nonceLen ++
            std.gcmSeal db.masterKey (readRandom std db.randPos nonceLen)
              (std.jsonMarshalAccount a)))
        randPos := db.randPos + nonceLen } : Database).masterKey from hk)
    refine ⟨db', ?_, h2, h3, h4⟩
    rw [saveAccountsLoop, saveAccountInternal_ok std db a hk]
    exact h1

/-- The loop that saves accounts with distinct IDs, none of them a key of the table, appends
one row per account, and each new row reads back as its account. -/
theorem saveAccountsLoop_rows (std : GoStd) (hl : std.VaultLaws) (accs : List Account) :
    ∀ db : Database, ValidAesKey db.masterKey →
    (∀ a ∈ accs, std.jsonUnmarshalAccount (std.jsonMarshalAccount a) = some a) →
    (accs.map fun a => a.ID).Nodup →
    (∀ a ∈ accs, ∀ row ∈ db.accounts, row.1 ≠ a.ID) →
    ∃ db' : Database, saveAccountsLoop std db accs = (.ok (), db') ∧
      db'.accounts.filterMap (fun row => accountOfRow std db.masterKey row.2) =
        db.accounts.filterMap (fun row => accountOfRow std db.masterKey row.2) ++ accs := by
  induction accs with
  | nil => intro db _ _ _ _; exact ⟨db, rfl, by simp⟩
  | cons a rest ih =>
    intro db hk hj hn hf
    have hfresh : ∀ row ∈ db.accounts, row.1 ≠ a.ID := hf a (List.mem_cons_self _ _)
    rw [List.map_cons, List.nodup_cons] at hn
    obtain ⟨db', h1, h2⟩ := ih
      ({ db with
        accounts := insertOrReplace db.accounts a.ID (encodeBytes std
          (readRandom std db.randPos nonceLen ++
            std.gcmSeal db.masterKey (readRandom std db.randPos nonceLen)
              (std.jsonMarshalAccount a)))
        randPos := db.randPos + nonceLen } : Database) hk
      (fun b hb => hj b (List.mem_cons_of_mem _ hb)) hn.2
      (by
        intro b hb row hrow
        simp only [insertOrReplace_fresh _ _ _ hfresh, List.mem_append, List.mem_singleton]
          at hrow
        rcases hrow with hrow | hrow
        · exact hf b (List.mem_cons_of_mem _ hb) row hrow
        · rw [hrow]
          intro e
          exact hn.1 (List.mem_map.mpr ⟨b, hb, e.symm⟩))
    refine ⟨db', ?_, ?_⟩
    · rw [saveAccountsLoop, saveAccountInternal_ok std db a hk]
      exact h1
    · rw [h2]
      simp only [insertOrReplace_fresh _ _ _ hfresh, List.filterMap_append,
        List.filterMap_cons, List.filterMap_nil]
      rw [accountOfRow_saved std hl db.masterKey hk a db.randPos
        (hj a (List.mem_cons_self _ _))]
      simp

/-! ## The reference library of the vault -/

theorem sha1_length (msg : List Byte) : (sha1 msg).length = 20 := by
  simp [sha1, wordBytes]

theorem hmacSha1_length (key msg : List Byte) : (hmacSha1 key msg).length = 20 := by
  unfold hmacSha1
  exact sha1_length _

theorem sha256_length (msg : List Byte) : (sha256 msg).length = 32 := by
  simp [sha256, wordBytes]

theorem flatMap_length_const {α : Type} (f : α → List Byte) (c : Nat)
    (h : ∀ a, (f a).length = c) : ∀ l : List α, (l.flatMap f).length = c * l.length := by
  intro l
  induction l with
  | nil => simp
  | cons a l ih => rw [List.flatMap_cons, List.length_append, h, ih, List.length_cons]; ring

theorem refDeriveKey_length (password salt : List Byte) (keyLen : Nat) :
    (refDeriveKey password salt keyLen).length = keyLen := by
  unfold refDeriveKey
  rw [List.length_take, flatMap_length_const _ 20 (fun i => hmacSha1_length _ _),
    List.length_range]
  omega

theorem xorBytes_length (bs ks : List Byte) : (xorBytes bs ks).length = bs.length := by
  induction bs generalizing ks with
  | nil => cases ks <;> rfl
  | cons b bs ih =>
    cases ks with
    | nil => rfl
    | cons k ks => simp [xorBytes, ih]

theorem byte_xor_xor (b k : Byte) : byte ((byte (b.val ^^^ k.val)).val ^^^ k.val) = b := by
  have hb := b.isLt
  have hk := k.isLt
  have hx : b.val ^^^ k.val < 256 := Nat.xor_lt_two_pow (n := 8) hb hk
  apply Fin.ext
  show ((b.val ^^^ k.val) % 256 ^^^ k.val) % 256 = b.val
  rw [Nat.mod_eq_of_lt hx, Nat.xor_assoc, Nat.xor_self, Nat.xor_zero, Nat.mod_eq_of_lt hb]

theorem xorBytes_xorBytes (bs ks : List Byte) : xorBytes (xorBytes bs ks) ks = bs := by
  induction bs generalizing ks with
  | nil => cases ks <;> rfl
  | cons b bs ih =>
    cases ks with
    | nil => rfl
    | cons k ks => simp only [xorBytes, ih, byte_xor_xor]

theorem refTag_length (key nonce c : List Byte) : (refTag key nonce c).length = 16 := by
  unfold refTag
  rw [List.length_take, hmacSha1_length]
  rfl

theorem refSeal_length (key nonce plaintext : List Byte) :
    (refSeal key nonce plaintext).length = plaintext.length + 16 := by
  unfold refSeal
  simp only [List.length_append, xorBytes_length, refTag_length]

theorem refOpen_refSeal (key nonce plaintext : List Byte) :
    refOpen key nonce (refSeal key nonce plaintext) = some plaintext := by
  have hlen := refSeal_length key nonce plaintext
  unfold refOpen
  rw [if_neg (by omega), hlen]
  unfold refSeal
  simp only [Nat.add_sub_cancel]
  have hx := xorBytes_length plaintext (refKeystream key nonce plaintext.length)
  rw [List.take_left' hx, List.drop_left' hx, if_pos rfl, hx, xorBytes_xorBytes]

theorem refOpen_length (key nonce c plaintext : List Byte)
    (h : refOpen key nonce c = some plaintext) : plaintext.length + 16 = c.length := by
  unfold refOpen at h
  by_cases h1 : c.length < 16
  · rw [if_pos h1] at h; cases h
  · rw [if_neg h1] at h
    simp only at h
    split at h
    · simp only [Option.some.injEq] at h
      rw [← h, xorBytes_length, List.length_take]
      omega
    · cases h

theorem jsonReadString_jsonString (s rest : List Byte) :
    jsonReadString (jsonString s ++ rest) = some (s, rest) := by
  induction s with
  | nil =>
    show jsonReadString (byte 0x22 :: rest) = some ([], rest)
    rw [jsonReadString.eq_def]
    simp
  | cons b s ih =>
    by_cases h : b = byte 0x22 ∨ b = byte 0x5c
    · simp only [jsonString, if_pos h, List.cons_append]
      rw [jsonReadString.eq_def]
      simp only [show ¬ byte 0x5c = byte 0x22 from by decide, if_false, if_true, ih,
        Option.map_some']
    · have h1 : ¬ b = byte 0x22 := fun e => h (Or.inl e)
      have h2 : ¬ b = byte 0x5c := fun e => h (Or.inr e)
      simp only [jsonString, if_neg h, List.cons_append]
      rw [jsonReadString.eq_def]
      simp only [h1, h2, if_false, ih, Option.map_some']

theorem jsonExpect_append (lit rest : List Byte) : jsonExpect lit (lit ++ rest) = some rest := by
  unfold jsonExpect
  rw [if_pos (List.isPrefixOf_iff_prefix.mpr (List.prefix_append _ _)), List.drop_left]

theorem toDigitsCore_ne_nil (fuel n : Nat) (ds : List Char) (h : ds ≠ [] ∨ 0 < fuel) :
    Nat.toDigitsCore 10 fuel n ds ≠ [] := by
  induction fuel generalizing n ds with
  | zero =>
    rcases h with h | h
    · simpa [Nat.toDigitsCore] using h
    · omega
  | succ fuel ih =>
    simp only [Nat.toDigitsCore]
    split
    · simp
    · exact ih _ _ (Or.inl (by simp))

theorem decimal_ne_nil (n : Nat) : decimal n ≠ [] := by
  unfold decimal Nat.toDigits
  intro h
  exact toDigitsCore_ne_nil (n + 1) n [] (Or.inr (by omega)) (List.map_eq_nil_iff.mp h)

theorem takeWhile_digits (ds rest : List Byte) (hd : ∀ b ∈ ds, IsAsciiDigit b)
    (hr : ∀ b, rest.head? = some b → ¬ IsAsciiDigit b) :
    (ds ++ rest).takeWhile (fun b => decide (IsAsciiDigit b)) = ds := by
  induction ds with
  | nil =>
    cases rest with
    | nil => rfl
    | cons r rest =>
      have := hr r rfl
      simp [List.takeWhile, this]
  | cons d ds ih =>
    have h1 := hd d (List.mem_cons_self _ _)
    rw [List.cons_append, List.takeWhile_cons]
    simp only [h1, decide_True, if_true]
    rw [ih fun b hb => hd b (List.mem_cons_of_mem _ hb)]

theorem jsonReadInt_jsonInt (i : Int) (rest : List Byte)
    (hr : ∀ b, rest.head? = some b → ¬ IsAsciiDigit b) :
    jsonReadInt (jsonInt i ++ rest) = some (i, rest) := by
  obtain ⟨hdig, hval⟩ := decimal_spec i.natAbs
  have hne := decimal_ne_nil i.natAbs
  have htw := takeWhile_digits (decimal i.natAbs) rest hdig hr
  unfold jsonReadInt jsonInt
  by_cases hi : i < 0
  · simp only [if_pos hi, List.cons_append, List.head?_cons, if_true, List.drop_one,
      List.tail_cons, htw, if_neg hne, hval, List.drop_left]
    congr 2
    omega
  · have hhead : ¬ (decimal i.natAbs ++ rest).head? = some (byte 0x2d) := by
      cases hdec : decimal i.natAbs with
      | nil => exact absurd hdec hne
      | cons d ds =>
        have hd := hdig d (by rw [hdec]; exact List.mem_cons_self _ _)
        rw [List.cons_append, List.head?_cons]
        intro e
        simp only [Option.some.injEq] at e
        rw [e] at hd
        exact absurd hd (by decide)
    simp only [if_neg hi, hhead, if_false, htw, if_neg hne, hval, List.drop_left]
    congr 2
    omega

theorem jsonStringField_spec (key v rest : List Byte) :
    jsonStringField key (key ++ (jsonString v ++ rest)) = some (v, rest) := by
  unfold jsonStringField
  rw [jsonExpect_append]
  exact jsonReadString_jsonString v rest

theorem jsonIntField_spec (key : List Byte) (i : Int) (rest : List Byte)
    (hr : ∀ b, rest.head? = some b → ¬ IsAsciiDigit b) :
    jsonIntField key (key ++ (jsonInt i ++ rest)) = some (i, rest) := by
  unfold jsonIntField
  rw [jsonExpect_append]
  exact jsonReadInt_jsonInt i rest hr

theorem comma_not_digit (lit rest : List Byte) (h : lit.head? = some (byte 0x2c)) :
    ∀ b, (lit ++ rest).head? = some b → ¬ IsAsciiDigit b := by
  intro b hb
  cases lit with
  | nil => cases h
  | cons c lit =>
    simp only [List.head?_cons, Option.some.injEq] at h
    simp only [List.cons_append, List.head?_cons, Option.some.injEq] at hb
    rw [← hb, h]
    decide

theorem refJson_round_trip (a : Account) :
    refJsonUnmarshalAccount (refJsonMarshalAccount a) = some a := by
  unfold refJsonMarshalAccount refJsonUnmarshalAccount
  simp only [List.append_assoc]
  rw [jsonStringField_spec]; simp only
  rw [jsonStringField_spec]; simp only
  rw [jsonStringField_spec]; simp only
  rw [jsonStringField_spec]; simp only
  rw [jsonStringField_spec]; simp only
  rw [jsonIntField_spec _ _ _ (comma_not_digit _ _ (by decide))]; simp only
  rw [jsonStringField_spec]; simp only
  rw [jsonIntField_spec _ _ _ (comma_not_digit _ _ (by decide))]; simp only
  rw [jsonIntField_spec _ _ _ (comma_not_digit _ _ (by decide))]; simp only
  have hlast : jsonStringField (goString ",\"group\":\"")
      (goString ",\"group\":\"" ++ (jsonString a.Group ++ goString "\x7d")) =
      some (a.Group, goString "\x7d") := jsonStringField_spec _ _ _
  rw [hlast]
  simp

theorem refStd_vaultLaws : refStd.VaultLaws where
  base64_round_trip := refBase64_round_trip
  gcm_round_trip := by
    intro key nonce plaintext _ _
    rw [show refStd.gcmOpen = refOpen from rfl, show refStd.gcmSeal = refSeal from rfl]
    exact refOpen_refSeal key nonce plaintext
  gcm_length := by
    intro key nonce plaintext
    rw [show refStd.gcmSeal = refSeal from rfl]
    exact refSeal_length key nonce plaintext
  gcm_open_length := by
    intro key nonce c plaintext h
    rw [show refStd.gcmOpen = refOpen from rfl] at h
    exact refOpen_length key nonce c plaintext h
  argon2_length := by
    intro password salt _ _ _ keyLen
    rw [show refStd.argon2IDKey = fun password salt _ _ _ keyLen =>
      refDeriveKey password salt keyLen from rfl]
    exact refDeriveKey_length password salt keyLen
  sha256_length := by
    intro b
    rw [show refStd.sha256Sum = sha256 from rfl]
    exact sha256_length b
  json_round_trip := by
    intro _ a _
    rw [show refStd.jsonUnmarshalAccount = refJsonUnmarshalAccount from rfl,
      show refStd.jsonMarshalAccount = refJsonMarshalAccount from rfl]
    exact refJson_round_trip a

/-! ## The change of the master key -/

theorem rotateKey_spec (std : GoStd) (hl : std.VaultLaws) (db : Database)
    (accs : List Account) (settings : Settings) (salt newKey written dropped : List Byte)
    (enabled : Bool) (hk : ValidAesKey newKey) :
    ∃ db' : Database,
      rotateKey std db accs settings salt newKey written dropped enabled = (.ok (), db') ∧
      db'.masterKey = newKey ∧
      db'.metadata = deleteKey (insertOrReplace
        (insertOrReplace db.metadata (goString "salt") (encodeBytes std salt)) written
        (encodeBytes std (readRandom std db.randPos nonceLen ++
          std.gcmSeal newKey (readRandom std db.randPos nonceLen) verifierConstant)))
        dropped ∧
      ((∀ a ∈ accs, std.jsonUnmarshalAccount (std.jsonMarshalAccount a) = some a) →
        (accs.map fun a => a.ID).Nodup →
        db'.accounts.filterMap (fun row => accountOfRow std newKey row.2) = accs) := by
  have hopen : ∀ start : Database, start.masterKey = newKey →
      ∃ db' : Database, saveAccountsLoop std start accs = (.ok (), db') ∧
        db'.metadata = start.metadata ∧ db'.masterKey = newKey ∧
        (start.accounts = [] →
          (∀ a ∈ accs, std.jsonUnmarshalAccount (std.jsonMarshalAccount a) = some a) →
          (accs.map fun a => a.ID).Nodup →
          db'.accounts.filterMap (fun row => accountOfRow std newKey row.2) = accs) := by
    intro start hs
    obtain ⟨db', h1, h2, _, h4⟩ := saveAccountsLoop_ok std accs start (hs ▸ hk)
    refine ⟨db', h1, h2, h4.trans hs, ?_⟩
    intro he hj hn
    obtain ⟨db'', g1, g2⟩ := saveAccountsLoop_rows std hl accs start (hs ▸ hk) hj hn
      (by intro a _ row hrow; rw [he] at hrow; cases hrow)
    have : db'' = db' := by
      have := g1.symm.trans h1
      exact (Prod.mk.inj this).2
    rw [this, hs, he] at g2
    simpa using g2
  unfold rotateKey
  simp only [encrypt_ok std _ _ _ hk]
  rw [saveSettingsInternal_ok std _ _ (by exact hk)]
  simp only
  obtain ⟨db', h1, h2, h3, h4⟩ := hopen
    { metadata := deleteKey (insertOrReplace
        (insertOrReplace db.metadata (goString "salt") (encodeBytes std salt)) written
        (encodeBytes std (readRandom std db.randPos nonceLen ++
          std.gcmSeal newKey (readRandom std db.randPos nonceLen) verifierConstant)))
        dropped,
      accounts := [],
      settings := insertOrReplace db.settings (goString "main") (encodeBytes std
        (readRandom std (db.randPos + nonceLen) nonceLen ++
          std.gcmSeal newKey (readRandom std (db.randPos + nonceLen) nonceLen)
            (std.jsonMarshalSettings { settings with PasswordEnabled := enabled }))),
      masterKey := newKey,
      randPos := db.randPos + nonceLen + nonceLen } rfl
  exact ⟨db', h1, h3, h2, h4 rfl⟩

theorem setPassword_eq (std : GoStd) (db : Database) (password : List Byte) :
    ∃ settings : Settings,
      SetPassword std db password =
        rotateKey std { db with randPos := db.randPos + saltLen }
          (db.accounts.filterMap fun row => accountOfRow std db.masterKey row.2) settings
          (GenerateSalt std db.randPos) (DeriveKey std password (GenerateSalt std db.randPos))
          (goString "password_verifier") (goString "device_verifier") true :=
  ⟨_, rfl⟩

theorem removePassword_eq (std : GoStd) (db : Database) :
    ∃ settings : Settings,
      RemovePassword std db =
        rotateKey std { db with randPos := db.randPos + saltLen }
          (db.accounts.filterMap fun row => accountOfRow std db.masterKey row.2) settings
          (GenerateSalt std db.randPos) (GetDeviceKey std)
          (goString "device_verifier") (goString "password_verifier") false :=
  ⟨_, rfl⟩

theorem accounts_read_back (std : GoStd) (hl : std.VaultLaws) (db : Database) :
    ∀ a ∈ db.accounts.filterMap (fun row => accountOfRow std db.masterKey row.2),
      std.jsonUnmarshalAccount (std.jsonMarshalAccount a) = some a := by
  intro a ha
  obtain ⟨row, _, hrow⟩ := List.mem_filterMap.mp ha
  obtain ⟨d, hd⟩ := accountOfRow_image std db.masterKey row.2 a hrow
  exact hl.json_round_trip d a hd

theorem unlock_of_rows (std : GoStd) (hl : std.VaultLaws) (db : Database)
    (password salt nonce : List Byte) (hn : nonce.length = 12)
    (hs : selectValue db.metadata (goString "salt") = some (encodeBytes std salt))
    (hv : selectValue db.metadata (goString "password_verifier") =
      some (encodeBytes std (nonce ++
        std.gcmSeal (DeriveKey std password salt) nonce verifierConstant))) :
    Unlock std db password = (.ok (), { db with masterKey := DeriveKey std password salt }) := by
  unfold Unlock
  rw [hs]
  simp only [decodeBytes, encodeBytes, hl.base64_round_trip, hv]
  rw [verifyKey_sealed std hl _ nonce _ (deriveKey_valid std hl password salt) hn]
  simp

theorem getAllAccounts_unlocked (std : GoStd) (db : Database) (hu : IsUnlocked db = true) :
    GetAllAccounts std db =
      (.ok (db.accounts.filterMap fun row => accountOfRow std db.masterKey row.2), db) := by
  unfold GetAllAccounts ensureUnlocked
  rw [if_pos hu]
  rfl

theorem isUnlocked_of_length (db : Database) (h : db.masterKey.length = 32) :
    IsUnlocked db = true := by
  unfold IsUnlocked
  simp [h]

/-- Claim C18.  For an unlocked vault whose accounts, as `GetAllAccounts` returns them, have
distinct IDs, and a library with the laws of the vault: `SetPassword(p)` succeeds; then
`Unlock(p)` succeeds, from whatever master key the process holds, and `GetAllAccounts`
returns the same accounts, field by field and in the same order; a following
`RemovePassword` succeeds, leaves the device key as the master key, and `GetAllAccounts`
returns the same accounts again. -/
theorem key_rotation_preserves (std : GoStd) (hl : std.VaultLaws) (db : Database)
    (password : List Byte) (accs : List Account)
    (hunlocked : IsUnlocked db = true)
    (hbefore : (GetAllAccounts std db).1 = .ok accs)
    (hids : (accs.map fun a => a.ID).Nodup) :
    ∃ db1 db2 : Database,
      SetPassword std db password = (.ok (), db1) ∧
      (∀ key : List Byte, Unlock std { db1 with masterKey := key } password = (.ok (), db1)) ∧
      GetAllAccounts std db1 = (.ok accs, db1) ∧
      RemovePassword std db1 = (.ok (), db2) ∧
      db2.masterKey = GetDeviceKey std ∧
      GetAllAccounts std db2 = (.ok accs, db2) := by
  rw [getAllAccounts_unlocked std db hunlocked] at hbefore
  simp only [Result.ok.injEq] at hbefore
  -- the password is set
  obtain ⟨settings, hset⟩ := setPassword_eq std db password
  obtain ⟨db1, h1, hkey1, hmeta1, hrows1⟩ := rotateKey_spec std hl
    { db with randPos := db.randPos + saltLen }
    (db.accounts.filterMap fun row => accountOfRow std db.masterKey row.2) settings
    (GenerateSalt std db.randPos) (DeriveKey std password (GenerateSalt std db.randPos))
    (goString "password_verifier") (goString "device_verifier") true
    (deriveKey_valid std hl _ _)
  have hread1 : db1.accounts.filterMap (fun row => accountOfRow std db1.masterKey row.2) =
      accs := by
    rw [hkey1, hrows1 (accounts_read_back std hl db) (hbefore ▸ hids), hbefore]
  have hlen1 : db1.masterKey.length = 32 := by
    rw [hkey1]; unfold DeriveKey; rw [hl.argon2_length]; rfl
  -- the password is removed
  obtain ⟨settings2, hrem⟩ := removePassword_eq std db1
  obtain ⟨db2, h2, hkey2, _, hrows2⟩ := rotateKey_spec std hl
    { db1 with randPos := db1.randPos + saltLen }
    (db1.accounts.filterMap fun row => accountOfRow std db1.masterKey row.2) settings2
    (GenerateSalt std db1.randPos) (GetDeviceKey std)
    (goString "device_verifier") (goString "password_verifier") false
    (deviceKey_valid std hl)
  have hread2 : db2.accounts.filterMap (fun row => accountOfRow std db2.masterKey row.2) =
      accs := by
    rw [hkey2, hrows2 (accounts_read_back std hl db1) (hread1 ▸ hids), hread1]
  have hlen2 : db2.masterKey.length = 32 := by
    rw [hkey2]; unfold GetDeviceKey; rw [hl.sha256_length]
  refine ⟨db1, db2, hset.trans h1, ?_, ?_, hrem.trans h2, hkey2, ?_⟩
  · intro key
    have hu := unlock_of_rows std hl { db1 with masterKey := key } password
      (GenerateSalt std db.randPos) (readRandom std (db.randPos + saltLen) nonceLen)
      (readRandom_length _ _ _)
      (by
        show selectValue db1.metadata _ = _
        rw [hmeta1, selectValue_delete_other _ _ _ (by decide),
          selectValue_insert_other _ _ _ _ (by decide), selectValue_insert_same])
      (by
        show selectValue db1.metadata _ = _
        rw [hmeta1, selectValue_delete_other _ _ _ (by decide), selectValue_insert_same])
    rw [hu, ← hkey1]
  · rw [getAllAccounts_unlocked std db1 (isUnlocked_of_length db1 hlen1), hread1]
  · rw [getAllAccounts_unlocked std db2 (isUnlocked_of_length db2 hlen2), hread2]

/-- Witness of C18: the sample vault under the reference library. -/
theorem key_rotation_preserves_witness :
    ∃ db1 db2 : Database,
      SetPassword refStd unlockedVault (goString "hunter3") = (.ok (), db1) ∧
      (∀ key : List Byte,
        Unlock refStd { db1 with masterKey := key } (goString "hunter3") = (.ok (), db1)) ∧
      GetAllAccounts refStd db1 = (.ok [sampleAccount], db1) ∧
      RemovePassword refStd db1 = (.ok (), db2) ∧
      db2.masterKey = GetDeviceKey refStd ∧
      GetAllAccounts refStd db2 = (.ok [sampleAccount], db2) :=
  key_rotation_preserves refStd refStd_vaultLaws unlockedVault (goString "hunter3")
    [sampleAccount] (by decide) (by decide) (by decide)

/-! ## The claims on the vault -/

/-- Claim C19.  `Unlock(password)` returns the not-initialized error when no salt is stored;
with a salt that decodes, the no-password-set error when no password verifier is stored; with
a verifier that decodes, the invalid-password error when the key derived from the password
and the salt does not verify against it, and otherwise no error, with the derived key as the
master key; and whenever it returns an error the state, master key and store, is the one
before the call. -/
theorem unlock_outcomes (std : GoStd) (db : Database) (password : List Byte) :
    (selectValue db.metadata (goString "salt") = none →
      Unlock std db password = (.error .notInitialized, db)) ∧
    (∀ saltEncoded salt : List Byte,
      selectValue db.metadata (goString "salt") = some saltEncoded →
      decodeBytes std saltEncoded = some salt →
      (selectValue db.metadata (goString "password_verifier") = none →
        Unlock std db password = (.error .noPasswordSet, db)) ∧
      (∀ verifierEncoded verifier : List Byte,
        selectValue db.metadata (goString "password_verifier") = some verifierEncoded →
        decodeBytes std verifierEncoded = some verifier →
        (VerifyKey std verifier (DeriveKey std password salt) = false →
          Unlock std db password = (.error .invalidPassword, db)) ∧
        (VerifyKey std verifier (DeriveKey std password salt) = true →
          Unlock std db password =
            (.ok (), { db with masterKey := DeriveKey std password salt })))) ∧
    (∀ (e : GoError) (db' : Database), Unlock std db password = (.error e, db') → db' = db) := by
  refine ⟨?_, ?_, ?_⟩
  · intro h
    unfold Unlock
    rw [h]
  · intro saltEncoded salt hs hd
    refine ⟨?_, ?_⟩
    · intro hv
      unfold Unlock
      rw [hs]; simp only [hd, hv]
    · intro verifierEncoded verifier hv hdv
      refine ⟨?_, ?_⟩
      · intro hk
        unfold Unlock
        rw [hs]; simp only [hd, hv, hdv, hk]
        simp
      · intro hk
        unfold Unlock
        rw [hs]; simp only [hd, hv, hdv, hk]
        simp
  · intro e db' h
    unfold Unlock at h
    cases hs : selectValue db.metadata (goString "salt") with
    | none => rw [hs] at h; exact (Prod.mk.inj h).2.symm
    | some saltEncoded =>
      rw [hs] at h
      simp only at h
      cases hd : decodeBytes std saltEncoded with
      | none => rw [hd] at h; exact (Prod.mk.inj h).2.symm
      | some salt =>
        rw [hd] at h
        simp only at h
        cases hv : selectValue db.metadata (goString "password_verifier") with
        | none => rw [hv] at h; exact (Prod.mk.inj h).2.symm
        | some verifierEncoded =>
          rw [hv] at h
          simp only at h
          cases hdv : decodeBytes std verifierEncoded with
          | none => rw [hdv] at h; exact (Prod.mk.inj h).2.symm
          | some verifier =>
            rw [hdv] at h
            simp only at h
            by_cases hk : VerifyKey std verifier (DeriveKey std password salt) = true
            · rw [if_neg (by simp [hk])] at h
              cases (Prod.mk.inj h).1
            · rw [if_pos (by simpa using hk)] at h
              exact (Prod.mk.inj h).2.symm

/-- Witness of C19: the password `hunter2` unlocks the locked sample vault. -/
theorem unlock_outcomes_witness :
    Unlock refStd lockedVault (goString "hunter2") =
      (.ok (), { lockedVault with
        masterKey := DeriveKey refStd (goString "hunter2")
          [0x15, 0xbc, 0x63, 0x0a, 0xb1, 0x58, 0xff, 0xa6, 0x4d, 0xf4, 0x9b, 0x42, 0xe9, 0x90,
           0x37, 0xde] }) :=
  ((((unlock_outcomes refStd lockedVault (goString "hunter2")).2.1
    (goString "FbxjCrFY/6ZN9JtC6ZA33g==")
    [0x15, 0xbc, 0x63, 0x0a, 0xb1, 0x58, 0xff, 0xa6, 0x4d, 0xf4, 0x9b, 0x42, 0xe9, 0x90,
     0x37, 0xde] (by decide) (by decide)).2
    (goString "hSzTeiHIbxa9ZAuy1kHnqSCo2pPtAGwRlV/VV5Egk5pxwYTkMvHyAIBLHMCX2JcJqiZ3nbtyHbNW")
    ((refBase64Decode (goString
      "hSzTeiHIbxa9ZAuy1kHnqSCo2pPtAGwRlV/VV5Egk5pxwYTkMvHyAIBLHMCX2JcJqiZ3nbtyHbNW")).getD [])
    (by decide) (by decide)).2) (by decide)

/-- Claim C21.  When the master key is not loaded and a password verifier is stored, each of
`SaveAccount`, `GetAccount`, `GetAllAccounts`, `SaveSettings` and `GetSettings` returns the
locked error and no data, and leaves the state, master key and store, as it was. -/
theorem locked_operations_fail (std : GoStd) (db : Database) (acc : Account)
    (id : List Byte) (s : Settings)
    (hlocked : IsUnlocked db = false) (hpassword : HasPassword db = true) :
    SaveAccount std db acc = (.error .locked, db) ∧
    GetAccount std db id = (.error .locked, db) ∧
    GetAllAccounts std db = (.error .locked, db) ∧
    SaveSettings std db s = (.error .locked, db) ∧
    GetSettings std db = (.error .locked, db) := by
  have he : ensureUnlocked std db = (.error .locked, db) := by
    unfold ensureUnlocked
    simp [hlocked, hpassword]
  refine ⟨?_, ?_, ?_, ?_, ?_⟩
  · unfold SaveAccount; rw [he]
  · unfold GetAccount; rw [he]
  · unfold GetAllAccounts; rw [he]
  · unfold SaveSettings; rw [he]
  · unfold GetSettings; rw [he]

/-- Witness of C21: the locked sample vault. -/
theorem locked_operations_fail_witness :
    SaveAccount refStd lockedVault sampleAccount = (.error .locked, lockedVault) ∧
    GetAccount refStd lockedVault (goString "id-1") = (.error .locked, lockedVault) ∧
    GetAllAccounts refStd lockedVault = (.error .locked, lockedVault) ∧
    SaveSettings refStd lockedVault DefaultSettings = (.error .locked, lockedVault) ∧
    GetSettings refStd lockedVault = (.error .locked, lockedVault) :=
  locked_operations_fail refStd lockedVault sampleAccount (goString "id-1") DefaultSettings
    (by decide) (by decide)

/-- Claim C22, at a failing input.  On the locked sample vault, which holds a password
verifier, `DeleteAccount("id-1")` returns no error and removes the row, while `SaveAccount`
on the same vault returns the locked error. -/
theorem deleteAccount_when_locked :
    HasPassword lockedVault = true ∧ IsUnlocked lockedVault = false ∧
    lockedVault.accounts ≠ [] ∧
    DeleteAccount lockedVault (goString "id-1") =
      (.ok (), { lockedVault with accounts := [] }) ∧
    SaveAccount refStd lockedVault sampleAccount = (.error .locked, lockedVault) := by
  decide

/-- Claim C23, at a failing input.  On a file without device verifier `UnlockWithDeviceKey`
returns the error "device verifier not found" and changes nothing, while
`unlockWithDeviceKeyInternal` on the same file reinitializes, returns no error and loads the
device key. -/
theorem unlockWithDeviceKey_fails :
    UnlockWithDeviceKey refStd bareVault = (.error .deviceVerifierNotFound, bareVault) ∧
    (unlockWithDeviceKeyInternal refStd bareVault).1 = .ok () ∧
    (unlockWithDeviceKeyInternal refStd bareVault).2.masterKey = GetDeviceKey refStd := by
  decide

/-- Claim C29, at a failing input.  For the secret `JBSWY3DPEHPK3PXP`, the algorithm `MD5` and
the counter 6 the HMAC-MD5 digest has 16 bytes and ends in `0x0f`: the offset is 15, the
slice `hash[15:19]` leaves the digest, and `GenerateHOTP` panics. -/
theorem md5_truncation_panics :
    GenerateHOTP refStd (goString "JBSWY3DPEHPK3PXP") (goString "MD5") 6 6 = .panic ∧
    refStd.hmacSum .md5 [0x48, 0x65, 0x6c, 0x6c, 0x6f, 0x21, 0xde, 0xad, 0xbe, 0xef]
        (putUint64 6) =
      [0x3d, 0xba, 0xd4, 0x4a, 0x3b, 0xa7, 0x52, 0xd3, 0x0b, 0xce, 0x94, 0xb5, 0x87, 0x23,
       0x3d, 0x0f] := by
  decide

theorem rotateKey_no_accounts (std : GoStd) (db : Database)
    (settings : Settings) (salt newKey written dropped : List Byte) (enabled : Bool)
    (hk : ValidAesKey newKey) :
    ∃ db' : Database,
      rotateKey std db [] settings salt newKey written dropped enabled = (.ok (), db') ∧
      db'.accounts = [] := by
  unfold rotateKey
  simp only [encrypt_ok std _ _ _ hk]
  rw [saveSettingsInternal_ok std _ _ (by exact hk)]
  exact ⟨_, rfl, rfl⟩

theorem setPassword_locked (std : GoStd) (hl : std.VaultLaws) (db : Database)
    (password : List Byte) (hlocked : ¬ ValidAesKey db.masterKey) :
    ∃ db' : Database, SetPassword std db password = (.ok (), db') ∧ db'.accounts = [] ∧
      ∀ key : List Byte, Unlock std { db' with masterKey := key } password = (.ok (), db') := by
  obtain ⟨settings, hset⟩ := setPassword_eq std db password
  have hnone : (db.accounts.filterMap fun row => accountOfRow std db.masterKey row.2) = [] := by
    apply List.filterMap_eq_nil_iff.mpr
    intro row _
    exact accountOfRow_bad_key std db.masterKey row.2 hlocked
  rw [hnone] at hset
  obtain ⟨db1, h1, hkey1, hmeta1, _⟩ := rotateKey_spec std hl
    { db with randPos := db.randPos + saltLen } [] settings
    (GenerateSalt std db.randPos) (DeriveKey std password (GenerateSalt std db.randPos))
    (goString "password_verifier") (goString "device_verifier") true
    (deriveKey_valid std hl _ _)
  obtain ⟨db2, g1, g2⟩ := rotateKey_no_accounts std
    { db with randPos := db.randPos + saltLen } settings
    (GenerateSalt std db.randPos) (DeriveKey std password (GenerateSalt std db.randPos))
    (goString "password_verifier") (goString "device_verifier") true
    (deriveKey_valid std hl _ _)
  have hsame : db2 = db1 := (Prod.mk.inj (g1.symm.trans h1)).2
  rw [hsame] at g2
  refine ⟨db1, hset.trans h1, g2, ?_⟩
  intro key
  have hu := unlock_of_rows std hl { db1 with masterKey := key } password
    (GenerateSalt std db.randPos) (readRandom std (db.randPos + saltLen) nonceLen)
    (readRandom_length _ _ _)
    (by
      show selectValue db1.metadata _ = _
      rw [hmeta1, selectValue_delete_other _ _ _ (by decide),
        selectValue_insert_other _ _ _ _ (by decide), selectValue_insert_same])
    (by
      show selectValue db1.metadata _ = _
      rw [hmeta1, selectValue_delete_other _ _ _ (by decide), selectValue_insert_same])
  rw [hu, ← hkey1]

/-- Claim C20, at a failing input.  On the locked sample vault (a password verifier is
stored, the master key is not loaded, the password `intruder` does not unlock it)
`SetPassword("intruder")` returns no error, leaves the accounts table empty, and from then on
`Unlock("intruder")` succeeds. -/
theorem setPassword_when_locked :
    HasPassword lockedVault = true ∧ IsUnlocked lockedVault = false ∧
    lockedVault.accounts ≠ [] ∧
    Unlock refStd lockedVault (goString "intruder") = (.error .invalidPassword, lockedVault) ∧
    ∃ db' : Database,
      SetPassword refStd lockedVault (goString "intruder") = (.ok (), db') ∧
      db'.accounts = [] ∧
      ∀ key : List Byte,
        Unlock refStd { db' with masterKey := key } (goString "intruder") = (.ok (), db') :=
  ⟨by decide, by decide, by decide, by decide,
    setPassword_locked refStd refStd_vaultLaws lockedVault (goString "intruder") (by decide)⟩

/-- Counterexample to C24 as stated.  On the locked sample vault, which holds a salt and a
password verifier, `Initialize` returns no error, replaces the stored salt and loads the
device key. -/
theorem initialize_overwrites :
    IsInitialized lockedVault = true ∧ HasPassword lockedVault = true ∧
    lockedVault.masterKey = [] ∧
    (Initialize refStd lockedVault).1 = .ok () ∧
    selectValue (Initialize refStd lockedVault).2.metadata (goString "salt") ≠
      selectValue lockedVault.metadata (goString "salt") ∧
    (Initialize refStd lockedVault).2.masterKey = GetDeviceKey refStd := by
  decide

/-- Claim C24, amended.  `Initialize` makes no check of the state: from every state it
returns no error, stores a fresh salt and a device verifier that verifies under the device
key, stores the default settings encrypted under the device key, and leaves the vault
unlocked under the device key; the accounts table and a stored password verifier stay as
they were. -/
theorem initialize_any_state (std : GoStd) (hl : std.VaultLaws) (db : Database) :
    ∃ (db' : Database) (verifier sealedSettings : List Byte),
      Initialize std db = (.ok (), db') ∧
      selectValue db'.metadata (goString "salt") =
        some (encodeBytes std (GenerateSalt std db.randPos)) ∧
      selectValue db'.metadata (goString "device_verifier") =
        some (encodeBytes std verifier) ∧
      VerifyKey std verifier (GetDeviceKey std) = true ∧
      selectValue db'.settings (goString "main") = some (encodeBytes std sealedSettings) ∧
      Decrypt std sealedSettings (GetDeviceKey std) =
        .ok (std.jsonMarshalSettings DefaultSettings) ∧
      db'.masterKey = GetDeviceKey std ∧ IsUnlocked db' = true ∧
      db'.accounts = db.accounts ∧
      selectValue db'.metadata (goString "password_verifier") =
        selectValue db.metadata (goString "password_verifier") := by
  have hk := deviceKey_valid std hl
  have hlen : (GetDeviceKey std).length = 32 := by
    unfold GetDeviceKey; rw [hl.sha256_length]
  unfold Initialize
  simp only [encrypt_ok std _ _ _ hk]
  rw [saveSettingsInternal_ok std _ _ (by exact hk)]
  refine ⟨_, readRandom std (db.randPos + saltLen) nonceLen ++
      std.gcmSeal (GetDeviceKey std) (readRandom std (db.randPos + saltLen) nonceLen)
        verifierConstant,
    readRandom std (db.randPos + saltLen + nonceLen) nonceLen ++
      std.gcmSeal (GetDeviceKey std) (readRandom std (db.randPos + saltLen + nonceLen) nonceLen)
        (std.jsonMarshalSettings DefaultSettings),
    rfl, ?_, ?_, ?_, ?_, ?_, rfl, ?_, rfl, ?_⟩
  · show selectValue (insertOrReplace (insertOrReplace db.metadata _ _) _ _) _ = _
    rw [selectValue_insert_other _ _ _ _ (by decide), selectValue_insert_same]
  · show selectValue (insertOrReplace (insertOrReplace db.metadata _ _) _ _) _ = _
    rw [selectValue_insert_same]
  · exact verifyKey_sealed std hl _ _ _ hk (readRandom_length _ _ _)
  · show selectValue (insertOrReplace db.settings _ _) _ = _
    rw [selectValue_insert_same]
  · exact decrypt_sealed std hl _ _ _ hk (readRandom_length _ _ _)
  · exact isUnlocked_of_length _ hlen
  · show selectValue (insertOrReplace (insertOrReplace db.metadata _ _) _ _) _ = _
    rw [selectValue_insert_other _ _ _ _ (by decide),
      selectValue_insert_other _ _ _ _ (by decide)]

/-- Witness of C24: an empty file under the reference library. -/
theorem initialize_any_state_witness :
    ∃ (db' : Database) (verifier sealedSettings : List Byte),
      Initialize refStd { bareVault with metadata := [] } = (.ok (), db') ∧
      selectValue db'.metadata (goString "salt") =
        some (encodeBytes refStd (GenerateSalt refStd 0)) ∧
      selectValue db'.metadata (goString "device_verifier") =
        some (encodeBytes refStd verifier) ∧
      VerifyKey refStd verifier (GetDeviceKey refStd) = true ∧
      selectValue db'.settings (goString "main") = some (encodeBytes refStd sealedSettings) ∧
      Decrypt refStd sealedSettings (GetDeviceKey refStd) =
        .ok (refStd.jsonMarshalSettings DefaultSettings) ∧
      db'.masterKey = GetDeviceKey refStd ∧ IsUnlocked db' = true ∧
      db'.accounts = [] ∧
      selectValue db'.metadata (goString "password_verifier") = none :=
  initialize_any_state refStd refStd_vaultLaws { bareVault with metadata := [] }

/-- Claim C25.  `SetPassword` succeeds and leaves a password verifier that was encrypted
under, and verifies under, the new master key, and no device verifier; `RemovePassword`
succeeds and leaves a device verifier that was encrypted under, and verifies under, the new
master key, which is the device key, and no password verifier. -/
theorem key_sources_exclusive (std : GoStd) (hl : std.VaultLaws) (db : Database)
    (password : List Byte) :
    (∃ (db1 : Database) (verifier : List Byte) (pos : Nat),
      SetPassword std db password = (.ok (), db1) ∧
      selectValue db1.metadata (goString "password_verifier") =
        some (encodeBytes std verifier) ∧
      Encrypt std verifierConstant db1.masterKey pos = .ok verifier ∧
      VerifyKey std verifier db1.masterKey = true ∧
      selectValue db1.metadata (goString "device_verifier") = none) ∧
    (∃ (db2 : Database) (verifier : List Byte) (pos : Nat),
      RemovePassword std db = (.ok (), db2) ∧
      selectValue db2.metadata (goString "device_verifier") =
        some (encodeBytes std verifier) ∧
      Encrypt std verifierConstant db2.masterKey pos = .ok verifier ∧
      VerifyKey std verifier db2.masterKey = true ∧
      db2.masterKey = GetDeviceKey std ∧
      selectValue db2.metadata (goString "password_verifier") = none) := by
  constructor
  · obtain ⟨settings, hset⟩ := setPassword_eq std db password
    have hk := deriveKey_valid std hl password (GenerateSalt std db.randPos)
    obtain ⟨db1, h1, hkey1, hmeta1, _⟩ := rotateKey_spec std hl
      { db with randPos := db.randPos + saltLen }
      (db.accounts.filterMap fun row => accountOfRow std db.masterKey row.2) settings
      (GenerateSalt std db.randPos) (DeriveKey std password (GenerateSalt std db.randPos))
      (goString "password_verifier") (goString "device_verifier") true hk
    refine ⟨db1, readRandom std (db.randPos + saltLen) nonceLen ++
        std.gcmSeal (DeriveKey std password (GenerateSalt std db.randPos))
          (readRandom std (db.randPos + saltLen) nonceLen) verifierConstant,
      db.randPos + saltLen, hset.trans h1, ?_, ?_, ?_, ?_⟩
    · rw [hmeta1, selectValue_delete_other _ _ _ (by decide), selectValue_insert_same]
    · rw [hkey1]; exact encrypt_ok std _ _ _ hk
    · rw [hkey1]; exact verifyKey_sealed std hl _ _ _ hk (readRandom_length _ _ _)
    · rw [hmeta1, selectValue_delete_same]
  · obtain ⟨settings, hrem⟩ := removePassword_eq std db
    have hk := deviceKey_valid std hl
    obtain ⟨db2, h2, hkey2, hmeta2, _⟩ := rotateKey_spec std hl
      { db with randPos := db.randPos + saltLen }
      (db.accounts.filterMap fun row => accountOfRow std db.masterKey row.2) settings
      (GenerateSalt std db.randPos) (GetDeviceKey std)
      (goString "device_verifier") (goString "password_verifier") false hk
    refine ⟨db2, readRandom std (db.randPos + saltLen) nonceLen ++
        std.gcmSeal (GetDeviceKey std)
          (readRandom std (db.randPos + saltLen) nonceLen) verifierConstant,
      db.randPos + saltLen, hrem.trans h2, ?_, ?_, ?_, hkey2, ?_⟩
    · rw [hmeta2, selectValue_delete_other _ _ _ (by decide), selectValue_insert_same]
    · rw [hkey2]; exact encrypt_ok std _ _ _ hk
    · rw [hkey2]; exact verifyKey_sealed std hl _ _ _ hk (readRandom_length _ _ _)
    · rw [hmeta2, selectValue_delete_same]

/-- Witness of C25: the sample vault under the reference library. -/
theorem key_sources_exclusive_witness :
    (∃ (db1 : Database) (verifier : List Byte) (pos : Nat),
      SetPassword refStd unlockedVault (goString "hunter3") = (.ok (), db1) ∧
      selectValue db1.metadata (goString "password_verifier") =
        some (encodeBytes refStd verifier) ∧
      Encrypt refStd verifierConstant db1.masterKey pos = .ok verifier ∧
      VerifyKey refStd verifier db1.masterKey = true ∧
      selectValue db1.metadata (goString "device_verifier") = none) ∧
    (∃ (db2 : Database) (verifier : List Byte) (pos : Nat),
      RemovePassword refStd unlockedVault = (.ok (), db2) ∧
      selectValue db2.metadata (goString "device_verifier") =
        some (encodeBytes refStd verifier) ∧
      Encrypt refStd verifierConstant db2.masterKey pos = .ok verifier ∧
      VerifyKey refStd verifier db2.masterKey = true ∧
      db2.masterKey = GetDeviceKey refStd ∧
      selectValue db2.metadata (goString "password_verifier") = none) :=
  key_sources_exclusive refStd refStd_vaultLaws unlockedVault (goString "hunter3")

theorem accountOfRow_some_iff (std : GoStd) (key data : List Byte) (a : Account) :
    accountOfRow std key data = some a ↔
      ∃ enc dec : List Byte, decodeBytes std data = some enc ∧
        Decrypt std enc key = .ok dec ∧ std.jsonUnmarshalAccount dec = some a := by
  unfold accountOfRow
  cases hd : decodeBytes std data with
  | none => simp
  | some enc =>
    simp only [Option.some.injEq, exists_and_left, exists_eq_left']
    cases hc : Decrypt std enc key <;> simp

theorem decrypt_total (std : GoStd) (c key : List Byte) :
    (∃ p : List Byte, Decrypt std c key = .ok p) ∨ ∃ e : GoError, Decrypt std c key = .error e := by
  unfold Decrypt
  split
  · exact Or.inr ⟨_, rfl⟩
  · split
    · exact Or.inr ⟨_, rfl⟩
    · split
      · exact Or.inl ⟨_, rfl⟩
      · exact Or.inr ⟨_, rfl⟩

theorem getAccountRow_error (std : GoStd) (db : Database) (id data : List Byte)
    (hsel : selectValue db.accounts id = some data)
    (hbad : accountOfRow std db.masterKey data = none) :
    ∃ e : GoError, getAccountRow std db id = .error e := by
  unfold getAccountRow
  rw [hsel]
  unfold accountOfRow at hbad
  simp only
  cases hd : decodeBytes std data with
  | none => exact ⟨_, rfl⟩
  | some enc =>
    rw [hd] at hbad
    simp only at hbad ⊢
    rcases decrypt_total std enc db.masterKey with ⟨p, hp⟩ | ⟨e, he⟩
    · rw [hp] at hbad ⊢
      simp only at hbad ⊢
      rw [hbad]
      exact ⟨_, rfl⟩
    · rw [he]
      exact ⟨_, rfl⟩

/-- Claim C26.  For every content of the accounts table `getAllAccountsInternal` returns no
error and the accounts of the rows, in row order, that base64-decode, decrypt under the
master key and deserialize; with a row that fails one of the three steps among the others
it returns the accounts of the rows before it followed by those of the rows after it; on an
unlocked vault `GetAllAccounts` returns the same, and `GetAccount` on a row that fails one of
the three steps returns an error. -/
theorem bulk_read_skips (std : GoStd) (db : Database) :
    getAllAccountsInternal std db =
      .ok (db.accounts.filterMap fun row => accountOfRow std db.masterKey row.2) ∧
    (∀ (data : List Byte) (a : Account), accountOfRow std db.masterKey data = some a ↔
      ∃ enc dec : List Byte, decodeBytes std data = some enc ∧
        Decrypt std enc db.masterKey = .ok dec ∧ std.jsonUnmarshalAccount dec = some a) ∧
    (∀ (front back : Table) (bad : List Byte × List Byte),
      db.accounts = front ++ bad :: back → accountOfRow std db.masterKey bad.2 = none →
      getAllAccountsInternal std db =
        .ok ((front.filterMap fun row => accountOfRow std db.masterKey row.2) ++
          back.filterMap fun row => accountOfRow std db.masterKey row.2)) ∧
    (IsUnlocked db = true →
      GetAllAccounts std db = (getAllAccountsInternal std db, db) ∧
      ∀ id data : List Byte, selectValue db.accounts id = some data →
        accountOfRow std db.masterKey data = none →
        ∃ e : GoError, GetAccount std db id = (.error e, db)) := by
  refine ⟨rfl, fun data a => accountOfRow_some_iff std db.masterKey data a, ?_, ?_⟩
  · intro front back bad hrows hbad
    unfold getAllAccountsInternal
    rw [hrows, List.filterMap_append, List.filterMap_cons, hbad]
  · intro hu
    refine ⟨by rw [getAllAccounts_unlocked std db hu]; rfl, ?_⟩
    intro id data hsel hbad
    obtain ⟨e, he⟩ := getAccountRow_error std db id data hsel hbad
    refine ⟨e, ?_⟩
    unfold GetAccount ensureUnlocked
    rw [if_pos hu]
    simp only [he]

/-- Claim C27.  For every key, `Decrypt` returns `ErrInvalidData` on an input shorter than
28 bytes; for a key of 32 bytes and an input of at least 28 bytes it returns a plaintext of
the length of the input minus 28, or `ErrDecryptionFailed`. -/
theorem decrypt_failure_kinds (std : GoStd) (hl : std.VaultLaws) :
    (∀ key c : List Byte, c.length < 28 → Decrypt std c key = .error .invalidData) ∧
    (∀ key c : List Byte, key.length = 32 → 28 ≤ c.length →
      (∃ p : List Byte, Decrypt std c key = .ok p ∧ p.length = c.length - 28) ∨
      Decrypt std c key = .error .decryptionFailed) := by
  constructor
  · intro key c hc
    unfold Decrypt
    rw [if_pos (by unfold nonceLen; omega)]
  · intro key c hk hc
    have hv : ValidAesKey key := Or.inr (Or.inr hk)
    unfold Decrypt
    rw [if_neg (by unfold nonceLen; omega), if_neg (not_not.mpr hv)]
    cases ho : std.gcmOpen key (c.take nonceLen) (c.drop nonceLen) with
    | none => right; rfl
    | some p =>
      left
      refine ⟨p, rfl, ?_⟩
      have := hl.gcm_open_length _ _ _ _ ho
      rw [List.length_drop] at this
      unfold nonceLen at this
      omega

/-- Witness of C27: the reference library. -/
theorem decrypt_failure_kinds_witness :
    (∀ key c : List Byte, c.length < 28 → Decrypt refStd c key = .error .invalidData) ∧
    (∀ key c : List Byte, key.length = 32 → 28 ≤ c.length →
      (∃ p : List Byte, Decrypt refStd c key = .ok p ∧ p.length = c.length - 28) ∨
      Decrypt refStd c key = .error .decryptionFailed) :=
  decrypt_failure_kinds refStd refStd_vaultLaws

/-- Claim C28.  For a payload `X` and a key `K` of 32 bytes, `Encrypt` returns the 12-byte
nonce followed by the output of `Seal`, which is 16 bytes longer than `X`, so `X.length + 28`
bytes in all; `Decrypt` under `K` gives back `X` and `VerifyKey` under `K` is true; `VerifyKey`
is true exactly when `Decrypt` succeeds; and under any key `K2` of 32 bytes `VerifyKey` is
false exactly when the `Open` of AES-GCM under `K2` rejects what `Seal` under `K` has
produced, which is what the authentication of AES-GCM provides for a key other than `K`. -/
theorem verify_key_cases (std : GoStd) (hl : std.VaultLaws) (X K : List Byte) (pos : Nat)
    (hK : K.length = 32) :
    ∃ c : List Byte, Encrypt std X K pos = .ok c ∧
      c = readRandom std pos nonceLen ++ std.gcmSeal K (readRandom std pos nonceLen) X ∧
      (readRandom std pos nonceLen).length = 12 ∧
      (std.gcmSeal K (readRandom std pos nonceLen) X).length = X.length + 16 ∧
      c.length = X.length + 28 ∧
      Decrypt std c K = .ok X ∧ VerifyKey std c K = true ∧
      (∀ K2 : List Byte, K2.length = 32 →
        (VerifyKey std c K2 = false ↔
          std.gcmOpen K2 (readRandom std pos nonceLen)
            (std.gcmSeal K (readRandom std pos nonceLen) X) = none)) ∧
      ∀ v key : List Byte, VerifyKey std v key = true ↔ ∃ p, Decrypt std v key = .ok p := by
  have hk : ValidAesKey K := Or.inr (Or.inr hK)
  have hn := readRandom_length std pos nonceLen
  have hlen : (readRandom std pos nonceLen ++
      std.gcmSeal K (readRandom std pos nonceLen) X).length = X.length + 28 := by
    rw [List.length_append, hn, hl.gcm_length]; unfold nonceLen; omega
  refine ⟨_, encrypt_ok std X K pos hk, rfl, hn, hl.gcm_length _ _ _, hlen,
    decrypt_sealed std hl K _ X hk hn, verifyKey_sealed std hl K _ X hk hn, ?_, ?_⟩
  · intro K2 hK2
    have h2 : ValidAesKey K2 := Or.inr (Or.inr hK2)
    unfold VerifyKey Decrypt
    rw [if_neg (by rw [hlen]; unfold nonceLen; omega), if_neg (not_not.mpr h2),
      List.take_left' hn, List.drop_left' hn]
    cases std.gcmOpen K2 (readRandom std pos nonceLen)
      (std.gcmSeal K (readRandom std pos nonceLen) X) <;> simp
  · intro v key
    unfold VerifyKey
    cases Decrypt std v key <;> simp

/-- Witness of C28: the sample key under the reference library, and the all-zero key as the
wrong key, under which the check is false. -/
theorem verify_key_cases_witness :
    (∃ c : List Byte, Encrypt refStd (goString "x") sampleKey 0 = .ok c ∧
      c = readRandom refStd 0 nonceLen ++
        refStd.gcmSeal sampleKey (readRandom refStd 0 nonceLen) (goString "x") ∧
      (readRandom refStd 0 nonceLen).length = 12 ∧
      (refStd.gcmSeal sampleKey (readRandom refStd 0 nonceLen) (goString "x")).length =
        (goString "x").length + 16 ∧
      c.length = (goString "x").length + 28 ∧
      Decrypt refStd c sampleKey = .ok (goString "x") ∧ VerifyKey refStd c sampleKey = true ∧
      (∀ K2 : List Byte, K2.length = 32 →
        (VerifyKey refStd c K2 = false ↔
          refStd.gcmOpen K2 (readRandom refStd 0 nonceLen)
            (refStd.gcmSeal sampleKey (readRandom refStd 0 nonceLen) (goString "x")) = none)) ∧
      ∀ v key : List Byte,
        VerifyKey refStd v key = true ↔ ∃ p, Decrypt refStd v key = .ok p) ∧
    sampleKey ≠ List.replicate 32 (byte 0) ∧
    VerifyKey refStd (readRandom refStd 0 nonceLen ++
      refStd.gcmSeal sampleKey (readRandom refStd 0 nonceLen) (goString "x"))
      (List.replicate 32 (byte 0)) = false :=
  ⟨verify_key_cases refStd refStd_vaultLaws (goString "x") sampleKey 0 (by decide),
    by decide,
    by
      obtain ⟨c, _, hc, _, _, _, _, _, hw, _⟩ :=
        verify_key_cases refStd refStd_vaultLaws (goString "x") sampleKey 0 (by decide)
      rw [← hc]
      exact (hw (List.replicate 32 (byte 0)) (by decide)).2 (by decide)⟩

theorem firstValue_cons (key pair kraw vraw k v : List Byte) (rest : List (List Byte))
    (hc : cut (byte 0x3d) pair = some (kraw, vraw)) (hk : refUnescape true kraw = some k)
    (hv : refUnescape true vraw = some v) :
    firstValue key (pair :: rest) = if k = key then v else firstValue key rest := by
  simp only [firstValue, hc, hk, hv]

/-- Counterexample to C30 as stated.  Two URIs that differ only in the value of `period`, `30`
in the first and `30` followed by a line feed in the second: the first is accepted, the second
is refused with the error of `url.Parse`, which accepts no control character. -/
theorem period_line_feed_rejected :
    ParseOTPAuthURI refStd
        (goString "otpauth://totp/Example:alice?secret=JBSWY3DPEHPK3PXP&period=30") =
      .ok { Secret := [0x48, 0x65, 0x6c, 0x6c, 0x6f, 0x21, 0xde, 0xad, 0xbe, 0xef],
            Name := goString "alice", Issuer := goString "Example",
            Algorithm := AlgorithmSHA1, Digits := DigitCountSix, Type_ := OtpTypeTOTP,
            Counter := 0 } ∧
    ParseOTPAuthURI refStd
        (goString "otpauth://totp/Example:alice?secret=JBSWY3DPEHPK3PXP&period=30" ++
          [byte 0x0a]) = .error .parseURI := by
  constructor <;> decide

/-- Claim C30, amended.  Two `otpauth://` URIs that `url.Parse` accepts, and whose URLs have
the same host and path and the same value for every query parameter other than `period`, get
the same result from `ParseOTPAuthURI`, and the account `ImportFromStandardURI` builds from an
accepted one has the period 30. -/
theorem period_ignored (std : GoStd) (uri1 uri2 : List Byte) (u1 u2 : URL)
    (hs1 : (goString "otpauth://").isPrefixOf uri1 = true)
    (hs2 : (goString "otpauth://").isPrefixOf uri2 = true)
    (h1 : std.urlParse uri1 = some u1) (h2 : std.urlParse uri2 = some u2)
    (hhost : u1.Host = u2.Host) (hpath : u1.Path = u2.Path)
    (hquery : ∀ key : List Byte, key ≠ goString "period" →
      std.queryGet u1.RawQuery key = std.queryGet u2.RawQuery key) :
    ParseOTPAuthURI std uri1 = ParseOTPAuthURI std uri2 ∧
    ∀ (id : List Byte) (p : OtpParameters), ParseOTPAuthURI std uri1 = .ok p →
      (importedAccount std id p).Period = 30 := by
  have k1 := hquery (goString "secret") (by decide)
  have k2 := hquery (goString "issuer") (by decide)
  have k3 := hquery (goString "algorithm") (by decide)
  have k4 := hquery (goString "digits") (by decide)
  have k5 := hquery (goString "counter") (by decide)
  refine ⟨?_, fun id p _ => rfl⟩
  unfold ParseOTPAuthURI
  rw [if_neg (by simp [hs1]), if_neg (by simp [hs2]), h1, h2]
  simp only [hhost, hpath, k1, k2, k3, k4, k5]

/-- Witness of C30: a URI with `period=60` and the same URI without it. -/
theorem period_ignored_witness :
    ParseOTPAuthURI refStd
        (goString "otpauth://totp/Example:alice?secret=JBSWY3DPEHPK3PXP&period=60") =
      ParseOTPAuthURI refStd
        (goString "otpauth://totp/Example:alice?secret=JBSWY3DPEHPK3PXP") ∧
    ∀ (id : List Byte) (p : OtpParameters),
      ParseOTPAuthURI refStd
        (goString "otpauth://totp/Example:alice?secret=JBSWY3DPEHPK3PXP&period=60") = .ok p →
      (importedAccount refStd id p).Period = 30 :=
  period_ignored refStd
    (goString "otpauth://totp/Example:alice?secret=JBSWY3DPEHPK3PXP&period=60")
    (goString "otpauth://totp/Example:alice?secret=JBSWY3DPEHPK3PXP")
    { Host := goString "totp", Path := goString "/Example:alice",
      RawQuery := goString "secret=JBSWY3DPEHPK3PXP&period=60" }
    { Host := goString "totp", Path := goString "/Example:alice",
      RawQuery := goString "secret=JBSWY3DPEHPK3PXP" }
    (by decide) (by decide) (by decide) (by decide) rfl rfl
    (by
      intro key hk
      show refQueryGet (goString "secret=JBSWY3DPEHPK3PXP&period=60") key =
        refQueryGet (goString "secret=JBSWY3DPEHPK3PXP") key
      unfold refQueryGet
      rw [show splitOn (byte 0x26) (goString "secret=JBSWY3DPEHPK3PXP&period=60") =
          [goString "secret=JBSWY3DPEHPK3PXP", goString "period=60"] from by decide,
        show splitOn (byte 0x26) (goString "secret=JBSWY3DPEHPK3PXP") =
          [goString "secret=JBSWY3DPEHPK3PXP"] from by decide,
        firstValue_cons key _ (goString "secret") (goString "JBSWY3DPEHPK3PXP")
          (goString "secret") (goString "JBSWY3DPEHPK3PXP") _ (by decide) (by decide)
          (by decide),
        firstValue_cons key _ (goString "period") (goString "60")
          (goString "period") (goString "60") _ (by decide) (by decide) (by decide),
        firstValue_cons key _ (goString "secret") (goString "JBSWY3DPEHPK3PXP")
          (goString "secret") (goString "JBSWY3DPEHPK3PXP") _ (by decide) (by decide)
          (by decide),
        if_neg (show ¬ goString "period" = key from fun e => hk e.symm)])

end GoAuth
